import Mathlib

/-!
# deeplink-bff: the redacting value cloner and log handler of `pkg/logx`

A shallow embedding of `pkg/string/snake.go` (`SnakeCase`), of
`pkg/logx/clone.go` (`clone`) and of `pkg/logx/censor.go` and
`pkg/logx/handler.go` (`censorAttribute`, `Handle`, `AppendCtx`,
`getAttrsFromContext`), and of `pkg/logx/logx.go` and `pkg/logx/opts.go`
(`New` and its options), followed by theorems about them.

Conventions of the embedding.

* A Go `reflect.Value` is a `Value`, one constructor per `reflect.Kind` the
  cloner tells apart.  Pointers to storage that exists before the call are
  `ref a` (the cell `a` of the heap that the environment carries, so that
  cyclic and shared structures can be written down); a pointer to a cell that
  `reflect.New` allocates during the call is `box v`.
* The depth counter that `clone` keeps in its `context.Context` is the
  argument `ctx : Option Nat` (`none`: the key `ctxKeyDepth` is absent).
* A Go panic is the result `none`.
* The Go standard library is not part of the repository: the `unicode` tables
  and the `encoding/json` codec are fields of the environment `Env`.
* A Go string is a Lean `String` (valid UTF-8), a Go map has string keys and
  its entries are listed in a fixed order, and the capacity of a slice is not
  kept.
* A `slog.Value` is a `LogValue`: a group with its members, or any other value
  given by what `reflect` shows of its `Any()`.  `slog.Group` and
  `Record.AddAttrs` leave out empty groups, as `log/slog` documents; what
  `reflect` shows of a `[]slog.Attr` is the field of the environment `Slog`.
* The attribute slices that contexts carry are slice headers into a `Memory`
  of backing arrays, so that `append` may write in place.
-/

namespace Logx

/-! ## `pkg/string/snake.go` -/

/-- The functions of Go's `unicode` package (and the space test behind
`strings.TrimSpace`) that `delimiterCase` calls. -/
structure Unicode where
  isUpper : Char → Bool
  isLower : Char → Bool
  isNumber : Char → Bool
  isSpace : Char → Bool
  toLower : Char → Char
  toUpper : Char → Char

/-- Go's tables on U+0000..U+007F; every rune outside ASCII is taken as
caseless, not a number and not a space.  Used for worked examples only. -/
def Unicode.ascii : Unicode where
  isUpper := fun c => decide ('A'.toNat ≤ c.toNat ∧ c.toNat ≤ 'Z'.toNat)
  isLower := fun c => decide ('a'.toNat ≤ c.toNat ∧ c.toNat ≤ 'z'.toNat)
  isNumber := fun c => decide ('0'.toNat ≤ c.toNat ∧ c.toNat ≤ '9'.toNat)
  isSpace := fun c => decide (c.toNat = 32 ∨ (9 ≤ c.toNat ∧ c.toNat ≤ 13))
  toLower := fun c =>
    if 'A'.toNat ≤ c.toNat ∧ c.toNat ≤ 'Z'.toNat then Char.ofNat (c.toNat + 32) else c
  toUpper := fun c =>
    if 'a'.toNat ≤ c.toNat ∧ c.toNat ≤ 'z'.toNat then Char.ofNat (c.toNat - 32) else c

/-- Go `isDelimiterOptimized`: whitespace, underscore or hyphen. -/
def isDelimiterOptimized (ch : Char) : Bool :=
  ch == '-' || ch == '_' || ch == ' ' || ch == '\t' || ch == '\n' || ch == '\r'

/-- Go `strings.TrimSpace` on the runes of a string. -/
def trimSpace (U : Unicode) (s : List Char) : List Char :=
  ((s.dropWhile U.isSpace).reverse.dropWhile U.isSpace).reverse

/-- The `for i := 0; i < len(runes); i++` loop of `delimiterCase`: `i` is the
index of the head of `runes`, `prev` the rune before it and `builder` what has
been written so far. -/
def delimiterLoop (U : Unicode) (delimiter : Char) (adjustCase : Char → Char) :
    Nat → Char → List Char → List Char → List Char
  | _, _, [], builder => builder
  | i, prev, curr :: rest, builder =>
    if isDelimiterOptimized curr then
      let builder :=
        if 0 < i ∧ !isDelimiterOptimized prev then builder ++ [delimiter] else builder
      delimiterLoop U delimiter adjustCase (i + 1) curr rest builder
    else
      let nextIsLower : Bool :=
        match rest with
        | [] => false
        | next :: _ => U.isLower next
      let builder :=
        if 0 < i ∧ U.isUpper curr then
          if U.isLower prev then builder ++ [delimiter]
          else if U.isUpper prev ∧ nextIsLower then builder ++ [delimiter]
          else builder
        else builder
      let builder :=
        if U.isNumber curr then
          let builder :=
            if 0 < i ∧ !U.isNumber prev ∧ !isDelimiterOptimized prev ∧ U.isUpper prev then
              builder ++ [delimiter]
            else builder
          builder ++ [curr]
        else
          let builder :=
            if 0 < i ∧ U.isNumber prev ∧ U.isUpper curr then builder ++ [delimiter]
            else builder
          builder ++ [adjustCase curr]
      delimiterLoop U delimiter adjustCase (i + 1) curr rest builder

/-- Go `delimiterCase(s, delimiter, upperCase)`. -/
def delimiterCase (U : Unicode) (s : String) (delimiter : Char) (upperCase : Bool) : String :=
  let runes := trimSpace U s.toList
  if runes = [] then String.mk runes
  else
    let adjustCase := if upperCase then U.toUpper else U.toLower
    String.mk (delimiterLoop U delimiter adjustCase 0 (Char.ofNat 0) runes [])

/-- Go `SnakeCase(s)`. -/
def SnakeCase (U : Unicode) (s : String) : String :=
  delimiterCase U s '_' false

/-- Go `UpperSnakeCase(s)`. -/
def UpperSnakeCase (U : Unicode) (s : String) : String :=
  delimiterCase U s '_' true

/-! ## Values -/

/-- One declared field of a struct type together with its value:
`f.Name`, `f.Tag.Get("json")`, `f.Tag.Get("sensitive")` (both `""` when the
tag has no such key), whether the field is exported, and `src.Field(i)`. -/
structure Field (α : Type) where
  name : String
  jsonTag : String
  sensitiveTag : String
  exported : Bool
  value : α

/-- The numeric kinds `CanInt`, `CanUint`, `CanFloat` and `CanComplex` accept. -/
inductive NumKind where
  | int
  | uint
  | float
  | complex
deriving DecidableEq, Repr

/-- A Go value as `reflect` shows it.

* `invalid` is the zero `reflect.Value` (`reflect.ValueOf(nil)`);
* `num k raw` is a number of kind `k` with its bits `raw`, never computed with;
* `handle a` is a channel, function or `unsafe.Pointer` (`none`: nil);
* `map` is a map with string keys, its entries in a fixed order without
  repeated keys; `nilMap` and `nilSlice` are the nil map and the nil slice;
* `nilPtr`, `ref a`, `box v` are the nil pointer, a pointer to the heap cell
  `a`, and a pointer to a cell allocated by the cloner that holds `v`;
* `iface v` is a value of interface kind, as `Field`, `Index` and `MapIndex`
  return for a slot of interface type (`none`: the nil interface). -/
inductive Value where
  | invalid
  | bool (b : Bool)
  | num (k : NumKind) (raw : Int)
  | str (s : String)
  | handle (a : Option Nat)
  | struct (fs : List (Field Value))
  | map (es : List (String × Value))
  | nilMap
  | slice (xs : List Value)
  | nilSlice
  | array (xs : List Value)
  | nilPtr
  | ref (a : Nat)
  | box (v : Value)
  | iface (v : Option Value)

instance : Inhabited Value := ⟨Value.invalid⟩

/-- The part of `encoding/json` that `clone` calls.  `unmarshal s` is
`reflect.ValueOf(jsonData)` after `json.Unmarshal([]byte(s), &jsonData)` with
`jsonData interface{}`, or `none` when `Unmarshal` returns an error (so JSON
`null` gives `some Value.invalid`, and a JSON object a `map` whose values are
of interface kind); `marshal v` is `json.Marshal(v.Interface())`, `none` on
error. -/
structure Codec where
  unmarshal : String → Option Value
  marshal : Value → Option String

/-- What `clone` reads besides its arguments: the standard library and the
memory that the pointers of the input point into. -/
structure Env where
  unicode : Unicode
  json : Codec
  heap : Nat → Value

mutual
/-- The zero value of the type of a value, which a field of a struct made by
`reflect.New` holds until it is set. -/
def zeroOf : Value → Value
  | .invalid => .invalid
  | .bool _ => .bool false
  | .num k _ => .num k 0
  | .str _ => .str ""
  | .handle _ => .handle none
  | .struct fs => .struct (zeroFields fs)
  | .map _ => .nilMap
  | .nilMap => .nilMap
  | .slice _ => .nilSlice
  | .nilSlice => .nilSlice
  | .array xs => .array (zeroList xs)
  | .nilPtr => .nilPtr
  | .ref _ => .nilPtr
  | .box _ => .nilPtr
  | .iface _ => .iface none
/-- The zero values of the fields of a struct. -/
def zeroFields : List (Field Value) → List (Field Value)
  | [] => []
  | f :: fs => { f with value := zeroOf f.value } :: zeroFields fs
/-- The zero values of the elements of an array. -/
def zeroList : List Value → List Value
  | [] => []
  | x :: xs => zeroOf x :: zeroList xs
end

/-- Go `dst.Set(v)` and `dst.SetMapIndex(key, v)`: what the slot holds afterwards,
as `reflect` shows it.  `slot` is the source value of the same static type; a
slot of interface type shows a value of interface kind whatever is stored. -/
def assign (slot v : Value) : Value :=
  match slot with
  | .iface _ =>
    match v with
    | .iface x => .iface x
    | c => .iface (some c)
  | _ => v

/-- A loop over a list in which any iteration may panic. -/
def forEach {α β : Type} (f : α → Option β) : List α → Option (List β)
  | [] => some []
  | x :: xs =>
    match f x with
    | none => none
    | some y =>
      match forEach f xs with
      | none => none
      | some ys => some (y :: ys)

/-! ## `pkg/logx/logx.go`, `pkg/logx/clone.go` -/

/-- Go `DefaultTagKey`. -/
def DefaultTagKey : String := "sensitive"

/-- Go `DefaultRedactMessage`. -/
def DefaultRedactMessage : String := "*"

/-- Go `maxDepth`. -/
def maxDepth : Nat := 32

/-- The guard `v >= maxDepth` on the depth found in the context. -/
def depthReached : Option Nat → Bool
  | some v => decide (v ≥ maxDepth)
  | none => false

/-- The depth `clone` stores in the context it passes on: `0` when there was
none, `v + 1` otherwise. -/
def nextDepth : Option Nat → Nat
  | some v => v + 1
  | none => 0

/-- The number of nested calls still possible from a context. -/
def depthFuel : Option Nat → Nat
  | some v => maxDepth + 1 - v
  | none => maxDepth + 2

/-- Go `clone(ctx, fieldName, src, tag, sensitiveKeys)`.  `canAddr` is
`src.CanAddr()`, which `reflect` keeps in the flags of `src`; `sensitiveKeys`
lists the keys of the Go map.  A value that reaches `clone` is never read-only
(`reflect.ValueOf`, `Elem`, `Index` and `MapIndex` of such values are not, and
line 117 lifts the mark from an unexported field), so `CanInterface` fails for
the unexported fields of `src` and for nothing else. -/
def clone (E : Env) (sensitiveKeys : List String) (ctx : Option Nat) (canAddr : Bool)
    (fieldName : String) (src : Value) (tag : String) : Option Value :=
  if _h : depthReached ctx = true then some src
  else
    match src with
    | .nilPtr => some .nilPtr
    | .str strValue =>
      if SnakeCase E.unicode fieldName ∈ sensitiveKeys ∨ tag = "true" then
        some (.str DefaultRedactMessage)
      else
        match E.json.unmarshal strValue with
        | some (.map jsonStruct) =>
          (forEach (fun (kv : String × Value) =>
            if SnakeCase E.unicode kv.1 ∈ sensitiveKeys then
              some (kv.1, assign kv.2 (.str DefaultRedactMessage))
            else
              (clone E sensitiveKeys (some (nextDepth ctx)) false kv.1 kv.2 "").map
                fun copiedValue => (kv.1, assign kv.2 copiedValue)) jsonStruct).map
            fun dstMap =>
              match E.json.marshal (.map dstMap) with
              | some newJSON => .str newJSON
              | none => .str strValue
        | some .nilMap =>
          match E.json.marshal (.map []) with
          | some newJSON => some (.str newJSON)
          | none => some (.str strValue)
        | _ => some (.str strValue)
    | .struct fs =>
      (forEach (fun (f : Field Value) =>
        if !f.exported ∧ !canAddr then
          match f.value with
          | .num k raw => some { f with value := .num k raw }
          | .bool b => some { f with value := .bool b }
          | v => some { f with value := zeroOf v }
        else
          (clone E sensitiveKeys (some (nextDepth ctx)) canAddr
            (if f.jsonTag ≠ "" then f.jsonTag else f.name) f.value f.sensitiveTag).map
            fun copied => { f with value := assign f.value copied }) fs).map Value.struct
    | .map es =>
      (forEach (fun (kv : String × Value) =>
        (clone E sensitiveKeys (some (nextDepth ctx)) false kv.1 kv.2 "").map
          fun copied => (kv.1, assign kv.2 copied)) es).map Value.map
    | .nilMap => some (.map [])
    | .slice xs =>
      (forEach (fun (x : Value) =>
        (clone E sensitiveKeys (some (nextDepth ctx)) true fieldName x "").map
          (assign x)) xs).map Value.slice
    | .nilSlice => some (.slice [])
    | .array xs =>
      if xs.length = 0 then some src
      else
        (forEach (fun (x : Value) =>
          (clone E sensitiveKeys (some (nextDepth ctx)) canAddr fieldName x "").map
            (assign x)) xs).map Value.array
    | .ref a =>
      (clone E sensitiveKeys (some (nextDepth ctx)) true fieldName (E.heap a) tag).map
        fun copied => .box (assign (E.heap a) copied)
    | .box v =>
      (clone E sensitiveKeys (some (nextDepth ctx)) true fieldName v tag).map
        fun copied => .box (assign v copied)
    | .iface none => some src
    | .iface (some v) => clone E sensitiveKeys (some (nextDepth ctx)) false fieldName v tag
    | .invalid => none
    | .bool b => some (.bool b)
    | .num k raw => some (.num k raw)
    | .handle a => some (.handle a)
termination_by depthFuel ctx
decreasing_by
  all_goals
    cases ctx with
    | none => simp [depthFuel, nextDepth, maxDepth]
    | some v =>
      simp only [depthReached, decide_eq_true_eq, maxDepth] at _h
      simp only [depthFuel, nextDepth, maxDepth]
      omega

/-- The loop of the string case over the entries of the parsed object
(lines 53 to 73), in a call whose context is `ctx`: an entry under a sensitive
key gets the marker, any other entry is cloned under its key with no tag. -/
def cloneEntries (E : Env) (sensitiveKeys : List String) (ctx : Option Nat)
    (jsonStruct : List (String × Value)) : Option (List (String × Value)) :=
  forEach (fun (kv : String × Value) =>
    if SnakeCase E.unicode kv.1 ∈ sensitiveKeys then
      some (kv.1, assign kv.2 (.str DefaultRedactMessage))
    else
      (clone E sensitiveKeys (some (nextDepth ctx)) false kv.1 kv.2 "").map
        fun copiedValue => (kv.1, assign kv.2 copiedValue)) jsonStruct

/-- The largest of the numbers `d x` for `x` in a list, `0` for the empty list. -/
def maxOver {α : Type} (d : α → Nat) : List α → Nat
  | [] => 0
  | x :: xs => max (d x) (maxOver d xs)

/-- The length of the longest chain of nested calls of `clone` that starts
with the call `clone(ctx, fieldName, src, tag, sensitiveKeys)`, this call
included: `1` for a call that makes none, and one more than the longest chain
of a call it makes otherwise.  The call sites are those of `clone`, all taken
as reached (a panic would cut a loop short). -/
def callDepth (E : Env) (sensitiveKeys : List String) (ctx : Option Nat) (canAddr : Bool)
    (fieldName : String) (src : Value) (tag : String) : Nat :=
  if _h : depthReached ctx = true then 1
  else
    match src with
    | .str strValue =>
      if SnakeCase E.unicode fieldName ∈ sensitiveKeys ∨ tag = "true" then 1
      else
        match E.json.unmarshal strValue with
        | some (.map jsonStruct) =>
          1 + maxOver (fun (kv : String × Value) =>
            if SnakeCase E.unicode kv.1 ∈ sensitiveKeys then 0
            else callDepth E sensitiveKeys (some (nextDepth ctx)) false kv.1 kv.2 "") jsonStruct
        | _ => 1
    | .struct fs =>
      1 + maxOver (fun (f : Field Value) =>
        if !f.exported ∧ !canAddr then 0
        else callDepth E sensitiveKeys (some (nextDepth ctx)) canAddr
          (if f.jsonTag ≠ "" then f.jsonTag else f.name) f.value f.sensitiveTag) fs
    | .map es =>
      1 + maxOver (fun (kv : String × Value) =>
        callDepth E sensitiveKeys (some (nextDepth ctx)) false kv.1 kv.2 "") es
    | .slice xs =>
      1 + maxOver (fun (x : Value) =>
        callDepth E sensitiveKeys (some (nextDepth ctx)) true fieldName x "") xs
    | .array xs =>
      1 + maxOver (fun (x : Value) =>
        callDepth E sensitiveKeys (some (nextDepth ctx)) canAddr fieldName x "") xs
    | .ref a => 1 + callDepth E sensitiveKeys (some (nextDepth ctx)) true fieldName (E.heap a) tag
    | .box v => 1 + callDepth E sensitiveKeys (some (nextDepth ctx)) true fieldName v tag
    | .iface (some v) =>
      1 + callDepth E sensitiveKeys (some (nextDepth ctx)) false fieldName v tag
    | _ => 1
termination_by depthFuel ctx
decreasing_by
  all_goals
    cases ctx with
    | none => simp [depthFuel, nextDepth, maxDepth]
    | some v =>
      simp only [depthReached, decide_eq_true_eq, maxDepth] at _h
      simp only [depthFuel, nextDepth, maxDepth]
      omega

/-! ## Predicates on values -/

mutual
/-- Every value inside `v`, `v` included, satisfies `p`.  Pointers into the
heap are not followed. -/
def Value.all (p : Value → Bool) : Value → Bool
  | .struct fs => p (.struct fs) && allFields p fs
  | .map es => p (.map es) && allEntries p es
  | .slice xs => p (.slice xs) && allList p xs
  | .array xs => p (.array xs) && allList p xs
  | .box v => p (.box v) && Value.all p v
  | .iface (some v) => p (.iface (some v)) && Value.all p v
  | .invalid => p .invalid
  | .bool b => p (.bool b)
  | .num k raw => p (.num k raw)
  | .str s => p (.str s)
  | .handle a => p (.handle a)
  | .nilMap => p .nilMap
  | .nilSlice => p .nilSlice
  | .nilPtr => p .nilPtr
  | .ref a => p (.ref a)
  | .iface none => p (.iface none)
/-- The test `Value.all` on the values of the fields of a struct. -/
def allFields (p : Value → Bool) : List (Field Value) → Bool
  | [] => true
  | f :: fs => Value.all p f.value && allFields p fs
/-- The test `Value.all` on the values of the entries of a map. -/
def allEntries (p : Value → Bool) : List (String × Value) → Bool
  | [] => true
  | kv :: es => Value.all p kv.2 && allEntries p es
/-- The test `Value.all` on the elements of a slice or an array. -/
def allList (p : Value → Bool) : List Value → Bool
  | [] => true
  | x :: xs => Value.all p x && allList p xs
end

/-- The test `Kind() == reflect.Map`. -/
def Value.isMapKind : Value → Bool
  | .map _ => true
  | .nilMap => true
  | _ => false

/-- The value found by following a list of keys through directly nested
maps: `m[k1][k2]...`, with no pointer or interface in between. -/
def mapPath : List String → Value → Option Value
  | [], v => some v
  | k :: ks, .map es =>
    match es.lookup k with
    | some v => mapPath ks v
    | none => none
  | _ :: _, _ => none

/-- The value is not the zero `reflect.Value`. -/
def Value.isValid : Value → Bool
  | .invalid => false
  | _ => true

/-- A Go value: the zero `reflect.Value` occurs nowhere in it.  (`reflect`
never shows one inside a value: fields, elements, map values and the targets
of non-nil pointers and interfaces are valid.) -/
def Value.wellFormed (v : Value) : Bool :=
  Value.all Value.isValid v

/-- The value is not a reference to storage of the caller: not a pointer into
the heap, and not a channel, function or `unsafe.Pointer`. -/
def Value.isOwn : Value → Bool
  | .ref _ => false
  | .handle (some _) => false
  | _ => true

/-- No reference to storage of the caller occurs in the value: a write to a
heap cell, or through a channel, cannot be seen through it. -/
def Value.unshared (v : Value) : Bool :=
  Value.all Value.isOwn v

/-- What a reader of `v` sees in memory `heap`, following pointers into the
heap for at most `n` levels of nesting. -/
def observe (heap : Nat → Value) : Nat → Value → Value
  | 0, v => v
  | n + 1, .ref a => .box (observe heap n (heap a))
  | n + 1, .struct fs => .struct (fs.map fun f => { f with value := observe heap n f.value })
  | n + 1, .map es => .map (es.map fun kv => (kv.1, observe heap n kv.2))
  | n + 1, .slice xs => .slice (xs.map (observe heap n))
  | n + 1, .array xs => .array (xs.map (observe heap n))
  | n + 1, .box v => .box (observe heap n v)
  | n + 1, .iface (some v) => .iface (some (observe heap n v))
  | _ + 1, v => v

/-- The memory after the caller has stored `v` in cell `a`. -/
def writeCell (heap : Nat → Value) (a : Nat) (v : Value) : Nat → Value :=
  fun x => if x = a then v else heap x

/-- The value is a Go value of the caller that nests at most `n` levels deep,
pointers followed: its pointers are nil or point into the heap, and it holds
no channel, function or `unsafe.Pointer`. -/
def shallow (E : Env) : Nat → Value → Bool
  | 0, _ => false
  | _ + 1, .invalid => false
  | _ + 1, .handle (some _) => false
  | n + 1, .struct fs => fs.all fun f => shallow E n f.value
  | n + 1, .map es => es.all fun kv => shallow E n kv.2
  | n + 1, .slice xs => xs.all (shallow E n)
  | n + 1, .array xs => xs.all (shallow E n)
  | n + 1, .ref a => shallow E n (E.heap a)
  | _ + 1, .box _ => false
  | n + 1, .iface (some v) => shallow E n v
  | _ + 1, _ => true

/-- The environment holds Go values: every heap cell is one, and so is every
object that the JSON codec returns. -/
structure Env.WellFormed (E : Env) : Prop where
  heap : ∀ a, (E.heap a).wellFormed = true
  json : ∀ s es, E.json.unmarshal s = some (.map es) → (Value.map es).wellFormed = true

/-! ## `pkg/logx/blacklist.go` -/

/-- Go `blackList`: the built-in sensitive field names. -/
def blackList : List String :=
  ["password", "email", "username", "token", "api_key", "access_token", "refresh_token",
   "authorization", "cookie", "session", "jwt", "bearer", "basic", "digest", "oauth",
   "client_id", "client_secret", "private_key", "public_key", "full_name", "first_name",
   "last_name", "phone", "address", "city", "state", "country", "zip", "postcode", "ssn",
   "sin", "nino", "license", "passport", "driver", "ssn_last4", "sin_last4", "nino_last4",
   "phone_last4", "card", "cc", "card_number", "cc_number", "ccn", "cvv", "cvv2", "cv2",
   "expiration", "exp_date", "exp_month", "exp_year", "exp", "birthdate", "birth_date",
   "birth_year", "birth_month", "birth_day", "birth", "ssn_hash", "sin_hash", "nino_hash",
   "phone_hash", "cvv_hash", "cvv2_hash", "cv2_hash", "cid", "customer_id"]

/-! ## A concrete environment for worked examples -/

/-- A JSON string literal, for strings without characters that need an escape. -/
def renderString (s : String) : Option String :=
  if s.toList.all (fun c => c != '"' && c != '\\' && 32 ≤ c.toNat && c.toNat < 127
      && c != '<' && c != '>' && c != '&') then some ("\"" ++ s ++ "\"") else none

mutual
/-- A fragment of `json.Marshal`: strings without characters that need an
escape, booleans, `null`, arrays, and objects whose entries are listed in the
order Go writes them (sorted by key). -/
def renderJSON : Value → Option String
  | .str s => renderString s
  | .bool b => some (if b then "true" else "false")
  | .iface none => some "null"
  | .iface (some v) => renderJSON v
  | .map es => (renderEntries es).map fun body => "\x7b" ++ body ++ "\x7d"
  | .slice xs => (renderList xs).map fun body => "[" ++ body ++ "]"
  | _ => none
/-- The entries of an object, separated by commas. -/
def renderEntries : List (String × Value) → Option String
  | [] => some ""
  | kv :: es =>
    match renderString kv.1, renderJSON kv.2, renderEntries es with
    | some k, some v, some rest =>
      some (k ++ ":" ++ v ++ (if es.isEmpty then "" else ",") ++ rest)
    | _, _, _ => none
/-- The elements of an array, separated by commas. -/
def renderList : List Value → Option String
  | [] => some ""
  | x :: xs =>
    match renderJSON x, renderList xs with
    | some v, some rest => some (v ++ (if xs.isEmpty then "" else ",") ++ rest)
    | _, _ => none
end

/-- A fragment of `json.Unmarshal`, as a table: the documents of the examples
below.  Every other text is answered with an error, which is what Go does for
the other texts the examples hold (plain words such as `hello world`). -/
def parseSample (s : String) : Option Value :=
  if s = "\x7b\"email\":\"a@b.com\",\"theme\":\"dark\"\x7d" then
    some (.map [("email", .iface (some (.str "a@b.com"))), ("theme", .iface (some (.str "dark")))])
  else if s = "\x7b\"email\":\"*\",\"theme\":\"dark\"\x7d" then
    some (.map [("email", .iface (some (.str "*"))), ("theme", .iface (some (.str "dark")))])
  else if s = "[\x7b\"email\":\"a@b.com\"\x7d]" then
    some (.slice [.iface (some (.map [("email", .iface (some (.str "a@b.com")))]))])
  else if s = "\x7b\"cvv\":123\x7d" then
    some (.map [("cvv", .iface (some (.num .float 123)))])
  else none

/-- A heap for the examples: cell `0` holds a list node whose `Next` points
to cell `0`, the node itself (`type Node struct { Next *Node }`, `n := &Node{}`,
`n.Next = n`), cell `1` a string, every other cell a number. -/
def sampleHeap (a : Nat) : Value :=
  if a = 0 then .struct [⟨"Next", "next", "", true, .ref 0⟩]
  else if a = 1 then .str "hunter2" else .num .int 7

/-- Maps nested one in the other along a list of keys, with `v` innermost:
`{k1: {k2: ... {kn: v}}}`. -/
def nestedMaps (keys : List String) (v : Value) : Value :=
  keys.foldr (fun k inner => .map [(k, inner)]) v

/-- The environment of the examples. -/
def sampleEnv : Env where
  unicode := Unicode.ascii
  json := ⟨parseSample, renderJSON⟩
  heap := sampleHeap

/-! ## Clean data -/

/-- The test `Kind() == reflect.Interface`. -/
def Value.isIfaceKind : Value → Bool
  | .iface _ => true
  | _ => false

/-- Clean data: `v`, met by `clone` under the field name `f` with the tag `t`,
is built from booleans, numbers, strings, lists, string-keyed maps, records
with exported fields, pointers and interface values, nests at most `n` levels
deep, and no string in it is reached under a sensitive name or a `true` tag or
parses as a JSON object.  The name and tag under which a part is reached are
those `clone` passes on: the key for a map entry, the exposed name and the
`sensitive` tag for a field, the name of the list for an element, and name and
tag unchanged through a pointer or an interface. -/
def clean (E : Env) (sensitiveKeys : List String) : Nat → String → String → Value → Bool
  | 0, _, _, _ => false
  | _ + 1, _, _, .bool _ => true
  | _ + 1, _, _, .num _ _ => true
  | _ + 1, f, t, .str s =>
    !(decide (SnakeCase E.unicode f ∈ sensitiveKeys) || decide (t = "true")) &&
      match E.json.unmarshal s with
      | some v => !v.isMapKind
      | none => true
  | n + 1, _, _, .struct fs =>
    fs.all fun fd => fd.exported &&
      clean E sensitiveKeys n (if fd.jsonTag ≠ "" then fd.jsonTag else fd.name)
        fd.sensitiveTag fd.value
  | n + 1, _, _, .map es => es.all fun kv => clean E sensitiveKeys n kv.1 "" kv.2
  | _ + 1, _, _, .nilMap => true
  | n + 1, f, _, .slice xs => xs.all (clean E sensitiveKeys n f "")
  | _ + 1, _, _, .nilSlice => true
  | n + 1, f, _, .array xs => xs.all (clean E sensitiveKeys n f "")
  | _ + 1, _, _, .nilPtr => true
  | n + 1, f, t, .ref a => clean E sensitiveKeys n f t (E.heap a)
  | n + 1, f, t, .box v => clean E sensitiveKeys n f t v
  | _ + 1, _, _, .iface none => true
  | n + 1, f, t, .iface (some v) => !v.isIfaceKind && clean E sensitiveKeys n f t v
  | _ + 1, _, _, _ => false

/-- The data of `v` as a value of its own, `n` levels deep: what a reader of
`v` sees in memory `heap` with every pointer read as a pointer to a cell of its
own, and a nil slice or nil map read as an empty one. -/
def detached (heap : Nat → Value) : Nat → Value → Value
  | 0, v => v
  | _ + 1, .nilMap => .map []
  | _ + 1, .nilSlice => .slice []
  | n + 1, .ref a => .box (detached heap n (heap a))
  | n + 1, .struct fs => .struct (fs.map fun f => { f with value := detached heap n f.value })
  | n + 1, .map es => .map (es.map fun kv => (kv.1, detached heap n kv.2))
  | n + 1, .slice xs => .slice (xs.map (detached heap n))
  | n + 1, .array xs => .array (xs.map (detached heap n))
  | n + 1, .box v => .box (detached heap n v)
  | n + 1, .iface (some v) => .iface (some (detached heap n v))
  | _ + 1, v => v

/-- The value is none of a pointer into the heap, a nil slice and a nil map. -/
def Value.isPlain : Value → Bool
  | .ref _ => false
  | .nilMap => false
  | .nilSlice => false
  | _ => true

/-- A record as in `example/main.go`, with clean values: a name, a list of
nicknames, a map of settings and a pointer to a note. -/
def cleanSample : Value :=
  .struct [⟨"Name", "name", "", true, .str "Ada"⟩,
    ⟨"Nicknames", "nicknames", "", true, .slice [.str "ada", .str "countess"]⟩,
    ⟨"Settings", "settings", "", true,
      .map [("theme", .iface (some (.str "dark"))), ("size", .iface (some (.num .float 12)))]⟩,
    ⟨"Note", "note", "", true, .box (.str "none")⟩,
    ⟨"Age", "age", "", true, .num .int 36⟩]

/-- Go `slog.Value`, by what the handler asks of it.  `group members` is a
value with `Kind() == KindGroup`, and `members` is its `Group()`, each member a
key and a value.  `any v` is a value of any other kind, and `v` is what
`reflect.ValueOf(value.Any())` shows (`Value.invalid` when `Any()` is nil); it
is also the value that `slog.AnyValue(x)` builds from a Go value `x` which
`reflect` shows as `v`.

The attributes of a record and of a context hold their groups as `group`.
`slog.AnyValue` of a `[]slog.Attr` is a group as well; such a value is built
in one place only, at the end of `censorAttribute` for a group that it was
handed whole (a group inside a group), and is written there as `any v`, with
`v` the cloned slice: the members of that group are the `slog.Attr` structs of
`v`, as `clone` left them. -/
inductive LogValue where
  | group (members : List (String × LogValue))
  | any (v : Value)

/-- Go `slog.Attr`: the fields `Key` and `Value`. -/
abbrev Attr := String × LogValue

/-- Go `Value.isEmptyGroup` of `log/slog`: a group without members. -/
def LogValue.isEmptyGroup : LogValue → Bool
  | .group [] => true
  | _ => false

/-- Go `slog.GroupValue(as...)`: the group of the attributes, those that are
empty groups left out. -/
def GroupValue (as : List Attr) : LogValue :=
  .group (as.filter fun a => !a.2.isEmptyGroup)

/-- Go `slog.Group(key, args...)` for arguments that are attributes. -/
def Group (key : String) (args : List Attr) : Attr :=
  (key, GroupValue args)

/-- Go `slog.Record`: the fields `Time`, `Level`, `Message`, `PC`, and the
attributes that `Attrs` visits, in order. -/
structure Record where
  time : Int
  level : Int
  message : String
  pc : Nat
  attrs : List Attr

/-- Go `slog.NewRecord(t, level, msg, pc)`: a record without attributes. -/
def NewRecord (t : Int) (level : Int) (msg : String) (pc : Nat) : Record :=
  ⟨t, level, msg, pc, []⟩

/-- Go `Record.AddAttrs(attrs...)`: appends the attributes to the record and
omits empty groups. -/
def Record.AddAttrs (r : Record) (attrs : List Attr) : Record :=
  { r with attrs := r.attrs ++ attrs.filter fun a => !a.2.isEmptyGroup }

/-- What `reflect` shows of the values of `log/slog` that `clone` is handed:
`attrsValue members` is `reflect.ValueOf(value.Any())` for a group value, a
slice of type `[]slog.Attr`. -/
structure Slog where
  attrsValue : List Attr → Value

/-! ## Contexts and the attribute slices they carry -/

/-- A Go slice of type `[]slog.Attr`: its backing array, length and capacity. -/
structure AttrSlice where
  array : Nat
  len : Nat
  cap : Nat

/-- The memory that holds the backing arrays of attribute slices: `cells a i`
is element `i` of array `a`, and `next` is the first array not yet allocated. -/
structure Memory where
  cells : Nat → Nat → Attr
  next : Nat

/-- The elements of a slice, `[]` for the nil slice (`none`). -/
def Memory.read (m : Memory) : Option AttrSlice → List Attr
  | none => []
  | some v => (List.range v.len).map (m.cells v.array)

/-- Go `append(v, attr)`.  With room in the backing array the attribute is
written there, after the elements of `v`; otherwise the elements are copied to
a new array, of the capacity `grow v.cap` that the runtime picks and at least
`v.len + 1`, whose other cells hold the zero attribute. -/
def appendAttr (grow : Nat → Nat) (m : Memory) (v : AttrSlice) (attr : Attr) :
    Memory × AttrSlice :=
  if v.len < v.cap then
    ({ m with cells := fun a i => if a = v.array ∧ i = v.len then attr else m.cells a i },
     { v with len := v.len + 1 })
  else
    ({ cells := fun a i =>
         if a = m.next then
           (if i < v.len then m.cells v.array i
            else if i = v.len then attr else ("", .any .invalid))
         else m.cells a i,
       next := m.next + 1 },
     ⟨m.next, v.len + 1, max (v.len + 1) (grow v.cap)⟩)

/-- A non-nil `context.Context`: the background context, a context made by
`context.WithValue(parent, slogFields, v)`, or any other context derived from
a parent (a value under another key, a deadline, a cancellation). -/
inductive Context where
  | background
  | withFields (parent : Context) (v : AttrSlice)
  | derived (parent : Context)

/-- Go `ctx.Value(slogFields).([]slog.Attr)`: the slice stored last under the
key of the package, `none` when the assertion fails. -/
def Context.fields : Context → Option AttrSlice
  | .background => none
  | .withFields _ v => some v
  | .derived parent => parent.fields

/-- Some attribute was appended to the context or to one it derives from. -/
def Context.appended : Context → Bool
  | .background => false
  | .withFields _ _ => true
  | .derived parent => parent.appended

/-! ## `pkg/logx/handler.go`, `pkg/logx/censor.go` -/

/-- Go `censoringHandler`.  The wrapped handler is given by the result of its
`Handle` (the error it returns, with what it writes), which may depend on the
memory, the context and the record. -/
structure censoringHandler (ρ : Type) where
  handler : Memory → Option Context → Record → ρ
  withDebug : Bool
  sensitiveKeys : List String

/-- Go `h.censorAttribute(attr)`; `none` is a panic.  The result
`slog.Any(attr.Key, masked.Interface())` is written `(attr.1, .any masked)`:
when `masked` is a `[]slog.Attr`, the clone of a group, `slog.Any` makes a
group of it again, which `.any masked` stands for (see `LogValue`). -/
def censorAttribute {ρ : Type} (E : Env) (S : Slog) (h : censoringHandler ρ) (attr : Attr) :
    Option Attr :=
  if h.withDebug then some attr
  else
    let src :=
      match attr.2 with
      | .group members => S.attrsValue members
      | .any v => v
    match clone E h.sensitiveKeys none false attr.1 src "" with
    | none => none
    | some masked => some (attr.1, .any masked)

/-- The loop over the members of a group (lines 56 to 58, and 79 to 81):
`newGroupAttrs = append(newGroupAttrs, h.censorAttribute(groupAttr))`. -/
def censorGroup {ρ : Type} (E : Env) (S : Slog) (h : censoringHandler ρ) :
    List Attr → List Attr → Option (List Attr)
  | [], newGroupAttrs => some newGroupAttrs
  | groupAttr :: rest, newGroupAttrs =>
    match censorAttribute E S h groupAttr with
    | none => none
    | some censored => censorGroup E S h rest (newGroupAttrs ++ [censored])

/-- The loop over the attributes of the context (lines 51 to 68) and the one
over the attributes of the record (lines 71 to 93), which have the same body:
a group is rebuilt from its censored members, any other attribute is
censored, and the result is appended to `newAttrs`. -/
def censorAttrs {ρ : Type} (E : Env) (S : Slog) (h : censoringHandler ρ) :
    List Attr → List Attr → Option (List Attr)
  | [], newAttrs => some newAttrs
  | attr :: rest, newAttrs =>
    match attr.2 with
    | .group groupAttrs =>
      match censorGroup E S h groupAttrs [] with
      | none => none
      | some newGroupAttrs => censorAttrs E S h rest (newAttrs ++ [Group attr.1 newGroupAttrs])
    | .any _ =>
      match censorAttribute E S h attr with
      | none => none
      | some censored => censorAttrs E S h rest (newAttrs ++ [censored])

/-- The loop of lines 96 to 98: `newRecord.AddAttrs(attr)` for each attribute. -/
def addEach : Record → List Attr → Record
  | newRecord, [] => newRecord
  | newRecord, attr :: rest => addEach (newRecord.AddAttrs [attr]) rest

/-- Go `getAttrsFromContext(ctx)`; the first `none` is the nil context, the
result `none` the nil slice. -/
def getAttrsFromContext (ctx : Option Context) : Option AttrSlice :=
  match ctx with
  | none => none
  | some c => c.fields

/-- Go `h.Handle(ctx, r)` in memory `m`: the result of the wrapped handler,
`none` when censoring panics. -/
def Handle {ρ : Type} (E : Env) (S : Slog) (m : Memory) (h : censoringHandler ρ)
    (ctx : Option Context) (r : Record) : Option ρ :=
  let ctxAttrs := getAttrsFromContext ctx
  match censorAttrs E S h (m.read ctxAttrs) [] with
  | none => none
  | some newAttrs =>
    match censorAttrs E S h r.attrs newAttrs with
    | none => none
    | some newAttrs =>
      some (h.handler m ctx (addEach (NewRecord r.time r.level r.message r.pc) newAttrs))

/-- Go `AppendCtx(parent, attr)` in memory `m`: the memory afterwards and the
context returned. -/
def AppendCtx (grow : Nat → Nat) (m : Memory) (parent : Option Context) (attr : Attr) :
    Memory × Context :=
  let parent := match parent with
    | none => Context.background
    | some c => c
  match parent.fields with
  | some v =>
    let r := appendAttr grow m v attr
    (r.1, .withFields parent r.2)
  | none =>
    let r := appendAttr grow m ⟨0, 0, 0⟩ attr
    (r.1, .withFields parent r.2)

/-- The body of the two loops of `Handle` for one attribute: a group is
rebuilt by `slog.Group` from its censored members, any other attribute is
censored. -/
def censorOne {ρ : Type} (E : Env) (S : Slog) (h : censoringHandler ρ) (attr : Attr) :
    Option Attr :=
  match attr.2 with
  | .group groupAttrs => (forEach (censorAttribute E S h) groupAttrs).map (Group attr.1)
  | .any _ => censorAttribute E S h attr

/-- What the handler makes of one attribute of the context or of the record,
in the words of the specification: a group with key `k` and members
`m1 .. mn` becomes the group with key `k` and members `censorAttribute(m1) ..
censorAttribute(mn)`, any other attribute `a` becomes `censorAttribute(a)`. -/
def censoredAttr {ρ : Type} (E : Env) (S : Slog) (h : censoringHandler ρ) (a : Attr) :
    Option Attr :=
  match a.2 with
  | .group members =>
    (forEach (censorAttribute E S h) members).map fun censored => (a.1, .group censored)
  | .any _ => censorAttribute E S h a

/-- The attribute is as the constructors of `log/slog` build it: a group holds
no empty group among its members. -/
def attrBuilt (a : Attr) : Bool :=
  match a.2 with
  | .group members => members.all fun x => !x.2.isEmptyGroup
  | .any _ => true

/-- A handler in debug mode, and one that censors, both with the built-in key
set and a wrapped handler that returns the record it is given. -/
def debugHandler : censoringHandler Record :=
  ⟨fun _ _ r => r, true, blackList⟩

/-- The handler of `TestRedactingHandler`: not in debug mode, with the built-in
key set; the wrapped handler returns the record it is given. -/
def testHandler : censoringHandler Record :=
  ⟨fun _ _ r => r, false, blackList⟩

/-- A memory without attribute slices. -/
def emptyMemory : Memory :=
  ⟨fun _ _ => ("", .any .invalid), 0⟩

/-- The memory and context after `AppendCtx(nil, slog.String("request_id",
"r-1"))`, with a runtime that doubles capacities. -/
def withRequestId : Memory × Context :=
  AppendCtx (fun n => 2 * n) emptyMemory none ("request_id", .any (.str "r-1"))

/-- The memory and context after a user id is appended to `withRequestId`. -/
def withUserId : Memory × Context :=
  AppendCtx (fun n => 2 * n) withRequestId.1 (some withRequestId.2)
    ("user_id", .any (.num .int 7))

/-! ## The layout of `log/slog` values, for worked examples -/

/-- The first byte of the UTF-8 encoding of a string, if it has one. -/
def firstByte (s : String) : Option Nat :=
  match s.toList with
  | [] => none
  | c :: _ => ((String.utf8EncodeChar c).head?).map UInt8.toNat

/-- A struct of type `slog.Value`, declared in `log/slog` as
`struct { _ [0]func(); num uint64; any any }`, with the given `num` and the
value held in `any`. -/
def slogValue (num : Value) (held : Option Value) : Value :=
  .struct [⟨"_", "", "", false, .array []⟩, ⟨"num", "", "", false, num⟩,
    ⟨"any", "", "", false, .iface held⟩]

mutual
/-- What `reflect` shows of a `slog.Value`, after `value.go` of `log/slog`: a
string is kept as its length in `num` and a pointer to its first byte in `any`
(`stringptr`), a group as its length and a pointer to its first member
(`groupptr`), a boolean or a number as its bits in `num` and its `Kind` in
`any`, and any other value in `any` itself.  The pointers are shown as
pointers to cells of their own; durations and times are not told apart from
other numbers and structs. -/
def valueStruct : LogValue → Value
  | .any (.str s) =>
    slogValue (.num .uint s.utf8ByteSize)
      (some (match firstByte s with
        | some b => .box (.num .uint b)
        | none => .nilPtr))
  | .any (.bool b) => slogValue (.num .uint (if b then 1 else 0)) (some (.num .int 1))
  | .any (.num .int raw) => slogValue (.num .uint raw) (some (.num .int 4))
  | .any (.num .uint raw) => slogValue (.num .uint raw) (some (.num .int 7))
  | .any (.num .float raw) => slogValue (.num .uint raw) (some (.num .int 3))
  | .any .invalid => slogValue (.num .uint 0) none
  | .any v => slogValue (.num .uint 0) (some v)
  | .group members =>
    slogValue (.num .uint members.length)
      (some (match attrStructs members with
        | [] => .nilPtr
        | first :: _ => .box first))
/-- What `reflect` shows of the elements of a `[]slog.Attr`: structs with the
fields `Key` and `Value`. -/
def attrStructs : List (String × LogValue) → List Value
  | [] => []
  | a :: rest =>
    .struct [⟨"Key", "", "", true, .str a.1⟩, ⟨"Value", "", "", true, valueStruct a.2⟩]
      :: attrStructs rest
end

/-- The layout of `log/slog`: a group is handed to `clone` as a slice of
`slog.Attr` structs. -/
def sampleSlog : Slog :=
  ⟨fun members => .slice (attrStructs members)⟩

/-! ## Facts of the `unicode` tables, and spellings of a list of words -/

/-- The tables are those of Go on ASCII: on every rune below U+0080 they give
what `Unicode.ascii` gives. -/
def Unicode.AgreesOnASCII (U : Unicode) : Prop :=
  ∀ c : Char, c.toNat < 128 →
    U.isUpper c = Unicode.ascii.isUpper c ∧ U.isLower c = Unicode.ascii.isLower c
    ∧ U.isNumber c = Unicode.ascii.isNumber c ∧ U.isSpace c = Unicode.ascii.isSpace c
    ∧ U.toLower c = Unicode.ascii.toLower c ∧ U.toUpper c = Unicode.ascii.toUpper c

/-- Facts of Go's tables that hold for every rune: `IsUpper`, `IsLower` and
`IsNumber` test the categories Lu, Ll and N, which are disjoint and hold none
of the six delimiters, and no other rune has the underscore as its lower
case. -/
structure Unicode.Categories (U : Unicode) : Prop where
  upper_lower : ∀ c, U.isUpper c = true → U.isLower c = false
  number_upper : ∀ c, U.isNumber c = true → U.isUpper c = false
  number_lower : ∀ c, U.isNumber c = true → U.isLower c = false
  delimiter : ∀ c, isDelimiterOptimized c = true →
    U.isUpper c = false ∧ U.isLower c = false ∧ U.isNumber c = false
  toLower_underscore : ∀ c, U.toLower c = '_' → c = '_'

/-- The first letter of a word in upper case. -/
def capitalize : List Char → List Char
  | [] => []
  | c :: cs => Unicode.ascii.toUpper c :: cs

/-- The words joined by `_`. -/
def snakeSpelling : List (List Char) → List Char
  | [] => []
  | [w] => w
  | w :: ws => w ++ '_' :: snakeSpelling ws

/-- The words joined by `_`, in upper case. -/
def upperSpelling (ws : List (List Char)) : List Char :=
  (snakeSpelling ws).map Unicode.ascii.toUpper

/-- The words capitalized and concatenated (PascalCase). -/
def pascalSpelling : List (List Char) → List Char
  | [] => []
  | w :: ws => capitalize w ++ pascalSpelling ws

/-- The first word, then the others capitalized, concatenated (camelCase). -/
def camelSpelling : List (List Char) → List Char
  | [] => []
  | w :: ws => w ++ pascalSpelling ws

/-- The delimiters that the loop of `delimiterCase` writes before a rune
`curr` that is no delimiter itself: one at a case boundary (lines 49 to 57 of
`snake.go`) and one at a boundary with a number (lines 60 to 71). -/
def separatorsBefore (U : Unicode) (delimiter : Char) (i : Nat) (prev curr : Char)
    (rest : List Char) : List Char :=
  let nextIsLower : Bool :=
    match rest with
    | [] => false
    | next :: _ => U.isLower next
  (if 0 < i ∧ U.isUpper curr ∧ (U.isLower prev ∨ (U.isUpper prev ∧ nextIsLower)) then
      [delimiter] else [])
  ++ (if U.isNumber curr then
        (if 0 < i ∧ !U.isNumber prev ∧ !isDelimiterOptimized prev ∧ U.isUpper prev then
          [delimiter] else [])
      else
        (if 0 < i ∧ U.isNumber prev ∧ U.isUpper curr then [delimiter] else []))

/-- What holds of the builder of `SnakeCase` before the rune at index `i`,
`prev` being the rune before it: nothing is written before the first rune, the
builder does not begin with `_`, and it ends with `_` exactly when it is not
empty and `prev` is a delimiter. -/
def builderInv (i : Nat) (prev : Char) (builder : List Char) : Prop :=
  builder.head? ≠ some '_'
  ∧ (i = 0 → builder = [])
  ∧ (0 < i → isDelimiterOptimized prev = true → builder ≠ [] → builder.getLast? = some '_')
  ∧ (0 < i → isDelimiterOptimized prev = false → builder ≠ [] ∧ builder.getLast? ≠ some '_')

/-- Go `strings.ToUpper` on ASCII text: every lowercase ASCII letter in upper
case, every other rune as it is. -/
def upperCase (s : String) : String :=
  String.mk (s.toList.map Unicode.ascii.toUpper)

/-! ## `pkg/logx/logx.go`, `pkg/logx/opts.go`: the options and `New` -/

/-- Go `Config`. -/
structure Config where
  Environment : String
  Source : String

/-- Go `optionsConfig`; a `slog.Level` is an integer. -/
structure optionsConfig where
  Level : Int
  AddSource : Bool
  SensitiveKeys : List String
  WithDebug : Bool
  DefaultRedactMessage : String

/-- Go `Option`, a `func(*optionsConfig) error`: the configuration after the
call and the error returned (`none`: nil). -/
abbrev LoggerOption (ε : Type) := optionsConfig → optionsConfig × Option ε

/-- Go `WithLevel(level)`. -/
def WithLevel {ε : Type} (level : Int) : LoggerOption ε :=
  fun cfg => ({ cfg with Level := level }, none)

/-- Go `WithAddSource(addSource)`. -/
def WithAddSource {ε : Type} (addSource : Bool) : LoggerOption ε :=
  fun cfg => ({ cfg with AddSource := addSource }, none)

/-- Go `WithSensitiveKeys(keys)`. -/
def WithSensitiveKeys {ε : Type} (keys : List String) : LoggerOption ε :=
  fun cfg => ({ cfg with SensitiveKeys := keys }, none)

/-- Go `WithDebugMode(withDebug)`. -/
def WithDebugMode {ε : Type} (withDebug : Bool) : LoggerOption ε :=
  fun cfg => ({ cfg with WithDebug := withDebug }, none)

/-- Go `WithDefaultRedactMessage(defaultRedactMessage)`. -/
def WithDefaultRedactMessage {ε : Type} (defaultRedactMessage : String) : LoggerOption ε :=
  fun cfg => ({ cfg with DefaultRedactMessage := defaultRedactMessage }, none)

/-- Go `slog.LevelDebug`. -/
def LevelDebug : Int := -4

/-- The value `logOpts` starts with in `New` (lines 59 to 65). -/
def defaultOptions : optionsConfig :=
  ⟨LevelDebug, false, [], false, DefaultRedactMessage⟩

/-- The loop of `New` over the options (lines 72 to 76): the configuration
after all of them, or the error of the first one that fails. -/
def applyOptions {ε : Type} : optionsConfig → List (LoggerOption ε) → Except ε optionsConfig
  | logOpts, [] => .ok logOpts
  | logOpts, option :: rest =>
    match option logOpts with
    | (_, some err) => .error err
    | (logOpts, none) => applyOptions logOpts rest

/-- The error `fmt.Errorf("failed to apply logger option: %w", err)`: the text
before the verb, and the error that `errors.Unwrap` returns. -/
structure WrappedError (ε : Type) where
  message : String
  err : ε

/-- A `*slog.Logger`, by the handler it logs to. -/
structure Logger (ρ : Type) where
  handler : censoringHandler ρ

/-- Go `New(cfg, options...)` with the package variable `sensitivekeys` holding
`sensitivekeys` before the call: what is returned, and what the variable holds
afterwards.  A Go map used as a set is the list of its keys.
`jsonHandler level addSource attrs` is the wrapped handler
`slog.NewJSONHandler(os.Stdout, opts).WithAttrs(attrs)`, with the `opts` of
lines 88 to 92. -/
def New {ε ρ : Type} (U : Unicode)
    (jsonHandler : Int → Bool → List Attr → Memory → Option Context → Record → ρ)
    (sensitivekeys : List String) (cfg : Config) (options : List (LoggerOption ε)) :
    Except (WrappedError ε) (Logger ρ) × List String :=
  match applyOptions defaultOptions options with
  | .error err => (.error ⟨"failed to apply logger option: ", err⟩, sensitivekeys)
  | .ok logOpts =>
    let sensitivekeys :=
      logOpts.SensitiveKeys.map (SnakeCase U) ++ blackList.map (SnakeCase U)
    (.ok ⟨⟨jsonHandler logOpts.Level logOpts.AddSource
        [("source", .any (.str cfg.Source)), ("env", .any (.str cfg.Environment))],
      logOpts.WithDebug, sensitivekeys⟩⟩, sensitivekeys)

/-! ## Values that differ in redacted strings only -/

/-- The two values have the same shape, `n` levels deep, and differ at most in
the contents of strings that `clone`, called with the field name `f` and the
tag `t`, meets under a sensitive name or with the tag `true`.  Name and tag are
passed on to the parts as `clone` passes them on. -/
def alike (E : Env) (sensitiveKeys : List String) : Nat → String → String → Value → Value → Bool
  | 0, _, _, _, _ => false
  | _ + 1, f, t, .str s, .str s' =>
    decide (SnakeCase E.unicode f ∈ sensitiveKeys ∨ t = "true") || decide (s = s')
  | _ + 1, _, _, .bool b, .bool b' => decide (b = b')
  | _ + 1, _, _, .num k raw, .num k' raw' => decide (k = k' ∧ raw = raw')
  | _ + 1, _, _, .handle a, .handle a' => decide (a = a')
  | n + 1, _, _, .struct fs, .struct gs =>
    decide (fs.length = gs.length) && (fs.zip gs).all fun p =>
      decide (p.1.name = p.2.name ∧ p.1.jsonTag = p.2.jsonTag
        ∧ p.1.sensitiveTag = p.2.sensitiveTag ∧ p.1.exported = p.2.exported)
      && alike E sensitiveKeys n (if p.1.jsonTag ≠ "" then p.1.jsonTag else p.1.name)
          p.1.sensitiveTag p.1.value p.2.value
  | n + 1, _, _, .map es, .map gs =>
    decide (es.length = gs.length) && (es.zip gs).all fun p =>
      decide (p.1.1 = p.2.1) && alike E sensitiveKeys n p.1.1 "" p.1.2 p.2.2
  | _ + 1, _, _, .nilMap, .nilMap => true
  | n + 1, f, _, .slice xs, .slice ys =>
    decide (xs.length = ys.length) && (xs.zip ys).all fun p =>
      alike E sensitiveKeys n f "" p.1 p.2
  | _ + 1, _, _, .nilSlice, .nilSlice => true
  | n + 1, f, _, .array xs, .array ys =>
    decide (xs.length = ys.length) && (xs.zip ys).all fun p =>
      alike E sensitiveKeys n f "" p.1 p.2
  | _ + 1, _, _, .nilPtr, .nilPtr => true
  | n + 1, f, t, .ref a, .ref a' => alike E sensitiveKeys n f t (E.heap a) (E.heap a')
  | n + 1, f, t, .box v, .box w => alike E sensitiveKeys n f t v w
  | _ + 1, _, _, .iface none, .iface none => true
  | n + 1, f, t, .iface (some v), .iface (some w) => alike E sensitiveKeys n f t v w
  | _ + 1, _, _, .invalid, .invalid => true
  | _ + 1, _, _, _, _ => false

/-- Two logins with the same name and different passwords, the second field
carrying the tag `sensitive:"true"`. -/
def loginSample (secret : String) : Value :=
  .struct [⟨"Username", "login", "", true, .str "jdoe"⟩,
    ⟨"Password", "pass", "true", true, .str secret⟩,
    ⟨"Tokens", "token", "", true, .slice [.str secret, .str "t-2"]⟩]

/-- Two `_` stand side by side in the runes. -/
def hasDoubleSeparator : List Char → Bool
  | a :: b :: rest => (a == '_' && b == '_') || hasDoubleSeparator (b :: rest)
  | _ => false

/-- A rune as `SnakeCase` leaves it on ASCII text: an ASCII rune that is no
uppercase letter and no white space, and no delimiter other than `_`. -/
def settled (x : Char) : Bool :=
  decide (x.toNat < 128) && !Unicode.ascii.isUpper x && !Unicode.ascii.isSpace x
    && (x == '_' || !isDelimiterOptimized x)

/-! ## Theorems -/

theorem forEach_eq_some {α β : Type} {f : α → Option β} :
    ∀ {xs : List α} {ys : List β},
      forEach f xs = some ys ↔ List.Forall₂ (fun x y => f x = some y) xs ys
  | [], ys => by
    simp only [forEach, Option.some.injEq]
    constructor
    · intro h; subst h; exact List.Forall₂.nil
    · intro h; cases h; rfl
  | x :: xs, ys => by
    simp only [forEach]
    constructor
    · intro h
      cases hx : f x with
      | none => simp [hx] at h
      | some y =>
        cases hxs : forEach f xs with
        | none => simp [hx, hxs] at h
        | some zs =>
          simp [hx, hxs] at h
          subst h
          exact List.Forall₂.cons hx (forEach_eq_some.mp hxs)
    · intro h
      cases h with
      | cons hx hrest =>
        rw [hx, forEach_eq_some.mpr hrest]

theorem forEach_total {α β : Type} {f : α → Option β} :
    ∀ {l : List α}, (∀ x ∈ l, ∃ y, f x = some y) → ∃ ys, forEach f l = some ys
  | [], _ => ⟨[], rfl⟩
  | x :: xs, h => by
    obtain ⟨y, hy⟩ := h x (List.mem_cons_self _ _)
    obtain ⟨ys, hys⟩ := forEach_total (l := xs) (fun z hz => h z (List.mem_cons_of_mem _ hz))
    exact ⟨y :: ys, by simp [forEach, hy, hys]⟩

theorem forall₂_getElem? {α β : Type} {R : α → β → Prop} :
    ∀ {xs : List α} {ys : List β}, List.Forall₂ R xs ys →
      ∀ (i : Nat) (x : α), xs[i]? = some x → ∃ y, ys[i]? = some y ∧ R x y
  | _, _, .nil, i, x, h => by simp at h
  | _, _, .cons hxy hrest, 0, x, h => by
    simp at h; subst h; exact ⟨_, by simp, hxy⟩
  | _, _, .cons _ hrest, i + 1, x, h => by
    simp at h
    obtain ⟨y, hy, hr⟩ := forall₂_getElem? hrest i x h
    exact ⟨y, by simpa using hy, hr⟩

section unfold
variable {E : Env} {K : List String} {ctx : Option Nat} {a : Bool} {f t : String}

theorem clone_struct (h : depthReached ctx = false) (fs : List (Field Value)) :
    clone E K ctx a f (.struct fs) t =
      (forEach (fun (fd : Field Value) =>
        if !fd.exported ∧ !a then
          match fd.value with
          | .num k raw => some { fd with value := .num k raw }
          | .bool b => some { fd with value := .bool b }
          | v => some { fd with value := zeroOf v }
        else
          (clone E K (some (nextDepth ctx)) a
            (if fd.jsonTag ≠ "" then fd.jsonTag else fd.name) fd.value fd.sensitiveTag).map
            fun copied => { fd with value := assign fd.value copied }) fs).map Value.struct := by
  rw [clone.eq_def]; simp [h]

theorem clone_map (h : depthReached ctx = false) (es : List (String × Value)) :
    clone E K ctx a f (.map es) t =
      (forEach (fun (kv : String × Value) =>
        (clone E K (some (nextDepth ctx)) false kv.1 kv.2 "").map
          fun copied => (kv.1, assign kv.2 copied)) es).map Value.map := by
  rw [clone.eq_def]; simp [h]

theorem clone_slice (h : depthReached ctx = false) (xs : List Value) :
    clone E K ctx a f (.slice xs) t =
      (forEach (fun (x : Value) =>
        (clone E K (some (nextDepth ctx)) true f x "").map (assign x)) xs).map Value.slice := by
  rw [clone.eq_def]; simp [h]

theorem clone_array (h : depthReached ctx = false) (xs : List Value) :
    clone E K ctx a f (.array xs) t =
      if xs.length = 0 then some (.array xs)
      else (forEach (fun (x : Value) =>
        (clone E K (some (nextDepth ctx)) a f x "").map (assign x)) xs).map Value.array := by
  rw [clone.eq_def]; simp [h]

theorem clone_ref (h : depthReached ctx = false) (p : Nat) :
    clone E K ctx a f (.ref p) t =
      (clone E K (some (nextDepth ctx)) true f (E.heap p) t).map
        fun copied => .box (assign (E.heap p) copied) := by
  rw [clone.eq_def]; simp [h]

theorem clone_box (h : depthReached ctx = false) (v : Value) :
    clone E K ctx a f (.box v) t =
      (clone E K (some (nextDepth ctx)) true f v t).map
        fun copied => .box (assign v copied) := by
  rw [clone.eq_def]; simp [h]

theorem clone_iface (h : depthReached ctx = false) (v : Value) :
    clone E K ctx a f (.iface (some v)) t = clone E K (some (nextDepth ctx)) false f v t := by
  rw [clone.eq_def]; simp [h]

theorem clone_str_plain (h : depthReached ctx = false) (s : String)
    (hs : ¬ (SnakeCase E.unicode f ∈ K ∨ t = "true")) :
    clone E K ctx a f (.str s) t =
      match E.json.unmarshal s with
      | some (.map jsonStruct) =>
        (forEach (fun (kv : String × Value) =>
          if SnakeCase E.unicode kv.1 ∈ K then
            some (kv.1, assign kv.2 (.str DefaultRedactMessage))
          else
            (clone E K (some (nextDepth ctx)) false kv.1 kv.2 "").map
              fun copiedValue => (kv.1, assign kv.2 copiedValue)) jsonStruct).map
          fun dstMap =>
            match E.json.marshal (.map dstMap) with
            | some newJSON => .str newJSON
            | none => .str s
      | some .nilMap =>
        match E.json.marshal (.map []) with
        | some newJSON => some (.str newJSON)
        | none => some (.str s)
      | _ => some (.str s) := by
  rw [clone.eq_def]; simp only [h, hs]; simp

end unfold

theorem clone_of_reached {E : Env} {K : List String} {ctx : Option Nat} {a : Bool}
    {f : String} {src : Value} {t : String} (h : depthReached ctx = true) :
    clone E K ctx a f src t = some src := by
  rw [clone.eq_def]; simp [h]

theorem clone_str_redact {E : Env} {K : List String} {ctx : Option Nat} {a : Bool}
    {f s t : String} (h : depthReached ctx = false)
    (hs : SnakeCase E.unicode f ∈ K ∨ t = "true") :
    clone E K ctx a f (.str s) t = some (.str DefaultRedactMessage) := by
  rw [clone.eq_def]; simp [h, hs]

/-- A string that is not redacted and does not parse to a map is copied. -/
theorem clone_str_verbatim {E : Env} {K : List String} (ctx : Option Nat) (a : Bool)
    {f s t : String} (hkey : SnakeCase E.unicode f ∉ K) (htag : t ≠ "true")
    (hs : ∀ v, E.json.unmarshal s = some v → v.isMapKind = false) :
    clone E K ctx a f (.str s) t = some (.str s) := by
  cases hr : depthReached ctx with
  | true => exact clone_of_reached hr
  | false =>
    rw [clone_str_plain hr s (by simp [hkey, htag])]
    cases hu : E.json.unmarshal s with
    | none => rfl
    | some v =>
      have hv := hs v hu
      cases v <;> first | rfl | simp [Value.isMapKind] at hv

theorem allFields_iff {p : Value → Bool} : ∀ {l : List (Field Value)},
    allFields p l = true ↔ ∀ f ∈ l, Value.all p f.value = true
  | [] => by simp [allFields]
  | f :: fs => by simp [allFields, allFields_iff (l := fs)]

theorem allEntries_iff {p : Value → Bool} : ∀ {l : List (String × Value)},
    allEntries p l = true ↔ ∀ kv ∈ l, Value.all p kv.2 = true
  | [] => by simp [allEntries]
  | kv :: es => by simp [allEntries, allEntries_iff (l := es)]

theorem allList_iff {p : Value → Bool} : ∀ {l : List Value},
    allList p l = true ↔ ∀ x ∈ l, Value.all p x = true
  | [] => by simp [allList]
  | x :: xs => by simp [allList, allList_iff (l := xs)]

theorem depthFuel_next {ctx : Option Nat} (h : depthReached ctx = false) :
    depthFuel (some (nextDepth ctx)) + 1 ≤ depthFuel ctx := by
  cases ctx with
  | none => simp [depthFuel, nextDepth, maxDepth]
  | some v =>
    simp only [depthReached, decide_eq_false_iff_not, maxDepth] at h
    simp only [depthFuel, nextDepth, maxDepth]
    omega

theorem depthReached_of_fuel {ctx : Option Nat} (h : depthFuel ctx = 0) :
    depthReached ctx = true := by
  cases ctx with
  | none => simp [depthFuel] at h
  | some v =>
    simp only [depthFuel, maxDepth] at h
    simp only [depthReached, decide_eq_true_eq, maxDepth]
    omega

section leaves
variable {E : Env} {K : List String} {ctx : Option Nat} {a : Bool} {f t : String}

theorem clone_bool (h : depthReached ctx = false) (b : Bool) :
    clone E K ctx a f (.bool b) t = some (.bool b) := by
  rw [clone.eq_def]; simp [h]

theorem clone_num (h : depthReached ctx = false) (k : NumKind) (raw : Int) :
    clone E K ctx a f (.num k raw) t = some (.num k raw) := by
  rw [clone.eq_def]; simp [h]

theorem clone_handle (h : depthReached ctx = false) (p : Option Nat) :
    clone E K ctx a f (.handle p) t = some (.handle p) := by
  rw [clone.eq_def]; simp [h]

theorem clone_nilMap (h : depthReached ctx = false) :
    clone E K ctx a f .nilMap t = some (.map []) := by
  rw [clone.eq_def]; simp [h]

theorem clone_nilSlice (h : depthReached ctx = false) :
    clone E K ctx a f .nilSlice t = some (.slice []) := by
  rw [clone.eq_def]; simp [h]

theorem clone_nilPtr (h : depthReached ctx = false) :
    clone E K ctx a f .nilPtr t = some .nilPtr := by
  rw [clone.eq_def]; simp [h]

theorem clone_iface_nil (h : depthReached ctx = false) :
    clone E K ctx a f (.iface none) t = some (.iface none) := by
  rw [clone.eq_def]; simp [h]

theorem clone_invalid (h : depthReached ctx = false) :
    clone E K ctx a f .invalid t = none := by
  rw [clone.eq_def]; simp [h]

end leaves

/-- On Go values in a well-formed environment `clone` does not panic. -/
theorem clone_total_aux (E : Env) (K : List String) (hE : E.WellFormed) :
    ∀ (n : Nat) (ctx : Option Nat) (a : Bool) (f : String) (src : Value) (t : String),
      depthFuel ctx ≤ n → src.wellFormed = true → ∃ r, clone E K ctx a f src t = some r := by
  intro n
  induction n with
  | zero =>
    intro ctx a f src t hn _
    exact ⟨src, clone_of_reached (depthReached_of_fuel (by omega))⟩
  | succ n ih =>
    intro ctx a f src t hn hsrc
    cases hr : depthReached ctx with
    | true => exact ⟨src, clone_of_reached hr⟩
    | false =>
      have hfuel : depthFuel (some (nextDepth ctx)) ≤ n := by
        have := depthFuel_next hr; omega
      have rec : ∀ (a : Bool) (f : String) (v : Value) (t : String), v.wellFormed = true →
          ∃ r, clone E K (some (nextDepth ctx)) a f v t = some r :=
        fun a f v t hv => ih _ a f v t hfuel hv
      cases src with
      | invalid => simp [Value.wellFormed, Value.all, Value.isValid] at hsrc
      | bool b => exact ⟨_, clone_bool hr b⟩
      | num k raw => exact ⟨_, clone_num hr k raw⟩
      | handle p => exact ⟨_, clone_handle hr p⟩
      | nilMap => exact ⟨_, clone_nilMap hr⟩
      | nilSlice => exact ⟨_, clone_nilSlice hr⟩
      | nilPtr => exact ⟨_, clone_nilPtr hr⟩
      | str s =>
        by_cases hs : SnakeCase E.unicode f ∈ K ∨ t = "true"
        · exact ⟨_, clone_str_redact hr hs⟩
        · rw [clone_str_plain hr s hs]
          cases hu : E.json.unmarshal s with
          | none => exact ⟨_, rfl⟩
          | some v =>
            cases v with
            | map es =>
              have hes := hE.json s es hu
              simp only [Value.wellFormed, Value.all, Bool.and_eq_true, allEntries_iff] at hes
              obtain ⟨dst, hdst⟩ := forEach_total (l := es)
                (f := fun (kv : String × Value) =>
                  if SnakeCase E.unicode kv.1 ∈ K then
                    some (kv.1, assign kv.2 (.str DefaultRedactMessage))
                  else
                    (clone E K (some (nextDepth ctx)) false kv.1 kv.2 "").map
                      fun copiedValue => (kv.1, assign kv.2 copiedValue))
                (by
                  intro kv hkv
                  by_cases hk : SnakeCase E.unicode kv.1 ∈ K
                  · simp only [hk, if_true]; exact ⟨_, rfl⟩
                  · obtain ⟨r, hr'⟩ := rec false kv.1 kv.2 "" (hes.2 kv hkv)
                    simp only [hk, if_false, hr', Option.map_some']; exact ⟨_, rfl⟩)
              simp only [hdst, Option.map_some']
              exact ⟨_, rfl⟩
            | nilMap =>
              simp only
              cases E.json.marshal (.map []) <;> exact ⟨_, rfl⟩
            | _ => exact ⟨_, rfl⟩
      | struct fs =>
        simp only [Value.wellFormed, Value.all, Bool.and_eq_true, allFields_iff] at hsrc
        rw [clone_struct hr]
        obtain ⟨dst, hdst⟩ := forEach_total (l := fs)
          (f := fun (fd : Field Value) =>
            if !fd.exported ∧ !a then
              match fd.value with
              | .num k raw => some { fd with value := .num k raw }
              | .bool b => some { fd with value := .bool b }
              | v => some { fd with value := zeroOf v }
            else
              (clone E K (some (nextDepth ctx)) a
                (if fd.jsonTag ≠ "" then fd.jsonTag else fd.name) fd.value fd.sensitiveTag).map
                fun copied => { fd with value := assign fd.value copied })
          (by
            intro fd hfd
            by_cases hx : (!fd.exported) = true ∧ (!a) = true
            · simp only [hx, and_self, if_true]
              split <;> exact ⟨_, rfl⟩
            · obtain ⟨r, hr'⟩ := rec a (if fd.jsonTag ≠ "" then fd.jsonTag else fd.name)
                fd.value fd.sensitiveTag (hsrc.2 fd hfd)
              simp only [hx, if_false, hr', Option.map_some']; exact ⟨_, rfl⟩)
        rw [hdst]; exact ⟨_, rfl⟩
      | map es =>
        simp only [Value.wellFormed, Value.all, Bool.and_eq_true, allEntries_iff] at hsrc
        rw [clone_map hr]
        obtain ⟨dst, hdst⟩ := forEach_total (l := es)
          (f := fun (kv : String × Value) =>
            (clone E K (some (nextDepth ctx)) false kv.1 kv.2 "").map
              fun copied => (kv.1, assign kv.2 copied))
          (by
            intro kv hkv
            obtain ⟨r, hr'⟩ := rec false kv.1 kv.2 "" (hsrc.2 kv hkv)
            simp only [hr', Option.map_some']; exact ⟨_, rfl⟩)
        rw [hdst]; exact ⟨_, rfl⟩
      | slice xs =>
        simp only [Value.wellFormed, Value.all, Bool.and_eq_true, allList_iff] at hsrc
        rw [clone_slice hr]
        obtain ⟨dst, hdst⟩ := forEach_total (l := xs)
          (f := fun (x : Value) =>
            (clone E K (some (nextDepth ctx)) true f x "").map (assign x))
          (by
            intro x hx
            obtain ⟨r, hr'⟩ := rec true f x "" (hsrc.2 x hx)
            simp only [hr', Option.map_some']; exact ⟨_, rfl⟩)
        rw [hdst]; exact ⟨_, rfl⟩
      | array xs =>
        simp only [Value.wellFormed, Value.all, Bool.and_eq_true, allList_iff] at hsrc
        rw [clone_array hr]
        by_cases hl : xs.length = 0
        · simp only [hl, if_true]; exact ⟨_, rfl⟩
        · obtain ⟨dst, hdst⟩ := forEach_total (l := xs)
            (f := fun (x : Value) =>
              (clone E K (some (nextDepth ctx)) a f x "").map (assign x))
            (by
              intro x hx
              obtain ⟨r, hr'⟩ := rec a f x "" (hsrc.2 x hx)
              simp only [hr', Option.map_some']; exact ⟨_, rfl⟩)
          simp only [hl, if_false, hdst]; exact ⟨_, rfl⟩
      | ref p =>
        rw [clone_ref hr]
        obtain ⟨r, hr'⟩ := rec true f (E.heap p) t (hE.heap p)
        rw [hr']; exact ⟨_, rfl⟩
      | box v =>
        simp only [Value.wellFormed, Value.all, Bool.and_eq_true] at hsrc
        rw [clone_box hr]
        obtain ⟨r, hr'⟩ := rec true f v t hsrc.2
        rw [hr']; exact ⟨_, rfl⟩
      | iface v =>
        cases v with
        | none => exact ⟨_, clone_iface_nil hr⟩
        | some v =>
          simp only [Value.wellFormed, Value.all, Bool.and_eq_true] at hsrc
          rw [clone_iface hr]
          exact rec false f v t hsrc.2

theorem clone_total {E : Env} {K : List String} (hE : E.WellFormed) (ctx : Option Nat)
    (a : Bool) (f : String) (src : Value) (t : String) (h : src.wellFormed = true) :
    ∃ r, clone E K ctx a f src t = some r :=
  clone_total_aux E K hE _ ctx a f src t le_rfl h

/-- C1: for every field name whose snake-case form is in the sensitive key
set, every string value and every tag, `clone` called below the depth bound
returns the redaction marker `"*"`, whatever the string holds and whatever the
JSON codec would make of it. -/
theorem clone_sensitive_string (E : Env) (sensitiveKeys : List String) (ctx : Option Nat)
    (canAddr : Bool) (fieldName s tag : String)
    (hdepth : depthReached ctx = false)
    (hkey : SnakeCase E.unicode fieldName ∈ sensitiveKeys) :
    clone E sensitiveKeys ctx canAddr fieldName (.str s) tag = some (.str "*") :=
  clone_str_redact hdepth (Or.inl hkey)

/-- C1 at the input of the handler test: the attribute `email` of the test
record, under the built-in key list, a JSON text included. -/
theorem clone_sensitive_string_witness :
    clone sampleEnv blackList none false "email" (.str "test@example.com") "" = some (.str "*")
    ∧ clone sampleEnv blackList (some 31) true "Email"
        (.str "\x7b\"email\":\"a@b.com\",\"theme\":\"dark\"\x7d") "" = some (.str "*") :=
  ⟨clone_sensitive_string sampleEnv blackList none false "email" "test@example.com" "" rfl
      (by decide),
   clone_sensitive_string sampleEnv blackList (some 31) true "Email" _ "" rfl (by decide)⟩

theorem sampleEnv_wellFormed : sampleEnv.WellFormed where
  heap := by
    intro a
    simp only [sampleEnv, sampleHeap]
    split
    · rfl
    · split <;> rfl
  json := by
    intro s es h
    simp only [sampleEnv, parseSample] at h
    split at h
    · cases h; rfl
    · split at h
      · cases h; rfl
      · split at h
        · simp at h
        · split at h
          · cases h; rfl
          · simp at h
theorem depthReached_of_next {ctx : Option Nat} (h : nextDepth ctx < maxDepth) :
    depthReached ctx = false ∧ depthReached (some (nextDepth ctx)) = false := by
  cases ctx with
  | none => simp [depthReached, nextDepth, maxDepth]
  | some v =>
    simp only [nextDepth, maxDepth] at h
    simp only [depthReached, nextDepth, maxDepth, ge_iff_le, decide_eq_false_iff_not, not_le]
    omega

/-- C2: in every struct of Go values, a declared string field (exported, or
any field when the struct is addressable) that carries the tag
`sensitive:"true"` comes out of `clone` holding the redaction marker, whatever
the sensitive key set is (so also when the name of the field is not in it);
the other fields keep their places.  This holds for the top-level call and for
every call that visits the fields below the depth bound
(`nextDepth ctx < maxDepth`). -/
theorem clone_tagged_field (E : Env) (sensitiveKeys : List String) (hE : E.WellFormed)
    (ctx : Option Nat) (canAddr : Bool) (fieldName tag : String)
    (fs : List (Field Value)) (i : Nat) (fd : Field Value) (s : String)
    (hdepth : nextDepth ctx < maxDepth)
    (hfs : (Value.struct fs).wellFormed = true)
    (hi : fs[i]? = some fd)
    (htag : fd.sensitiveTag = "true")
    (hval : fd.value = .str s)
    (hexp : fd.exported = true ∨ canAddr = true) :
    ∃ dst, clone E sensitiveKeys ctx canAddr fieldName (.struct fs) tag = some (.struct dst)
      ∧ dst.length = fs.length
      ∧ dst[i]? = some { fd with value := .str "*" } := by
  obtain ⟨h0, h1⟩ := depthReached_of_next hdepth
  obtain ⟨r, hr⟩ := clone_total (K := sensitiveKeys) hE ctx canAddr fieldName (.struct fs) tag hfs
  rw [clone_struct h0] at hr
  rw [clone_struct h0]
  cases hdst : forEach (fun (fd : Field Value) =>
        if !fd.exported ∧ !canAddr then
          match fd.value with
          | .num k raw => some { fd with value := .num k raw }
          | .bool b => some { fd with value := .bool b }
          | v => some { fd with value := zeroOf v }
        else
          (clone E sensitiveKeys (some (nextDepth ctx)) canAddr
            (if fd.jsonTag ≠ "" then fd.jsonTag else fd.name) fd.value fd.sensitiveTag).map
            fun copied => { fd with value := assign fd.value copied }) fs with
  | none => rw [hdst] at hr; simp at hr
  | some dst =>
    have hall := forEach_eq_some.mp hdst
    refine ⟨dst, rfl, hall.length_eq.symm, ?_⟩
    obtain ⟨y, hy, hrel⟩ := forall₂_getElem? hall i fd hi
    have hx : ¬ ((!fd.exported) = true ∧ (!canAddr) = true) := by
      rcases hexp with h | h <;> simp [h]
    simp only [hx, if_false, hval, htag, clone_str_redact h1 (Or.inr rfl), Option.map_some',
      assign, Option.some.injEq] at hrel
    rw [hy, ← hrel, htag]
    rfl

/-- C2 on `UserCredentials` of the example program with the field `Password`
renamed so that no key matches it: the tagged field is redacted under an empty
key set, the untagged `Username` and `PublicKey` are not. -/
theorem clone_tagged_field_witness :
    ∃ dst, clone sampleEnv [] none false "credentials" (.struct
        [⟨"Username", "username", "", true, .str "john_doe"⟩,
         ⟨"Passphrase", "passphrase", "true", true, .str "very_secret"⟩,
         ⟨"PublicKey", "public_key", "", true, .str "public_key_xyz"⟩]) "" = some (.struct dst)
      ∧ dst.length = 3
      ∧ dst[1]? = some ⟨"Passphrase", "passphrase", "true", true, .str "*"⟩ :=
  clone_tagged_field sampleEnv [] sampleEnv_wellFormed none false "credentials" ""
    _ 1 ⟨"Passphrase", "passphrase", "true", true, .str "very_secret"⟩ "very_secret"
    (by decide) (by decide) rfl rfl rfl (Or.inl rfl)

theorem forEach_strings_redacted {E : Env} {K : List String} {ctx : Option Nat} {a : Bool}
    {f : String} (h : depthReached ctx = false) (hkey : SnakeCase E.unicode f ∈ K) :
    ∀ (xs : List String),
      forEach (fun (x : Value) => (clone E K ctx a f x "").map (assign x)) (xs.map Value.str)
        = some (List.replicate xs.length (.str "*"))
  | [] => rfl
  | x :: xs => by
    simp only [List.map_cons, forEach, clone_str_redact h (Or.inl hkey), Option.map_some',
      forEach_strings_redacted h hkey xs, List.length_cons, List.replicate_succ]
    rfl

/-- C3: a list of strings (a slice, and likewise an array) held under a field
whose snake-case name is in the sensitive key set comes out of `clone` as a
list of the same length whose elements are all the redaction marker; the name
of the parent field decides, for every element alike.  This holds for the
top-level call and for every call that visits the elements below the depth
bound (`nextDepth ctx < maxDepth`). -/
theorem clone_sensitive_list (E : Env) (sensitiveKeys : List String) (ctx : Option Nat)
    (canAddr : Bool) (fieldName tag : String) (xs : List String)
    (hdepth : nextDepth ctx < maxDepth)
    (hkey : SnakeCase E.unicode fieldName ∈ sensitiveKeys) :
    clone E sensitiveKeys ctx canAddr fieldName (.slice (xs.map Value.str)) tag
        = some (.slice (List.replicate xs.length (.str "*")))
    ∧ clone E sensitiveKeys ctx canAddr fieldName (.array (xs.map Value.str)) tag
        = some (.array (List.replicate xs.length (.str "*"))) := by
  obtain ⟨h0, h1⟩ := depthReached_of_next hdepth
  constructor
  · rw [clone_slice h0, forEach_strings_redacted h1 hkey]; rfl
  · rw [clone_array h0]
    cases xs with
    | nil => rfl
    | cons x xs =>
      rw [if_neg (by simp), forEach_strings_redacted h1 hkey]; rfl

/-- C3 on the example program: `PhoneNumbers` (json name `phone_numbers`) of
`UserProfile`, with `phone_numbers` among the sensitive keys. -/
theorem clone_sensitive_list_witness :
    clone sampleEnv ("phone_numbers" :: blackList) (some 0) false "phone_numbers"
        (.slice [.str "123-456-7890"]) "" = some (.slice [.str "*"])
    ∧ clone sampleEnv ("phone_numbers" :: blackList) (some 0) false "phone_numbers"
        (.array [.str "123-456-7890"]) "" = some (.array [.str "*"]) :=
  clone_sensitive_list sampleEnv ("phone_numbers" :: blackList) (some 0) false "phone_numbers" ""
    ["123-456-7890"] (by decide) (by decide)

/-- C4 (the code at the failing input): under the built-in key set, a field
`Aliases []string` tagged `sensitive:"true"` comes out of `clone` with its
element as it was, whereas a field `Alias *string` with the same tag comes out
pointing to the redaction marker: the slice case passes `""` on where the
pointer case passes `tag`. -/
theorem clone_tagged_list_kept :
    clone sampleEnv blackList none false "profile" (.struct
        [⟨"Aliases", "aliases", "true", true, .slice [.str "hunter2"]⟩]) ""
      = some (.struct [⟨"Aliases", "aliases", "true", true, .slice [.str "hunter2"]⟩])
    ∧ clone sampleEnv blackList none false "profile" (.struct
        [⟨"Alias", "alias", "true", true, .box (.str "hunter2")⟩]) ""
      = some (.struct [⟨"Alias", "alias", "true", true, .box (.str "*")⟩]) := by
  have h0 : depthReached none = false := rfl
  have h1 : depthReached (some (nextDepth none)) = false := rfl
  have h2 : depthReached (some (nextDepth (some (nextDepth none)))) = false := rfl
  have hk : ¬ (SnakeCase sampleEnv.unicode "aliases" ∈ blackList ∨ "" = "true") := by decide
  constructor
  · rw [clone_struct h0]
    simp only [forEach, Bool.not_true, Bool.false_eq_true, false_and, if_false]
    rw [show (if "aliases" ≠ "" then "aliases" else "Aliases") = "aliases" from rfl,
      clone_slice h1]
    simp only [forEach]
    rw [clone_str_plain h2 _ hk]
    rfl
  · rw [clone_struct h0]
    simp only [forEach, Bool.not_true, Bool.false_eq_true, false_and, if_false]
    rw [show (if "alias" ≠ "" then "alias" else "Alias") = "alias" from rfl,
      clone_box h1, clone_str_redact h2 (Or.inr rfl)]
    rfl

theorem clone_map_entry {E : Env} {K : List String} (hE : E.WellFormed) {ctx : Option Nat}
    {a : Bool} {f t : String} {es : List (String × Value)} {i : Nat} {k : String} {v : Value}
    (h0 : depthReached ctx = false) (hes : (Value.map es).wellFormed = true)
    (hi : es[i]? = some (k, v)) :
    ∃ dst c, clone E K ctx a f (.map es) t = some (.map dst) ∧ dst.length = es.length
      ∧ clone E K (some (nextDepth ctx)) false k v "" = some c
      ∧ dst[i]? = some (k, assign v c) := by
  obtain ⟨r, hr⟩ := clone_total (K := K) hE ctx a f (.map es) t hes
  rw [clone_map h0] at hr
  rw [clone_map h0]
  cases hdst : forEach (fun (kv : String × Value) =>
        (clone E K (some (nextDepth ctx)) false kv.1 kv.2 "").map
          fun copied => (kv.1, assign kv.2 copied)) es with
  | none => rw [hdst] at hr; simp at hr
  | some dst =>
    have hall := forEach_eq_some.mp hdst
    obtain ⟨y, hy, hrel⟩ := forall₂_getElem? hall i (k, v) hi
    cases hc : clone E K (some (nextDepth ctx)) false k v "" with
    | none => simp [hc] at hrel
    | some c =>
      simp only [hc, Option.map_some', Option.some.injEq] at hrel
      exact ⟨dst, c, rfl, hall.length_eq.symm, rfl, by rw [hy, ← hrel]⟩

theorem clone_struct_field {E : Env} {K : List String} (hE : E.WellFormed) {ctx : Option Nat}
    {a : Bool} {f t : String} {fs : List (Field Value)} {i : Nat} {fd : Field Value}
    (h0 : depthReached ctx = false) (hfs : (Value.struct fs).wellFormed = true)
    (hi : fs[i]? = some fd) (hexp : fd.exported = true ∨ a = true) :
    ∃ dst c, clone E K ctx a f (.struct fs) t = some (.struct dst) ∧ dst.length = fs.length
      ∧ clone E K (some (nextDepth ctx)) a (if fd.jsonTag ≠ "" then fd.jsonTag else fd.name)
          fd.value fd.sensitiveTag = some c
      ∧ dst[i]? = some { fd with value := assign fd.value c } := by
  obtain ⟨r, hr⟩ := clone_total (K := K) hE ctx a f (.struct fs) t hfs
  rw [clone_struct h0] at hr
  rw [clone_struct h0]
  cases hdst : forEach (fun (fd : Field Value) =>
        if !fd.exported ∧ !a then
          match fd.value with
          | .num k raw => some { fd with value := .num k raw }
          | .bool b => some { fd with value := .bool b }
          | v => some { fd with value := zeroOf v }
        else
          (clone E K (some (nextDepth ctx)) a
            (if fd.jsonTag ≠ "" then fd.jsonTag else fd.name) fd.value fd.sensitiveTag).map
            fun copied => { fd with value := assign fd.value copied }) fs with
  | none => rw [hdst] at hr; simp at hr
  | some dst =>
    have hall := forEach_eq_some.mp hdst
    obtain ⟨y, hy, hrel⟩ := forall₂_getElem? hall i fd hi
    have hx : ¬ ((!fd.exported) = true ∧ (!a) = true) := by
      rcases hexp with h | h <;> simp [h]
    rw [if_neg hx] at hrel
    cases hc : clone E K (some (nextDepth ctx)) a (if fd.jsonTag ≠ "" then fd.jsonTag else fd.name)
        fd.value fd.sensitiveTag with
    | none => rw [hc] at hrel; simp at hrel
    | some c =>
      rw [hc] at hrel
      simp only [Option.map_some', Option.some.injEq] at hrel
      exact ⟨dst, c, rfl, hall.length_eq.symm, rfl, by rw [hy, ← hrel]⟩

/-- A number or a boolean is copied at every depth. -/
theorem clone_scalar {E : Env} {K : List String} (ctx : Option Nat) (a : Bool) (f t : String)
    {w : Value} (hw : (∃ n raw, w = .num n raw) ∨ ∃ b, w = .bool b) :
    clone E K ctx a f w t = some w := by
  cases hr : depthReached ctx with
  | true => exact clone_of_reached hr
  | false =>
    rcases hw with ⟨n, raw, rfl⟩ | ⟨b, rfl⟩
    · exact clone_num hr n raw
    · exact clone_bool hr b

/-- C5 (as stated, refuted): under the built-in key set the number held under
`password` and the boolean held under `token` in a `map[string]interface{}`
come out of `clone` as they went in, not as the redaction marker; and so does
the record held under `address` in a map of records. -/
theorem clone_sensitive_scalar_kept :
    clone sampleEnv blackList none false "user"
        (.map [("password", .iface (some (.num .int 1234))),
               ("token", .iface (some (.bool true)))]) ""
      = some (.map [("password", .iface (some (.num .int 1234))),
                    ("token", .iface (some (.bool true)))])
    ∧ clone sampleEnv blackList none false "user"
        (.map [("password", .iface (some (.num .int 1234))),
               ("token", .iface (some (.bool true)))]) ""
      ≠ some (.map [("password", .iface (some (.str "*"))),
                    ("token", .iface (some (.str "*")))])
    ∧ clone sampleEnv blackList none false "user"
        (.map [("address", .struct [⟨"Street", "street", "", true, .str "1 Main St"⟩])]) ""
      = some (.map [("address", .struct [⟨"Street", "street", "", true, .str "1 Main St"⟩])]) := by
  have h0 : depthReached none = false := rfl
  have h1 : depthReached (some (nextDepth none)) = false := rfl
  have h : clone sampleEnv blackList none false "user"
        (.map [("password", .iface (some (.num .int 1234))),
               ("token", .iface (some (.bool true)))]) ""
      = some (.map [("password", .iface (some (.num .int 1234))),
                    ("token", .iface (some (.bool true)))]) := by
    rw [clone_map h0]
    simp only [forEach]
    rw [clone_iface h1, clone_iface h1, clone_scalar _ _ _ _ (Or.inl ⟨_, _, rfl⟩),
      clone_scalar _ _ _ _ (Or.inr ⟨_, rfl⟩)]
    rfl
  refine ⟨h, ?_, ?_⟩
  · rw [h]
    simp
  · rw [clone_map h0]
    simp only [forEach]
    rw [clone_struct h1]
    simp only [forEach, Bool.not_true, Bool.false_eq_true, false_and, if_false]
    rw [show (if "street" ≠ "" then "street" else "Street") = "street" from rfl,
      clone_str_verbatim (E := sampleEnv) (K := blackList) (f := "street") (s := "1 Main St") _
        false (by decide) (by decide) (by intro v h; cases h)]
    rfl

/-- C5 (amended): at every depth below the bound, a string held under a name
whose snake-case form is in the sensitive key set, as the value of a mapping
entry (of string type, or of interface type one level further from the bound)
or of an exported struct field, comes out of `clone` as the redaction marker;
a number or a boolean held under such a name comes out unchanged, and a record
held under such a name in a mapping comes out as its own clone. -/
theorem clone_sensitive_name (E : Env) (sensitiveKeys : List String) (hE : E.WellFormed)
    (ctx : Option Nat) (canAddr : Bool) (fieldName tag : String)
    (es : List (String × Value)) (i : Nat) (k : String) (v : Value)
    (fs : List (Field Value)) (j : Nat) (fd : Field Value)
    (hdepth : nextDepth ctx < maxDepth)
    (hes : (Value.map es).wellFormed = true)
    (hi : es[i]? = some (k, v))
    (hk : SnakeCase E.unicode k ∈ sensitiveKeys)
    (hfs : (Value.struct fs).wellFormed = true)
    (hj : fs[j]? = some fd)
    (hexp : fd.exported = true ∨ canAddr = true)
    (hfd : SnakeCase E.unicode (if fd.jsonTag ≠ "" then fd.jsonTag else fd.name)
      ∈ sensitiveKeys) :
    (∃ dst, clone E sensitiveKeys ctx canAddr fieldName (.map es) tag = some (.map dst)
      ∧ dst.length = es.length
      ∧ (∀ s, v = .str s → dst[i]? = some (k, .str "*"))
      ∧ (∀ s, v = .iface (some (.str s)) → nextDepth ctx + 1 < maxDepth →
          dst[i]? = some (k, .iface (some (.str "*"))))
      ∧ (∀ w, ((∃ n raw, w = Value.num n raw) ∨ ∃ b, w = Value.bool b) →
          v = w ∨ v = .iface (some w) → dst[i]? = some (k, v))
      ∧ (∀ gs, v = .struct gs → ∃ c,
          clone E sensitiveKeys (some (nextDepth ctx)) false k (.struct gs) "" = some c
          ∧ dst[i]? = some (k, c)))
    ∧ (∃ dst, clone E sensitiveKeys ctx canAddr fieldName (.struct fs) tag = some (.struct dst)
      ∧ dst.length = fs.length
      ∧ (∀ s, fd.value = .str s → dst[j]? = some { fd with value := .str "*" })
      ∧ (∀ n raw, fd.value = .num n raw → dst[j]? = some fd)
      ∧ (∀ b, fd.value = .bool b → dst[j]? = some fd)) := by
  obtain ⟨h0, h1⟩ := depthReached_of_next hdepth
  constructor
  · obtain ⟨dst, c, hdst, hlen, hc, hget⟩ :=
      clone_map_entry (K := sensitiveKeys) (a := canAddr) (f := fieldName) (t := tag) hE h0 hes hi
    refine ⟨dst, hdst, hlen, ?_, ?_, ?_, ?_⟩
    · intro s hv
      subst hv
      rw [clone_str_redact h1 (Or.inl hk)] at hc
      cases hc
      exact hget
    · intro s hv hd
      subst hv
      have h2 : depthReached (some (nextDepth (some (nextDepth ctx)))) = false :=
        (depthReached_of_next (show nextDepth (some (nextDepth ctx)) < maxDepth from hd)).2
      rw [clone_iface h1, clone_str_redact h2 (Or.inl hk)] at hc
      cases hc
      exact hget
    · intro w hw hv
      rcases hv with rfl | rfl
      · rw [clone_scalar _ _ _ _ hw] at hc
        cases hc
        rw [hget]
        rcases hw with ⟨n, raw, rfl⟩ | ⟨b, rfl⟩ <;> rfl
      · rw [clone_iface h1, clone_scalar _ _ _ _ hw] at hc
        cases hc
        rw [hget]
        rcases hw with ⟨n, raw, rfl⟩ | ⟨b, rfl⟩ <;> rfl
    · intro gs hv
      subst hv
      exact ⟨c, hc, hget⟩
  · obtain ⟨dst, c, hdst, hlen, hc, hget⟩ :=
      clone_struct_field (K := sensitiveKeys) (f := fieldName) (t := tag) hE h0 hfs hj hexp
    refine ⟨dst, hdst, hlen, ?_, ?_, ?_⟩
    · intro s hv
      rw [hv, clone_str_redact h1 (Or.inl hfd)] at hc
      cases hc
      rw [hget, hv]
      rfl
    · intro n raw hv
      rw [hv, clone_num h1] at hc
      cases hc
      rw [hget, hv]
      cases fd
      simp only at hv
      subst hv
      rfl
    · intro b hv
      rw [hv, clone_bool h1] at hc
      cases hc
      rw [hget, hv]
      cases fd
      simp only at hv
      subst hv
      rfl

/-- C5 (amended) on the mapping of the counterexample with a string added,
and on `UserProfile` of the example program, two levels under the bound: the
string under `email` becomes the marker. -/
theorem clone_sensitive_name_witness :
    (∃ dst, clone sampleEnv blackList (some 29) false "user"
        (.map [("password", .iface (some (.num .int 1234))),
               ("email", .iface (some (.str "john@example.com")))]) ""
          = some (.map dst)
      ∧ dst[1]? = some ("email", .iface (some (.str "*"))))
    ∧ (∃ dst, clone sampleEnv blackList (some 29) false "user" (.struct
        [⟨"Name", "name", "", true, .str "John Doe"⟩,
         ⟨"Email", "email", "", true, .str "john@example.com"⟩,
         ⟨"Age", "age", "", true, .num .int 30⟩]) "" = some (.struct dst)
      ∧ dst[1]? = some ⟨"Email", "email", "", true, .str "*"⟩) := by
  obtain ⟨⟨d1, h1, _, _, hs1, _, _⟩, ⟨d2, h2, _, hs2, _, _⟩⟩ :=
    clone_sensitive_name sampleEnv blackList sampleEnv_wellFormed (some 29) false "user" ""
      [("password", .iface (some (.num .int 1234))),
       ("email", .iface (some (.str "john@example.com")))] 1 "email"
      (.iface (some (.str "john@example.com")))
      [⟨"Name", "name", "", true, .str "John Doe"⟩,
       ⟨"Email", "email", "", true, .str "john@example.com"⟩,
       ⟨"Age", "age", "", true, .num .int 30⟩] 1
      ⟨"Email", "email", "", true, .str "john@example.com"⟩
      (by decide) (by decide) rfl (by decide) (by decide) rfl (Or.inl rfl) (by decide)
  exact ⟨⟨d1, h1, hs1 _ rfl (by decide)⟩, ⟨d2, h2, hs2 _ rfl⟩⟩

theorem clone_str_entries {E : Env} {K : List String} {ctx : Option Nat} {a : Bool}
    {f t : String} (h : depthReached ctx = false) (s : String)
    (hs : ¬ (SnakeCase E.unicode f ∈ K ∨ t = "true")) (es : List (String × Value))
    (hu : E.json.unmarshal s = some (.map es)) :
    clone E K ctx a f (.str s) t =
      (cloneEntries E K ctx es).map fun dstMap =>
        match E.json.marshal (.map dstMap) with
        | some newJSON => .str newJSON
        | none => .str s := by
  rw [clone_str_plain h s hs, hu]
  rfl

/-- C6: under a field name that is not sensitive and with no `true` tag, a
string that `json.Unmarshal` rejects, or that it parses to anything but an
object, comes out of `clone` unchanged, at every depth, and nothing panics. -/
theorem clone_plain_string (E : Env) (sensitiveKeys : List String) (ctx : Option Nat)
    (canAddr : Bool) (fieldName s tag : String)
    (hkey : SnakeCase E.unicode fieldName ∉ sensitiveKeys)
    (htag : tag ≠ "true")
    (hs : ∀ v, E.json.unmarshal s = some v → v.isMapKind = false) :
    clone E sensitiveKeys ctx canAddr fieldName (.str s) tag = some (.str s) :=
  clone_str_verbatim ctx canAddr hkey htag hs

/-- C6 on the handler test and on the JSON array of the claim: `regular_field`
with a plain word, and `note` with an array that holds an object with an
`email` key, both under the built-in key set. -/
theorem clone_plain_string_witness :
    clone sampleEnv blackList (some 0) false "regular_field" (.str "normal value") ""
      = some (.str "normal value")
    ∧ clone sampleEnv blackList (some 0) false "note" (.str "[\x7b\"email\":\"a@b.com\"\x7d]") ""
      = some (.str "[\x7b\"email\":\"a@b.com\"\x7d]") :=
  ⟨clone_plain_string sampleEnv blackList (some 0) false "regular_field" "normal value" ""
      (by decide) (by decide) (by intro v h; cases h),
   clone_plain_string sampleEnv blackList (some 0) false "note" _ ""
      (by decide) (by decide) (by intro v h; cases h; rfl)⟩

theorem forall₂_map_fst {R : String × Value → String × Value → Prop}
    (hR : ∀ x y, R x y → y.1 = x.1) :
    ∀ {xs ys : List (String × Value)}, List.Forall₂ R xs ys →
      ys.map Prod.fst = xs.map Prod.fst
  | _, _, .nil => rfl
  | _, _, .cons h hrest => by
    simp only [List.map_cons, hR _ _ h, forall₂_map_fst hR hrest]

/-- The clone of a value of interface kind that wraps a number, a boolean or a
string which is not a JSON object is stored back unchanged, at every depth. -/
theorem clone_iface_plain {E : Env} {K : List String} (ctx : Option Nat) (a : Bool)
    (k : String) (hk : SnakeCase E.unicode k ∉ K) (w : Value)
    (hw : (∃ n raw, w = .num n raw) ∨ (∃ b, w = .bool b)
      ∨ (∃ x, w = .str x ∧ ∀ u, E.json.unmarshal x = some u → u.isMapKind = false)) :
    (clone E K ctx a k (.iface (some w)) "").map (assign (.iface (some w)))
      = some (.iface (some w)) := by
  cases hr : depthReached ctx with
  | true => rw [clone_of_reached hr]; rfl
  | false =>
    rw [clone_iface hr]
    cases hr' : depthReached (some (nextDepth ctx)) with
    | true =>
      rw [clone_of_reached hr']
      rcases hw with ⟨n, raw, rfl⟩ | ⟨b, rfl⟩ | ⟨x, rfl, _⟩ <;> rfl
    | false =>
      rcases hw with ⟨n, raw, rfl⟩ | ⟨b, rfl⟩ | ⟨x, rfl, hx⟩
      · rw [clone_num hr']; rfl
      · rw [clone_bool hr']; rfl
      · rw [clone_str_verbatim _ false hk (by decide) hx]; rfl

/-- C7: for a string that parses as a JSON object, held under a field that is
not sensitive and not tagged, in a call below the depth bound, and a codec that
writes the redacted object and reads it back: `clone` returns a text that
parses as an object with the same keys in the same order, in which every key
whose snake-case form is sensitive holds the marker, and every other key whose
value is a number, a boolean or a string that is not itself a JSON object
holds its original value. -/
theorem clone_json_object (E : Env) (sensitiveKeys : List String) (hE : E.WellFormed)
    (ctx : Option Nat) (canAddr : Bool) (fieldName s tag : String)
    (es : List (String × Value))
    (hdepth : depthReached ctx = false)
    (hkey : SnakeCase E.unicode fieldName ∉ sensitiveKeys)
    (htag : tag ≠ "true")
    (hparse : E.json.unmarshal s = some (.map es))
    (hcodec : ∀ dst, cloneEntries E sensitiveKeys ctx es = some dst →
      ∃ t, E.json.marshal (.map dst) = some t ∧ E.json.unmarshal t = some (.map dst)) :
    ∃ t dst, clone E sensitiveKeys ctx canAddr fieldName (.str s) tag = some (.str t)
      ∧ E.json.unmarshal t = some (.map dst)
      ∧ dst.map Prod.fst = es.map Prod.fst
      ∧ (∀ (i : Nat) (k : String) (v : Option Value), es[i]? = some (k, Value.iface v) →
          SnakeCase E.unicode k ∈ sensitiveKeys →
          dst[i]? = some (k, Value.iface (some (Value.str "*"))))
      ∧ (∀ (i : Nat) (k : String) (w : Value), es[i]? = some (k, Value.iface (some w)) →
          SnakeCase E.unicode k ∉ sensitiveKeys →
          ((∃ n raw, w = Value.num n raw) ∨ (∃ b, w = Value.bool b)
            ∨ (∃ x, w = Value.str x
                ∧ ∀ u, E.json.unmarshal x = some u → u.isMapKind = false)) →
          dst[i]? = some (k, Value.iface (some w))) := by
  have hes := hE.json s es hparse
  simp only [Value.wellFormed, Value.all, Bool.and_eq_true, allEntries_iff] at hes
  obtain ⟨dst, hdst⟩ : ∃ dst, cloneEntries E sensitiveKeys ctx es = some dst := by
    apply forEach_total
    intro kv hkv
    by_cases hk : SnakeCase E.unicode kv.1 ∈ sensitiveKeys
    · simp only [hk, if_true]; exact ⟨_, rfl⟩
    · obtain ⟨r, hr⟩ := clone_total (K := sensitiveKeys) hE (some (nextDepth ctx)) false kv.1
        kv.2 "" (hes.2 kv hkv)
      simp only [hk, if_false, hr, Option.map_some']; exact ⟨_, rfl⟩
  obtain ⟨t, hm, hu⟩ := hcodec dst hdst
  have hall := forEach_eq_some.mp hdst
  refine ⟨t, dst, ?_, hu, ?_, ?_, ?_⟩
  · rw [clone_str_entries hdepth s (by simp [hkey, htag]) es hparse, hdst]
    simp only [Option.map_some', hm]
  · refine forall₂_map_fst ?_ hall
    intro x y hxy
    by_cases hk : SnakeCase E.unicode x.1 ∈ sensitiveKeys
    · simp only [hk, if_true, Option.some.injEq] at hxy
      rw [← hxy]
    · simp only [hk, if_false] at hxy
      cases hc : clone E sensitiveKeys (some (nextDepth ctx)) false x.1 x.2 "" with
      | none => rw [hc] at hxy; simp at hxy
      | some c =>
        rw [hc] at hxy
        simp only [Option.map_some', Option.some.injEq] at hxy
        rw [← hxy]
  · intro i k v hi hk
    obtain ⟨y, hy, hrel⟩ := forall₂_getElem? hall i _ hi
    simp only [hk, if_true, Option.some.injEq] at hrel
    rw [hy, ← hrel]
    rfl
  · intro i k w hi hk hw
    obtain ⟨y, hy, hrel⟩ := forall₂_getElem? hall i _ hi
    simp only [hk, if_false] at hrel
    have := clone_iface_plain (E := E) (K := sensitiveKeys) (some (nextDepth ctx)) false k hk w hw
    cases hc : clone E sensitiveKeys (some (nextDepth ctx)) false k (.iface (some w)) "" with
    | none => rw [hc] at hrel; simp at hrel
    | some c =>
      rw [hc] at hrel this
      simp only [Option.map_some', Option.some.injEq] at hrel this
      rw [hy, ← hrel, this]
theorem sample_cloneEntries :
    cloneEntries sampleEnv blackList none
        [("email", .iface (some (.str "a@b.com"))), ("theme", .iface (some (.str "dark")))]
      = some [("email", .iface (some (.str "*"))), ("theme", .iface (some (.str "dark")))] := by
  have h1 : depthReached (some (nextDepth none)) = false := rfl
  have he : SnakeCase sampleEnv.unicode "email" ∈ blackList := by decide
  have ht : SnakeCase sampleEnv.unicode "theme" ∉ blackList := by decide
  simp only [cloneEntries, forEach, he, ht, if_true, if_false]
  rw [clone_iface h1,
    clone_str_verbatim (s := "dark") _ false ht (by decide) (by intro v h; cases h)]
  rfl

/-- C7 on the document of the spec, `preferences` holding
`{"email":"a@b.com","theme":"dark"}`, under the built-in key set: the text
that comes out is `{"email":"*","theme":"dark"}`, which parses to an object
with `email` the marker and `theme` still `"dark"`. -/
theorem clone_json_object_witness :
    clone sampleEnv blackList none false "preferences"
        (.str "\x7b\"email\":\"a@b.com\",\"theme\":\"dark\"\x7d") ""
      = some (.str "\x7b\"email\":\"*\",\"theme\":\"dark\"\x7d")
    ∧ ∃ t dst, clone sampleEnv blackList none false "preferences"
        (.str "\x7b\"email\":\"a@b.com\",\"theme\":\"dark\"\x7d") "" = some (.str t)
      ∧ sampleEnv.json.unmarshal t = some (.map dst)
      ∧ dst.map Prod.fst = ["email", "theme"]
      ∧ dst[0]? = some ("email", .iface (some (.str "*")))
      ∧ dst[1]? = some ("theme", .iface (some (.str "dark"))) := by
  have hcodec : ∀ dst, cloneEntries sampleEnv blackList none
        [("email", .iface (some (.str "a@b.com"))), ("theme", .iface (some (.str "dark")))]
        = some dst →
      ∃ t, sampleEnv.json.marshal (.map dst) = some t
        ∧ sampleEnv.json.unmarshal t = some (.map dst) := by
    intro dst hdst
    rw [sample_cloneEntries] at hdst
    cases hdst
    exact ⟨"\x7b\"email\":\"*\",\"theme\":\"dark\"\x7d", by decide, rfl⟩
  obtain ⟨t, dst, hc, hu, hkeys, hsens, hplain⟩ :=
    clone_json_object sampleEnv blackList sampleEnv_wellFormed none false "preferences"
      "\x7b\"email\":\"a@b.com\",\"theme\":\"dark\"\x7d" ""
      [("email", .iface (some (.str "a@b.com"))), ("theme", .iface (some (.str "dark")))]
      rfl (by decide) (by decide) rfl hcodec
  refine ⟨?_, t, dst, hc, hu, hkeys, hsens 0 "email" _ rfl (by decide),
    hplain 1 "theme" (.str "dark") rfl (by decide)
      (Or.inr (Or.inr ⟨"dark", rfl, by intro u h; cases h⟩))⟩
  rw [clone_str_entries (show depthReached none = false from rfl) _ (by decide) _ rfl, sample_cloneEntries]
  rfl

theorem forEach_lookup {g : String → Value → Option Value} :
    ∀ {es dst : List (String × Value)},
      forEach (fun (kv : String × Value) => (g kv.1 kv.2).map fun c => (kv.1, assign kv.2 c)) es
        = some dst →
      ∀ (k : String) (v : Value), es.lookup k = some v →
        ∃ c, g k v = some c ∧ dst.lookup k = some (assign v c)
  | [], _, _, k, v, hl => by simp at hl
  | (k0, v0) :: es, dst, h, k, v, hl => by
    simp only [forEach] at h
    cases hc : g k0 v0 with
    | none => simp [hc] at h
    | some c0 =>
      cases hrest : forEach (fun (kv : String × Value) =>
          (g kv.1 kv.2).map fun c => (kv.1, assign kv.2 c)) es with
      | none => simp [hc, hrest] at h
      | some rest =>
        simp only [hc, hrest, Option.map_some', Option.some.injEq] at h
        subst h
        by_cases hk : k = k0
        · subst hk
          simp only [List.lookup_cons, beq_self_eq_true, Option.some.injEq] at hl
          subst hl
          exact ⟨c0, hc, by simp⟩
        · have hb : (k == k0) = false := by simpa using hk
          simp only [List.lookup_cons, hb] at hl
          obtain ⟨c, hgc, hlk⟩ := forEach_lookup hrest k v hl
          exact ⟨c, hgc, by simp only [List.lookup_cons, hb]; exact hlk⟩

theorem mapPath_cons_some {k : String} {ks : List String} {src r : Value}
    (h : mapPath (k :: ks) src = some r) :
    ∃ es v, src = .map es ∧ es.lookup k = some v ∧ mapPath ks v = some r := by
  cases src with
  | map es =>
    simp only [mapPath] at h
    cases hl : es.lookup k with
    | none => simp [hl] at h
    | some v => exact ⟨es, v, rfl, hl, by simpa [hl] using h⟩
  | _ => simp [mapPath] at h

theorem depthReached_iff {ctx : Option Nat} :
    depthReached ctx = true ↔ maxDepth < nextDepth ctx := by
  cases ctx with
  | none => simp [depthReached, nextDepth]
  | some v => simp [depthReached, nextDepth, maxDepth]; omega

/-- The string at the end of a chain of nested maps is redacted exactly when
the call that reaches it is within the bound; here the chain starts in a call
whose context is `ctx`. -/
theorem clone_mapPath {E : Env} {K : List String} (hE : E.WellFormed) {k s : String}
    (hk : SnakeCase E.unicode k ∈ K) :
    ∀ (path : List String) (ctx : Option Nat) (a : Bool) (f t : String) (src : Value),
      src.wellFormed = true → mapPath (path ++ [k]) src = some (.str s) →
      ∃ r, clone E K ctx a f src t = some r
        ∧ mapPath (path ++ [k]) r
          = some (.str (if nextDepth ctx + (path.length + 1) ≤ maxDepth then "*" else s)) := by
  intro path
  induction path with
  | nil =>
    intro ctx a f t src hsrc hp
    obtain ⟨es, v, rfl, hl, hv⟩ := mapPath_cons_some hp
    simp only [mapPath, Option.some.injEq] at hv
    subst hv
    cases hr : depthReached ctx with
    | true =>
      refine ⟨_, clone_of_reached hr, ?_⟩
      have := depthReached_iff.mp hr
      rw [hp, if_neg (by simp only [List.length_nil]; omega)]
    | false =>
      obtain ⟨r, hcl⟩ := clone_total (K := K) hE ctx a f (.map es) t hsrc
      rw [clone_map hr] at hcl
      cases hdst : forEach (fun (kv : String × Value) =>
          (clone E K (some (nextDepth ctx)) false kv.1 kv.2 "").map
            fun copied => (kv.1, assign kv.2 copied)) es with
      | none => rw [hdst] at hcl; simp at hcl
      | some dst =>
        obtain ⟨c, hc, hlk⟩ := forEach_lookup
          (g := fun k v => clone E K (some (nextDepth ctx)) false k v "") hdst k _ hl
        refine ⟨.map dst, by rw [clone_map hr, hdst]; rfl, ?_⟩
        simp only [List.nil_append, mapPath, hlk, List.length_nil, Nat.zero_add]
        cases hr' : depthReached (some (nextDepth ctx)) with
        | true =>
          have : maxDepth < nextDepth ctx + 1 := depthReached_iff.mp hr'
          rw [clone_of_reached hr'] at hc
          cases hc
          rw [if_neg (by omega)]
          rfl
        | false =>
          have : ¬ maxDepth < nextDepth ctx + 1 := by
            have h : depthReached (some (nextDepth ctx)) = true ↔ _ := depthReached_iff
            rw [hr'] at h
            simpa using h
          rw [clone_str_redact hr' (Or.inl hk)] at hc
          cases hc
          rw [if_pos (by omega)]
          rfl
  | cons k0 rest ih =>
    intro ctx a f t src hsrc hp
    obtain ⟨es, v, rfl, hl, hv⟩ := mapPath_cons_some hp
    cases hr : depthReached ctx with
    | true =>
      refine ⟨_, clone_of_reached hr, ?_⟩
      have := depthReached_iff.mp hr
      rw [hp, if_neg (by omega)]
    | false =>
      have hwf := hsrc
      simp only [Value.wellFormed, Value.all, Bool.and_eq_true, allEntries_iff] at hwf
      have hvwf : v.wellFormed = true := by
        have hmem : (k0, v) ∈ es := by
          have := List.lookup_eq_some_iff.mp hl
          obtain ⟨l1, l2, hes, _⟩ := this
          rw [hes]; simp
        exact hwf.2 _ hmem
      obtain ⟨r, hcl⟩ := clone_total (K := K) hE ctx a f (.map es) t hsrc
      rw [clone_map hr] at hcl
      cases hdst : forEach (fun (kv : String × Value) =>
          (clone E K (some (nextDepth ctx)) false kv.1 kv.2 "").map
            fun copied => (kv.1, assign kv.2 copied)) es with
      | none => rw [hdst] at hcl; simp at hcl
      | some dst =>
        obtain ⟨c, hc, hlk⟩ := forEach_lookup
          (g := fun k v => clone E K (some (nextDepth ctx)) false k v "") hdst k0 _ hl
        obtain ⟨c', hc', hpath⟩ := ih (some (nextDepth ctx)) false k0 "" v hvwf hv
        rw [hc] at hc'
        cases hc'
        refine ⟨.map dst, by rw [clone_map hr, hdst]; rfl, ?_⟩
        have hvmap : ∃ es', v = .map es' := by
          cases rest with
          | nil => obtain ⟨es', _, h, _⟩ := mapPath_cons_some hv; exact ⟨es', h⟩
          | cons _ _ => obtain ⟨es', _, h, _⟩ := mapPath_cons_some hv; exact ⟨es', h⟩
        obtain ⟨es', rfl⟩ := hvmap
        have e : nextDepth (some (nextDepth ctx)) + (rest.length + 1)
            = nextDepth ctx + ((k0 :: rest).length + 1) := by
          show nextDepth ctx + 1 + (rest.length + 1) = nextDepth ctx + (rest.length + 1 + 1)
          omega
        rw [e] at hpath
        simp only [List.cons_append, mapPath, hlk, assign]
        exact hpath

/-- C8: the recursion bound is 32.  For a string held under a sensitive key
of the innermost of `n` directly nested string-keyed maps (`n` is
`path.length + 1`), the top-level call of `clone` on the outermost map returns
a value in which that string is the marker exactly when `n ≤ 32` and is the
original string when `n ≥ 33`; and a call that finds depth 32 or more in its
context returns its argument as it is. -/
theorem clone_depth_bound (E : Env) (sensitiveKeys : List String) (hE : E.WellFormed)
    (fieldName tag : String) (src : Value) (path : List String) (k s : String)
    (hsrc : src.wellFormed = true)
    (hpath : mapPath (path ++ [k]) src = some (.str s))
    (hk : SnakeCase E.unicode k ∈ sensitiveKeys) :
    (∃ r, clone E sensitiveKeys none false fieldName src tag = some r
      ∧ mapPath (path ++ [k]) r = some (.str (if path.length + 1 ≤ 32 then "*" else s)))
    ∧ ∀ (d : Nat) (a : Bool) (f : String) (v : Value) (t : String), 32 ≤ d →
        clone E sensitiveKeys (some d) a f v t = some v := by
  constructor
  · obtain ⟨r, hr, hp⟩ := clone_mapPath hE hk path none false fieldName tag src hsrc hpath
    refine ⟨r, hr, ?_⟩
    rw [hp]
    simp only [nextDepth, maxDepth, Nat.zero_add]
  · intro d a f v t hd
    exact clone_of_reached (by simp [depthReached, maxDepth, hd])

/-- C8 at the bound, under the built-in key set: `hunter2` under `password`
inside 32 nested maps comes out as the marker, inside 33 nested maps as it
went in. -/
theorem clone_depth_bound_witness :
    (∃ r, clone sampleEnv blackList none false "data"
        (nestedMaps (List.replicate 31 "a" ++ ["password"]) (.str "hunter2")) "" = some r
      ∧ mapPath (List.replicate 31 "a" ++ ["password"]) r = some (.str "*"))
    ∧ (∃ r, clone sampleEnv blackList none false "data"
        (nestedMaps (List.replicate 32 "a" ++ ["password"]) (.str "hunter2")) "" = some r
      ∧ mapPath (List.replicate 32 "a" ++ ["password"]) r = some (.str "hunter2")) :=
  ⟨(clone_depth_bound sampleEnv blackList sampleEnv_wellFormed "data" ""
      (nestedMaps (List.replicate 31 "a" ++ ["password"]) (.str "hunter2"))
      (List.replicate 31 "a") "password" "hunter2" (by decide) rfl (by decide)).1,
   (clone_depth_bound sampleEnv blackList sampleEnv_wellFormed "data" ""
      (nestedMaps (List.replicate 32 "a" ++ ["password"]) (.str "hunter2"))
      (List.replicate 32 "a") "password" "hunter2" (by decide) rfl (by decide)).1⟩

theorem maxOver_le {α : Type} {d : α → Nat} {m : Nat} :
    ∀ {xs : List α}, (∀ x ∈ xs, d x ≤ m) → maxOver d xs ≤ m
  | [], _ => Nat.zero_le _
  | x :: xs, h => by
    simp only [maxOver]
    exact max_le (h x (List.mem_cons_self _ _))
      (maxOver_le fun z hz => h z (List.mem_cons_of_mem _ hz))

theorem depthFuel_next_pos {ctx : Option Nat} (h : depthReached ctx = false) :
    1 ≤ depthFuel (some (nextDepth ctx)) := by
  cases ctx with
  | none => simp [depthFuel, nextDepth, maxDepth]
  | some v =>
    simp only [depthReached, decide_eq_false_iff_not, maxDepth] at h
    simp only [depthFuel, nextDepth, maxDepth]
    omega

/-- A chain of nested calls is never longer than the fuel of the context it
starts in allows. -/
theorem callDepth_le_fuel (E : Env) (K : List String) :
    ∀ (n : Nat) (ctx : Option Nat) (a : Bool) (f : String) (src : Value) (t : String),
      depthFuel ctx ≤ n → callDepth E K ctx a f src t ≤ max 1 (depthFuel ctx) := by
  intro n
  induction n with
  | zero =>
    intro ctx a f src t hn
    rw [callDepth.eq_def]
    simp [depthReached_of_fuel (Nat.le_zero.mp hn)]
  | succ n ih =>
    intro ctx a f src t hn
    cases hr : depthReached ctx with
    | true => rw [callDepth.eq_def]; simp [hr]
    | false =>
      have hnext := depthFuel_next hr
      have hpos := depthFuel_next_pos hr
      have hfuel : depthFuel (some (nextDepth ctx)) ≤ n := by omega
      have rec : ∀ (a : Bool) (f : String) (v : Value) (t : String),
          1 + callDepth E K (some (nextDepth ctx)) a f v t ≤ max 1 (depthFuel ctx) := by
        intro a f v t
        have := ih (some (nextDepth ctx)) a f v t hfuel
        omega
      have recs : ∀ {α : Type} (d : α → Nat) (xs : List α),
          (∀ x ∈ xs, d x = 0 ∨ ∃ a f v t, d x = callDepth E K (some (nextDepth ctx)) a f v t) →
          1 + maxOver d xs ≤ max 1 (depthFuel ctx) := by
        intro α d xs h
        have : maxOver d xs ≤ depthFuel (some (nextDepth ctx)) := by
          apply maxOver_le
          intro x hx
          rcases h x hx with h0 | ⟨a, f, v, t, h1⟩
          · omega
          · rw [h1]
            have := ih _ a f v t hfuel
            omega
        omega
      rw [callDepth.eq_def]
      simp only [hr, Bool.false_eq_true, dite_false]
      split
      · split
        · omega
        · split
          · apply recs
            intro kv _
            by_cases hk : SnakeCase E.unicode kv.1 ∈ K
            · left; simp [hk]
            · right; exact ⟨false, kv.1, kv.2, "", if_neg hk⟩
          · omega
      · apply recs
        intro fd _
        by_cases hx : (!fd.exported) = true ∧ (!a) = true
        · left; simp only [hx, and_self, if_true]
        · right
          exact ⟨a, if fd.jsonTag ≠ "" then fd.jsonTag else fd.name, fd.value, fd.sensitiveTag,
            if_neg hx⟩
      · exact recs _ _ fun kv _ => Or.inr ⟨_, _, _, _, rfl⟩
      · exact recs _ _ fun kv _ => Or.inr ⟨_, _, _, _, rfl⟩
      · exact recs _ _ fun kv _ => Or.inr ⟨_, _, _, _, rfl⟩
      · exact rec _ _ _ _
      · exact rec _ _ _ _
      · exact rec _ _ _ _
      · omega

/-- The chain of calls along a list node that points to itself has the full
length that the context allows. -/
theorem callDepth_selfRef {E : Env} {K : List String} {p : Nat} {n j g : String}
    (hp : E.heap p = .struct [⟨n, j, g, true, .ref p⟩]) :
    ∀ (k v : Nat), v + k = maxDepth → ∀ (a : Bool) (f t : String),
      callDepth E K (some v) a f (.ref p) t = k + 1
      ∧ callDepth E K (some v) a f (.struct [⟨n, j, g, true, .ref p⟩]) t = k + 1 := by
  intro k
  induction k with
  | zero =>
    intro v hv a f t
    have hr : depthReached (some v) = true := by
      simp only [depthReached, decide_eq_true_eq]; omega
    constructor <;> (rw [callDepth.eq_def]; simp [hr])
  | succ k ih =>
    intro v hv a f t
    have hr : depthReached (some v) = false := by
      simp only [depthReached, decide_eq_false_iff_not]; omega
    constructor
    · rw [callDepth.eq_def]
      simp only [hr, Bool.false_eq_true, dite_false, hp, nextDepth]
      rw [(ih (v + 1) (by omega) true f t).2]
      omega
    · rw [callDepth.eq_def]
      simp only [hr, Bool.false_eq_true, dite_false, nextDepth, maxOver, Bool.not_true,
        false_and, if_false]
      rw [(ih (v + 1) (by omega) a _ g).1]
      omega

/-- C9 (as stated, refuted): for the pointer to a list node whose `Next`
points back to the node (cell `0` of the example heap) the top-level call of
`clone` returns a value, and the chain of nested calls that it starts is 34
calls long, one more than the 33 of the claim: the top-level call, which finds
no depth, the calls that find the depths 0 to 31, and the call that finds 32
and stops. -/
theorem clone_chain_exceeds_33 :
    (∃ r, clone sampleEnv blackList none false "node" (.ref 0) "" = some r)
    ∧ callDepth sampleEnv blackList none false "node" (.ref 0) "" = 34
    ∧ ¬ callDepth sampleEnv blackList none false "node" (.ref 0) "" ≤ 33 := by
  have h : callDepth sampleEnv blackList none false "node" (.ref 0) "" = 34 := by
    rw [callDepth.eq_def]
    simp only [depthReached, Bool.false_eq_true, dite_false, nextDepth]
    rw [show sampleEnv.heap 0 = .struct [⟨"Next", "next", "", true, .ref 0⟩] from rfl,
      (callDepth_selfRef (p := 0) rfl 32 0 rfl true "node" "").2]
  refine ⟨clone_total sampleEnv_wellFormed none false "node" (.ref 0) "" rfl, h, ?_⟩
  rw [h]
  decide

/-- C9 (amended): on every Go value (the zero `reflect.Value` aside), in an
environment of Go values, whatever depth the context holds, `clone` returns a
value and does not panic, values nested deeper than the bound and
self-referential pointer structures included; and the chain of nested calls
never exceeds 34.  That the call terminates is what admits the definition of
`clone`, by recursion on `depthFuel ctx`. -/
theorem clone_total_bounded (E : Env) (sensitiveKeys : List String) (hE : E.WellFormed)
    (ctx : Option Nat) (canAddr : Bool) (fieldName : String) (src : Value) (tag : String)
    (hsrc : src.wellFormed = true) :
    (∃ r, clone E sensitiveKeys ctx canAddr fieldName src tag = some r)
    ∧ callDepth E sensitiveKeys ctx canAddr fieldName src tag ≤ 34 := by
  refine ⟨clone_total hE ctx canAddr fieldName src tag hsrc, ?_⟩
  have h := callDepth_le_fuel E sensitiveKeys _ ctx canAddr fieldName src tag le_rfl
  have hf : depthFuel ctx ≤ 34 := by
    cases ctx with
    | none => simp [depthFuel, maxDepth]
    | some v => simp only [depthFuel, maxDepth]; omega
  omega

/-- C9 (amended) on a list node that points to itself, passed by value, and
on 40 nested maps. -/
theorem clone_total_bounded_witness :
    ((∃ r, clone sampleEnv blackList none false "node"
        (.struct [⟨"Next", "next", "", true, .ref 0⟩]) "" = some r)
      ∧ callDepth sampleEnv blackList none false "node"
        (.struct [⟨"Next", "next", "", true, .ref 0⟩]) "" ≤ 34)
    ∧ ((∃ r, clone sampleEnv blackList none false "data"
        (nestedMaps (List.replicate 40 "a") (.str "x")) "" = some r)
      ∧ callDepth sampleEnv blackList none false "data"
        (nestedMaps (List.replicate 40 "a") (.str "x")) "" ≤ 34) :=
  ⟨clone_total_bounded sampleEnv blackList sampleEnv_wellFormed none false "node"
      (.struct [⟨"Next", "next", "", true, .ref 0⟩]) "" (by decide),
   clone_total_bounded sampleEnv blackList sampleEnv_wellFormed none false "data"
      (nestedMaps (List.replicate 40 "a") (.str "x")) "" (by decide)⟩

theorem unshared_assign {slot c : Value} (hc : c.unshared = true) :
    (assign slot c).unshared = true := by
  cases slot <;> try exact hc
  case iface x => cases c <;> exact hc

/-- A value without references to the caller's storage looks the same in
every memory. -/
theorem observe_of_unshared (heap : Nat → Value) :
    ∀ (n : Nat) (r : Value), r.unshared = true → observe heap n r = r := by
  intro n
  induction n with
  | zero => intro r _; rfl
  | succ n ih =>
    intro r hr
    cases r with
    | ref a => simp [Value.unshared, Value.all, Value.isOwn] at hr
    | struct fs =>
      simp only [Value.unshared, Value.all, Bool.and_eq_true, allFields_iff] at hr
      simp only [observe]
      congr 1
      conv_rhs => rw [← List.map_id fs]
      apply List.map_congr_left
      intro f hf
      rw [ih _ (hr.2 f hf)]
      rfl
    | map es =>
      simp only [Value.unshared, Value.all, Bool.and_eq_true, allEntries_iff] at hr
      simp only [observe]
      congr 1
      conv_rhs => rw [← List.map_id es]
      apply List.map_congr_left
      intro kv hkv
      rw [ih _ (hr.2 kv hkv)]
      rfl
    | slice xs =>
      simp only [Value.unshared, Value.all, Bool.and_eq_true, allList_iff] at hr
      simp only [observe]
      congr 1
      conv_rhs => rw [← List.map_id xs]
      apply List.map_congr_left
      intro x hx
      rw [ih _ (hr.2 x hx)]
      rfl
    | array xs =>
      simp only [Value.unshared, Value.all, Bool.and_eq_true, allList_iff] at hr
      simp only [observe]
      congr 1
      conv_rhs => rw [← List.map_id xs]
      apply List.map_congr_left
      intro x hx
      rw [ih _ (hr.2 x hx)]
      rfl
    | box v =>
      simp only [Value.unshared, Value.all, Bool.and_eq_true] at hr
      simp only [observe, ih v hr.2]
    | iface v =>
      cases v with
      | none => rfl
      | some v =>
        simp only [Value.unshared, Value.all, Bool.and_eq_true] at hr
        simp only [observe, ih v hr.2]
    | _ => rfl
theorem forEach_total_with {α β : Type} {f : α → Option β} {P : β → Prop} :
    ∀ {l : List α}, (∀ x ∈ l, ∃ y, f x = some y ∧ P y) →
      ∃ ys, forEach f l = some ys ∧ ∀ y ∈ ys, P y
  | [], _ => ⟨[], rfl, by simp⟩
  | x :: xs, h => by
    obtain ⟨y, hy, hP⟩ := h x (List.mem_cons_self _ _)
    obtain ⟨ys, hys, hPs⟩ :=
      forEach_total_with (l := xs) (fun z hz => h z (List.mem_cons_of_mem _ hz))
    refine ⟨y :: ys, by simp [forEach, hy, hys], ?_⟩
    intro z hz
    rcases List.mem_cons.mp hz with rfl | hz
    · exact hP
    · exact hPs z hz

theorem clone_str_kind {E : Env} {K : List String} {ctx : Option Nat} {a : Bool}
    {f s t : String} {r : Value} (h : clone E K ctx a f (.str s) t = some r) :
    ∃ s', r = .str s' := by
  cases hr : depthReached ctx with
  | true => rw [clone_of_reached hr] at h; cases h; exact ⟨s, rfl⟩
  | false =>
    by_cases hs : SnakeCase E.unicode f ∈ K ∨ t = "true"
    · rw [clone_str_redact hr hs] at h; cases h; exact ⟨_, rfl⟩
    · rw [clone_str_plain hr s hs] at h
      split at h
      · cases hd : forEach (fun (kv : String × Value) =>
            if SnakeCase E.unicode kv.1 ∈ K then
              some (kv.1, assign kv.2 (.str DefaultRedactMessage))
            else
              (clone E K (some (nextDepth ctx)) false kv.1 kv.2 "").map
                fun copiedValue => (kv.1, assign kv.2 copiedValue)) _ with
        | none => rw [hd] at h; simp at h
        | some dst =>
          rw [hd] at h
          simp only [Option.map_some', Option.some.injEq] at h
          subst h
          split <;> exact ⟨_, rfl⟩
      · split at h <;> (cases h; exact ⟨_, rfl⟩)
      · cases h; exact ⟨_, rfl⟩

theorem unshared_zeroOf (E : Env) :
    ∀ (n : Nat) (v : Value), shallow E n v = true → (zeroOf v).unshared = true := by
  intro n
  induction n with
  | zero => intro v h; simp [shallow] at h
  | succ n ih =>
    intro v h
    cases v with
    | struct fs =>
      simp only [shallow, List.all_eq_true] at h
      simp only [zeroOf, Value.unshared, Value.all, Bool.and_eq_true]
      refine ⟨rfl, ?_⟩
      induction fs with
      | nil => rfl
      | cons f fs ihfs =>
        simp only [zeroFields, allFields, Bool.and_eq_true]
        exact ⟨ih _ (h f (List.mem_cons_self _ _)),
          ihfs fun x hx => h x (List.mem_cons_of_mem _ hx)⟩
    | array xs =>
      simp only [shallow, List.all_eq_true] at h
      simp only [zeroOf, Value.unshared, Value.all, Bool.and_eq_true]
      refine ⟨rfl, ?_⟩
      induction xs with
      | nil => rfl
      | cons x xs ihxs =>
        simp only [zeroList, allList, Bool.and_eq_true]
        exact ⟨ih _ (h x (List.mem_cons_self _ _)),
          ihxs fun y hy => h y (List.mem_cons_of_mem _ hy)⟩
    | _ => rfl

theorem nextDepth_some (d : Nat) : nextDepth (some d) = d + 1 := rfl

/-- Within the bound, and with no channel, function or `unsafe.Pointer` in
the input, the clone holds no reference to the caller's storage. -/
theorem clone_unshared_aux (E : Env) (K : List String) (hE : E.WellFormed) :
    ∀ (n : Nat) (ctx : Option Nat) (a : Bool) (f : String) (src : Value) (t : String),
      shallow E n src = true → n + nextDepth ctx ≤ maxDepth + 1 →
      ∃ r, clone E K ctx a f src t = some r ∧ r.unshared = true := by
  intro n
  induction n with
  | zero => intro ctx a f src t h; simp [shallow] at h
  | succ n ih =>
    intro ctx a f src t hsh hn
    have hr : depthReached ctx = false := by
      cases h : depthReached ctx with
      | false => rfl
      | true => have := depthReached_iff.mp h; omega
    have rec : ∀ (a : Bool) (f : String) (v : Value) (t : String), shallow E n v = true →
        ∃ c, clone E K (some (nextDepth ctx)) a f v t = some c ∧ c.unshared = true := by
      intro a f v t hv
      exact ih _ a f v t hv (by rw [nextDepth_some]; omega)
    cases src with
    | invalid => simp [shallow] at hsh
    | bool b => exact ⟨_, clone_bool hr b, rfl⟩
    | num k raw => exact ⟨_, clone_num hr k raw, rfl⟩
    | nilMap => exact ⟨_, clone_nilMap hr, rfl⟩
    | nilSlice => exact ⟨_, clone_nilSlice hr, rfl⟩
    | nilPtr => exact ⟨_, clone_nilPtr hr, rfl⟩
    | handle p =>
      cases p with
      | none => exact ⟨_, clone_handle hr none, rfl⟩
      | some p => simp [shallow] at hsh
    | str s =>
      obtain ⟨r, h⟩ := clone_total (K := K) hE ctx a f (.str s) t rfl
      obtain ⟨s', rfl⟩ := clone_str_kind h
      exact ⟨_, h, rfl⟩
    | struct fs =>
      simp only [shallow, List.all_eq_true] at hsh
      rw [clone_struct hr]
      obtain ⟨dst, hdst, hP⟩ := forEach_total_with (l := fs)
        (P := fun (y : Field Value) => y.value.unshared = true)
        (f := fun (fd : Field Value) =>
          if !fd.exported ∧ !a then
            match fd.value with
            | .num k raw => some { fd with value := .num k raw }
            | .bool b => some { fd with value := .bool b }
            | v => some { fd with value := zeroOf v }
          else
            (clone E K (some (nextDepth ctx)) a
              (if fd.jsonTag ≠ "" then fd.jsonTag else fd.name) fd.value fd.sensitiveTag).map
              fun copied => { fd with value := assign fd.value copied })
        (by
          intro fd hfd
          by_cases hx : (!fd.exported) = true ∧ (!a) = true
          · simp only [hx, and_self, if_true]
            have hz := unshared_zeroOf E n fd.value (hsh fd hfd)
            split
            · exact ⟨_, rfl, rfl⟩
            · exact ⟨_, rfl, rfl⟩
            · exact ⟨_, rfl, hz⟩
          · obtain ⟨c, hc, hu⟩ := rec a (if fd.jsonTag ≠ "" then fd.jsonTag else fd.name)
              fd.value fd.sensitiveTag (hsh fd hfd)
            simp only [hx, if_false, hc, Option.map_some']
            exact ⟨_, rfl, unshared_assign hu⟩)
      rw [hdst]
      refine ⟨_, rfl, ?_⟩
      simp only [Value.unshared, Value.all, Bool.and_eq_true, allFields_iff]
      exact ⟨rfl, hP⟩
    | map es =>
      simp only [shallow, List.all_eq_true] at hsh
      rw [clone_map hr]
      obtain ⟨dst, hdst, hP⟩ := forEach_total_with (l := es)
        (P := fun (y : String × Value) => y.2.unshared = true)
        (f := fun (kv : String × Value) =>
          (clone E K (some (nextDepth ctx)) false kv.1 kv.2 "").map
            fun copied => (kv.1, assign kv.2 copied))
        (by
          intro kv hkv
          obtain ⟨c, hc, hu⟩ := rec false kv.1 kv.2 "" (hsh kv hkv)
          simp only [hc, Option.map_some']
          exact ⟨_, rfl, unshared_assign hu⟩)
      rw [hdst]
      refine ⟨_, rfl, ?_⟩
      simp only [Value.unshared, Value.all, Bool.and_eq_true, allEntries_iff]
      exact ⟨rfl, hP⟩
    | slice xs =>
      simp only [shallow, List.all_eq_true] at hsh
      rw [clone_slice hr]
      obtain ⟨dst, hdst, hP⟩ := forEach_total_with (l := xs)
        (P := fun (y : Value) => y.unshared = true)
        (f := fun (x : Value) =>
          (clone E K (some (nextDepth ctx)) true f x "").map (assign x))
        (by
          intro x hx
          obtain ⟨c, hc, hu⟩ := rec true f x "" (hsh x hx)
          simp only [hc, Option.map_some']
          exact ⟨_, rfl, unshared_assign hu⟩)
      rw [hdst]
      refine ⟨_, rfl, ?_⟩
      simp only [Value.unshared, Value.all, Bool.and_eq_true, allList_iff]
      exact ⟨rfl, hP⟩
    | array xs =>
      simp only [shallow, List.all_eq_true] at hsh
      rw [clone_array hr]
      by_cases hl : xs.length = 0
      · simp only [hl, if_true]
        have : xs = [] := List.length_eq_zero.mp hl
        subst this
        exact ⟨_, rfl, rfl⟩
      · obtain ⟨dst, hdst, hP⟩ := forEach_total_with (l := xs)
          (P := fun (y : Value) => y.unshared = true)
          (f := fun (x : Value) =>
            (clone E K (some (nextDepth ctx)) a f x "").map (assign x))
          (by
            intro x hx
            obtain ⟨c, hc, hu⟩ := rec a f x "" (hsh x hx)
            simp only [hc, Option.map_some']
            exact ⟨_, rfl, unshared_assign hu⟩)
        simp only [hl, if_false, hdst]
        refine ⟨_, rfl, ?_⟩
        simp only [Value.unshared, Value.all, Bool.and_eq_true, allList_iff]
        exact ⟨rfl, hP⟩
    | ref p =>
      simp only [shallow] at hsh
      rw [clone_ref hr]
      obtain ⟨c, hc, hu⟩ := rec true f (E.heap p) t hsh
      rw [hc]
      refine ⟨_, rfl, ?_⟩
      simp only [Value.unshared, Value.all, Bool.and_eq_true]
      exact ⟨rfl, unshared_assign hu⟩
    | box v => simp [shallow] at hsh
    | iface v =>
      cases v with
      | none => exact ⟨_, clone_iface_nil hr, rfl⟩
      | some v =>
        simp only [shallow] at hsh
        rw [clone_iface hr]
        exact rec false f v t hsh

theorem assign_self (v : Value) : assign v v = v := by
  cases v <;> rfl

/-- A chain of maps whose innermost value is met by the call that finds depth
32 comes back as it went in. -/
theorem clone_nestedMaps_at_bound {E : Env} {K : List String} (v : Value) :
    ∀ (ks : List String) (ctx : Option Nat) (a : Bool) (f t : String),
      nextDepth ctx + ks.length = maxDepth + 1 →
      clone E K ctx a f (nestedMaps ks v) t = some (nestedMaps ks v) := by
  intro ks
  induction ks with
  | nil =>
    intro ctx a f t h
    exact clone_of_reached (depthReached_iff.mpr (by simp at h; omega))
  | cons k ks ih =>
    intro ctx a f t h
    have hr : depthReached ctx = false := by
      cases hc : depthReached ctx with
      | false => rfl
      | true =>
        have := depthReached_iff.mp hc
        simp only [List.length_cons] at h
        omega
    have hin := ih (some (nextDepth ctx)) false k ""
      (by rw [nextDepth_some]; simp only [List.length_cons] at h; omega)
    show clone E K ctx a f (.map [(k, nestedMaps ks v)]) t = some (.map [(k, nestedMaps ks v)])
    rw [clone_map hr]
    simp only [forEach, hin, Option.map_some', assign_self]

/-- C10 (as stated, refuted): the top-level call of `clone` on 33 nested maps
around a pointer to cell `1` returns the maps with the very same pointer, met
at the depth bound; read before and after the caller stores another string in
cell `1`, the clone shows `hunter2` and then `changed`.  And a channel
(an unsupported kind) is returned as the same channel. -/
theorem clone_shares_storage :
    clone sampleEnv blackList none false "data"
        (nestedMaps (List.replicate 33 "a") (.ref 1)) ""
      = some (nestedMaps (List.replicate 33 "a") (.ref 1))
    ∧ mapPath (List.replicate 33 "a")
        (observe sampleEnv.heap 34 (nestedMaps (List.replicate 33 "a") (.ref 1)))
      = some (.box (.str "hunter2"))
    ∧ mapPath (List.replicate 33 "a")
        (observe (writeCell sampleEnv.heap 1 (.str "changed")) 34
          (nestedMaps (List.replicate 33 "a") (.ref 1)))
      = some (.box (.str "changed"))
    ∧ clone sampleEnv blackList none false "ch" (.handle (some 5)) ""
      = some (.handle (some 5))
    ∧ (Value.handle (some 5)).unshared = false :=
  ⟨clone_nestedMaps_at_bound _ _ none false "data" "" rfl, rfl, rfl,
    clone_handle (show depthReached none = false from rfl) (some 5), rfl⟩

/-- C10 (amended): `clone` reads its input and the heap and writes to neither
(they are arguments of a function).  When the input is a Go value that nests
no deeper than the levels left before the bound (`n + nextDepth ctx ≤ 33`, so
33 levels in a top-level call) and holds no channel, function or
`unsafe.Pointer`, `clone` returns a value with no reference to the caller's
storage, empty arrays and nil interfaces included: whatever the memory holds
afterwards, a reader of the clone sees the same. -/
theorem clone_unshared (E : Env) (sensitiveKeys : List String) (hE : E.WellFormed)
    (ctx : Option Nat) (canAddr : Bool) (fieldName : String) (src : Value) (tag : String)
    (n : Nat)
    (hn : n + nextDepth ctx ≤ 33)
    (hsrc : shallow E n src = true) :
    ∃ r, clone E sensitiveKeys ctx canAddr fieldName src tag = some r
      ∧ r.unshared = true
      ∧ ∀ (heap' : Nat → Value) (m : Nat), observe heap' m r = observe E.heap m r := by
  obtain ⟨r, hr, hu⟩ :=
    clone_unshared_aux E sensitiveKeys hE n ctx canAddr fieldName src tag hsrc hn
  refine ⟨r, hr, hu, ?_⟩
  intro heap' m
  rw [observe_of_unshared heap' m r hu, observe_of_unshared E.heap m r hu]

/-- C10 (amended) on a struct with a pointer to cell `1`, a slice of strings,
an empty array and a nil interface, in a top-level call. -/
theorem clone_unshared_witness :
    ∃ r, clone sampleEnv blackList none false "user" (.struct
        [⟨"Secret", "secret", "", true, .ref 1⟩,
         ⟨"Tags", "tags", "", true, .slice [.str "a", .str "b"]⟩,
         ⟨"None", "none", "", true, .array []⟩,
         ⟨"Extra", "extra", "", true, .iface none⟩]) "" = some r
      ∧ r.unshared = true
      ∧ ∀ (heap' : Nat → Value) (m : Nat), observe heap' m r = observe sampleEnv.heap m r :=
  clone_unshared sampleEnv blackList sampleEnv_wellFormed none false "user" _ "" 3
    (by decide) (by decide)

theorem forEach_map_of_forall {α β : Type} {f : α → Option β} {g : α → β} :
    ∀ {l : List α}, (∀ x ∈ l, f x = some (g x)) → forEach f l = some (l.map g)
  | [], _ => rfl
  | x :: xs, h => by
    have h1 := h x (List.mem_cons_self _ _)
    have h2 := forEach_map_of_forall (l := xs) (fun z hz => h z (List.mem_cons_of_mem _ hz))
    simp [forEach, h1, h2]

theorem detached_not_iface (heap : Nat → Value) (n : Nat) (v : Value)
    (h : v.isIfaceKind = false) : (detached heap n v).isIfaceKind = false := by
  cases n with
  | zero => exact h
  | succ n =>
    cases v with
    | iface x => simp [Value.isIfaceKind] at h
    | _ => rfl

theorem assign_iface_of_not_iface (x : Option Value) (c : Value)
    (h : c.isIfaceKind = false) : assign (.iface x) c = .iface (some c) := by
  cases c with
  | iface y => simp [Value.isIfaceKind] at h
  | _ => rfl

/-- Within the bound, `clone` of clean data stores in the slot of the source
the data of the source as a value of its own. -/
theorem clone_clean_aux (E : Env) (K : List String) :
    ∀ (n : Nat) (ctx : Option Nat) (a : Bool) (f : String) (t : String) (v : Value),
      clean E K n f t v = true → n + nextDepth ctx ≤ maxDepth + 1 →
      ∃ r, clone E K ctx a f v t = some r ∧ assign v r = detached E.heap n v := by
  intro n
  induction n with
  | zero => intro ctx a f t v h; simp [clean] at h
  | succ n ih =>
    intro ctx a f t v h hd
    have hr : depthReached ctx = false := by
      cases hx : depthReached ctx with
      | false => rfl
      | true => have := depthReached_iff.mp hx; omega
    have hd' : n + nextDepth (some (nextDepth ctx)) ≤ maxDepth + 1 := by
      rw [nextDepth_some]; omega
    cases v with
    | invalid => simp [clean] at h
    | handle p => simp [clean] at h
    | bool b => exact ⟨_, clone_bool hr b, rfl⟩
    | num k raw => exact ⟨_, clone_num hr k raw, rfl⟩
    | nilMap => exact ⟨_, clone_nilMap hr, rfl⟩
    | nilSlice => exact ⟨_, clone_nilSlice hr, rfl⟩
    | nilPtr => exact ⟨_, clone_nilPtr hr, rfl⟩
    | str s =>
      simp only [clean, Bool.and_eq_true, Bool.not_eq_true', Bool.or_eq_false_iff,
        decide_eq_false_iff_not] at h
      refine ⟨_, clone_str_verbatim ctx a h.1.1 h.1.2 ?_, rfl⟩
      intro v hv
      have h2 := h.2
      rw [hv] at h2
      simpa using h2
    | struct fs =>
      simp only [clean, List.all_eq_true, Bool.and_eq_true] at h
      refine ⟨.struct (fs.map fun (fd : Field Value) =>
        { fd with value := detached E.heap n fd.value }), ?_, rfl⟩
      rw [clone_struct hr, forEach_map_of_forall
        (g := fun (fd : Field Value) => { fd with value := detached E.heap n fd.value })]
      · rfl
      · intro fd hfd
        obtain ⟨hex, hcl⟩ := h fd hfd
        obtain ⟨r, hr1, hr2⟩ := ih (some (nextDepth ctx)) a _ _ _ hcl hd'
        rw [if_neg (by simp [hex]), hr1]
        simp only [Option.map_some', hr2]
    | map es =>
      simp only [clean, List.all_eq_true] at h
      refine ⟨.map (es.map fun (kv : String × Value) => (kv.1, detached E.heap n kv.2)), ?_, rfl⟩
      rw [clone_map hr, forEach_map_of_forall
        (g := fun (kv : String × Value) => (kv.1, detached E.heap n kv.2))]
      · rfl
      · intro kv hkv
        obtain ⟨r, hr1, hr2⟩ := ih (some (nextDepth ctx)) false _ _ _ (h kv hkv) hd'
        simp [hr1, hr2]
    | slice xs =>
      simp only [clean, List.all_eq_true] at h
      refine ⟨.slice (xs.map (detached E.heap n)), ?_, rfl⟩
      rw [clone_slice hr, forEach_map_of_forall (g := detached E.heap n)]
      · rfl
      · intro x hx
        obtain ⟨r, hr1, hr2⟩ := ih (some (nextDepth ctx)) true _ _ _ (h x hx) hd'
        simp [hr1, hr2]
    | array xs =>
      simp only [clean, List.all_eq_true] at h
      refine ⟨.array (xs.map (detached E.heap n)), ?_, rfl⟩
      rw [clone_array hr]
      split
      · rename_i h0
        have : xs = [] := List.length_eq_zero.mp h0
        subst this; rfl
      · rw [forEach_map_of_forall (g := detached E.heap n)]
        · rfl
        · intro x hx
          obtain ⟨r, hr1, hr2⟩ := ih (some (nextDepth ctx)) a _ _ _ (h x hx) hd'
          simp [hr1, hr2]
    | ref p =>
      simp only [clean] at h
      obtain ⟨r, hr1, hr2⟩ := ih (some (nextDepth ctx)) true _ _ _ h hd'
      refine ⟨_, by rw [clone_ref hr, hr1]; rfl, ?_⟩
      show Value.box (assign (E.heap p) r) = Value.box (detached E.heap n (E.heap p))
      rw [hr2]
    | box v =>
      simp only [clean] at h
      obtain ⟨r, hr1, hr2⟩ := ih (some (nextDepth ctx)) true _ _ _ h hd'
      refine ⟨_, by rw [clone_box hr, hr1]; rfl, ?_⟩
      show Value.box (assign v r) = Value.box (detached E.heap n v)
      rw [hr2]
    | iface x =>
      cases x with
      | none => exact ⟨_, clone_iface_nil hr, rfl⟩
      | some v =>
        simp only [clean, Bool.and_eq_true, Bool.not_eq_true'] at h
        obtain ⟨r, hr1, hr2⟩ := ih (some (nextDepth ctx)) false _ _ _ h.2 hd'
        refine ⟨r, by rw [clone_iface hr, hr1], ?_⟩
        have hv : assign v r = r := by
          cases v with
          | iface y => simp [Value.isIfaceKind] at h
          | _ => rfl
        rw [hv] at hr2
        rw [hr2, assign_iface_of_not_iface _ _ (detached_not_iface _ _ _ h.1)]
        rfl

/-- A value without pointers into the heap, nil slices and nil maps is its own
data. -/
theorem detached_of_plain (heap : Nat → Value) :
    ∀ (n : Nat) (r : Value), Value.all Value.isPlain r = true → detached heap n r = r := by
  intro n
  induction n with
  | zero => intro r _; rfl
  | succ n ih =>
    intro r hr
    cases r with
    | ref a => simp [Value.all, Value.isPlain] at hr
    | nilMap => simp [Value.all, Value.isPlain] at hr
    | nilSlice => simp [Value.all, Value.isPlain] at hr
    | struct fs =>
      simp only [Value.all, Bool.and_eq_true, allFields_iff] at hr
      simp only [detached]
      congr 1
      conv_rhs => rw [← List.map_id fs]
      apply List.map_congr_left
      intro f hf
      rw [ih _ (hr.2 f hf)]
      rfl
    | map es =>
      simp only [Value.all, Bool.and_eq_true, allEntries_iff] at hr
      simp only [detached]
      congr 1
      conv_rhs => rw [← List.map_id es]
      apply List.map_congr_left
      intro kv hkv
      rw [ih _ (hr.2 kv hkv)]
      rfl
    | slice xs =>
      simp only [Value.all, Bool.and_eq_true, allList_iff] at hr
      simp only [detached]
      congr 1
      conv_rhs => rw [← List.map_id xs]
      apply List.map_congr_left
      intro x hx
      rw [ih _ (hr.2 x hx)]
      rfl
    | array xs =>
      simp only [Value.all, Bool.and_eq_true, allList_iff] at hr
      simp only [detached]
      congr 1
      conv_rhs => rw [← List.map_id xs]
      apply List.map_congr_left
      intro x hx
      rw [ih _ (hr.2 x hx)]
      rfl
    | box v =>
      simp only [Value.all, Bool.and_eq_true] at hr
      simp only [detached, ih v hr.2]
    | iface v =>
      cases v with
      | none => rfl
      | some v =>
        simp only [Value.all, Bool.and_eq_true] at hr
        simp only [detached, ih v hr.2]
    | _ => rfl

/-- C11: `clone` is the identity on clean data.  For a value `v` that is
clean `n` levels deep under the name and tag of the call, in a call that
leaves room for `n` levels below the bound (at the top, `n ≤ 33`), `clone`
returns the data of `v` as a value of its own: same fields, same map keys, same
list order and length, same leaves, with a pointer into the heap rebuilt as a
pointer to a copy and a nil slice or map as an empty one.  When `v` holds no
pointer into the heap and no nil slice or map, the result is `v` itself. -/
theorem clone_clean_identity (E : Env) (sensitiveKeys : List String) (n : Nat)
    (ctx : Option Nat) (canAddr : Bool) (fieldName tag : String) (v : Value)
    (hclean : clean E sensitiveKeys n fieldName tag v = true)
    (htop : v.isIfaceKind = false)
    (hdepth : n + nextDepth ctx ≤ maxDepth + 1) :
    clone E sensitiveKeys ctx canAddr fieldName v tag = some (detached E.heap n v)
    ∧ (Value.all Value.isPlain v = true →
        clone E sensitiveKeys ctx canAddr fieldName v tag = some v) := by
  obtain ⟨r, hr1, hr2⟩ := clone_clean_aux E sensitiveKeys n ctx canAddr fieldName tag v hclean hdepth
  have hv : assign v r = r := by
    cases v with
    | iface y => simp [Value.isIfaceKind] at htop
    | _ => rfl
  rw [hv] at hr2
  subst hr2
  exact ⟨hr1, fun hp => by rw [hr1, detached_of_plain E.heap n v hp]⟩

/-- C11 on a record with a name, a list, a map of settings and a pointer, under
the built-in key set: the clone is the record itself. -/
theorem clone_clean_identity_witness :
    clean sampleEnv blackList 4 "user" "" cleanSample = true
    ∧ clone sampleEnv blackList none false "user" cleanSample "" = some cleanSample :=
  ⟨by decide,
   (clone_clean_identity sampleEnv blackList 4 none false "user" "" cleanSample
      (by decide) rfl (by decide)).2 (by decide)⟩

theorem censorGroup_eq {ρ : Type} (E : Env) (S : Slog) (h : censoringHandler ρ) :
    ∀ (members acc : List Attr),
      censorGroup E S h members acc =
        (forEach (censorAttribute E S h) members).map fun l => acc ++ l
  | [], acc => by simp [censorGroup, forEach]
  | x :: rest, acc => by
    simp only [censorGroup, forEach]
    cases censorAttribute E S h x with
    | none => rfl
    | some c =>
      simp only [censorGroup_eq E S h rest (acc ++ [c])]
      cases forEach (censorAttribute E S h) rest with
      | none => rfl
      | some l => simp

theorem censorGroup_nil {ρ : Type} (E : Env) (S : Slog) (h : censoringHandler ρ)
    (members : List Attr) :
    censorGroup E S h members [] = forEach (censorAttribute E S h) members := by
  rw [censorGroup_eq]
  cases forEach (censorAttribute E S h) members <;> simp

theorem censorAttrs_eq {ρ : Type} (E : Env) (S : Slog) (h : censoringHandler ρ) :
    ∀ (attrs acc : List Attr),
      censorAttrs E S h attrs acc =
        (forEach (censorOne E S h) attrs).map fun l => acc ++ l
  | [], acc => by simp [censorAttrs, forEach]
  | (k, .group members) :: rest, acc => by
    simp only [censorAttrs, forEach, censorOne, censorGroup_nil]
    cases forEach (censorAttribute E S h) members with
    | none => rfl
    | some g =>
      simp only [Option.map_some', censorAttrs_eq E S h rest]
      cases forEach (censorOne E S h) rest with
      | none => rfl
      | some l => simp
  | (k, .any v) :: rest, acc => by
    simp only [censorAttrs, forEach, censorOne]
    cases censorAttribute E S h (k, .any v) with
    | none => rfl
    | some c =>
      simp only [censorAttrs_eq E S h rest]
      cases forEach (censorOne E S h) rest with
      | none => rfl
      | some l => simp

theorem addEach_eq : ∀ (l : List Attr) (r : Record), addEach r l = r.AddAttrs l
  | [], r => by simp [addEach, Record.AddAttrs]
  | a :: rest, r => by
    rw [addEach, addEach_eq rest]
    cases hb : a.2.isEmptyGroup <;> simp [Record.AddAttrs, List.filter_cons, hb]

/-- What `Handle` does, with the loops resolved. -/
theorem Handle_eq {ρ : Type} (E : Env) (S : Slog) (m : Memory) (h : censoringHandler ρ)
    (ctx : Option Context) (r : Record) :
    Handle E S m h ctx r =
      match forEach (censorOne E S h) (m.read (getAttrsFromContext ctx)),
            forEach (censorOne E S h) r.attrs with
      | some fromContext, some fromRecord =>
        some (h.handler m ctx
          ((NewRecord r.time r.level r.message r.pc).AddAttrs (fromContext ++ fromRecord)))
      | _, _ => none := by
  simp only [Handle, censorAttrs_eq, List.nil_append]
  cases forEach (censorOne E S h) (m.read (getAttrsFromContext ctx)) with
  | none => rfl
  | some l1 =>
    simp only [Option.map_some']
    cases forEach (censorOne E S h) r.attrs with
    | none => rfl
    | some l2 => simp [addEach_eq]

theorem forEach_id_of_forall {α : Type} {f : α → Option α} {l : List α}
    (h : ∀ x ∈ l, f x = some x) : forEach f l = some l := by
  have := forEach_map_of_forall (g := id) (l := l) (fun x hx => h x hx)
  simpa using this

theorem censorAttribute_of_debug {ρ : Type} (E : Env) (S : Slog) (h : censoringHandler ρ)
    (hd : h.withDebug = true) (a : Attr) : censorAttribute E S h a = some a := by
  simp [censorAttribute, hd]

theorem censorOne_of_debug {ρ : Type} (E : Env) (S : Slog) (h : censoringHandler ρ)
    (hd : h.withDebug = true) (a : Attr) (ha : attrBuilt a = true) :
    censorOne E S h a = some a := by
  obtain ⟨k, v⟩ := a
  cases v with
  | any v => exact censorAttribute_of_debug E S h hd _
  | group members =>
    simp only [censorOne]
    rw [forEach_id_of_forall (fun x _ => censorAttribute_of_debug E S h hd x)]
    simp only [Option.map_some', Group, GroupValue]
    simp only [attrBuilt] at ha
    rw [List.filter_eq_self.mpr (by simpa using ha)]

/-- C13: in debug mode censoring is bypassed.  `censorAttribute` returns every
attribute as it is, and `Handle` forwards the attributes of the context and of
the record as they are (attributes as `log/slog` builds them, records dropping
empty groups as `AddAttrs` does), with the time, level and message of the
record, and returns what the wrapped handler returns. -/
theorem Handle_debug_verbatim {ρ : Type} (E : Env) (S : Slog) (m : Memory)
    (h : censoringHandler ρ) (ctx : Option Context) (r : Record)
    (hd : h.withDebug = true) :
    (∀ a, censorAttribute E S h a = some a)
    ∧ ((∀ a ∈ m.read (getAttrsFromContext ctx), attrBuilt a = true) →
       (∀ a ∈ r.attrs, attrBuilt a = true) →
       Handle E S m h ctx r = some (h.handler m ctx
         ((NewRecord r.time r.level r.message r.pc).AddAttrs
           (m.read (getAttrsFromContext ctx) ++ r.attrs)))) := by
  refine ⟨censorAttribute_of_debug E S h hd, fun h1 h2 => ?_⟩
  rw [Handle_eq,
    forEach_id_of_forall (fun x hx => censorOne_of_debug E S h hd x (h1 x hx)),
    forEach_id_of_forall (fun x hx => censorOne_of_debug E S h hd x (h2 x hx))]

/-- C13 on the first example of `example/main.go` in debug mode: the password
is forwarded as logged. -/
theorem Handle_debug_verbatim_witness :
    censorAttribute sampleEnv ⟨fun _ => .nilSlice⟩ debugHandler
        ("password", .any (.str "secret123")) = some ("password", .any (.str "secret123"))
    ∧ Handle sampleEnv ⟨fun _ => .nilSlice⟩ emptyMemory debugHandler none
        ⟨0, 0, "user login attempt", 0,
          [("username", .any (.str "john_doe")), ("password", .any (.str "secret123"))]⟩
      = some ⟨0, 0, "user login attempt", 0,
          [("username", .any (.str "john_doe")), ("password", .any (.str "secret123"))]⟩ :=
  ⟨(Handle_debug_verbatim sampleEnv ⟨fun _ => .nilSlice⟩ emptyMemory debugHandler none
      ⟨0, 0, "", 0, []⟩ rfl).1 _,
   (Handle_debug_verbatim sampleEnv ⟨fun _ => .nilSlice⟩ emptyMemory debugHandler none
      ⟨0, 0, "user login attempt", 0,
        [("username", .any (.str "john_doe")), ("password", .any (.str "secret123"))]⟩ rfl).2
      (by intro a ha; cases ha) (by intro a ha; simp at ha; rcases ha with rfl | rfl <;> rfl)⟩

theorem censorAttribute_isAny {ρ : Type} (E : Env) (S : Slog) (h : censoringHandler ρ)
    (hd : h.withDebug = false) {a c : Attr} (hc : censorAttribute E S h a = some c) :
    c.2.isEmptyGroup = false := by
  simp only [censorAttribute, hd, Bool.false_eq_true, if_false] at hc
  split at hc
  · cases hc
  · cases hc; rfl

theorem forEach_mem_right {α β : Type} {f : α → Option β} :
    ∀ {l : List α} {ys : List β}, forEach f l = some ys → ∀ y ∈ ys, ∃ x ∈ l, f x = some y
  | [], ys, h, y, hy => by
    simp only [forEach, Option.some.injEq] at h
    subst h
    cases hy
  | x :: xs, ys, h, y, hy => by
    simp only [forEach] at h
    cases hx : f x with
    | none => simp [hx] at h
    | some y0 =>
      cases hr : forEach f xs with
      | none => simp [hx, hr] at h
      | some ys0 =>
        simp only [hx, hr, Option.some.injEq] at h
        subst h
        rcases List.mem_cons.mp hy with rfl | hy'
        · exact ⟨x, List.mem_cons_self _ _, hx⟩
        · obtain ⟨z, hz, hfz⟩ := forEach_mem_right hr y hy'
          exact ⟨z, List.mem_cons_of_mem _ hz, hfz⟩

theorem censorOne_eq_censoredAttr {ρ : Type} (E : Env) (S : Slog) (h : censoringHandler ρ)
    (hd : h.withDebug = false) (a : Attr) : censorOne E S h a = censoredAttr E S h a := by
  obtain ⟨k, v⟩ := a
  cases v with
  | any v => rfl
  | group members =>
    simp only [censorOne, censoredAttr]
    cases hf : forEach (censorAttribute E S h) members with
    | none => rfl
    | some cs =>
      simp only [Option.map_some', Group, GroupValue]
      rw [List.filter_eq_self.mpr]
      intro c hc
      obtain ⟨x, _, hx⟩ := forEach_mem_right hf c hc
      simp [censorAttribute_isAny E S h hd hx]

theorem forEach_congr {α β : Type} {f g : α → Option β} (h : ∀ x, f x = g x) (l : List α) :
    forEach f l = forEach g l := by
  have : f = g := funext h
  rw [this]

/-- C14: with debug mode off, `Handle` forwards to the wrapped handler, with
the context it was given, a record with the time, level, message and program
counter of the input record, to which are added the censored attributes of the
context followed by those of the record, in order: a plain attribute `a` as
`censorAttribute(a)`, a group as the group, under the same key, of the
`censorAttribute` of its members.  `Handle` returns what the wrapped handler
returns, and panics exactly when censoring an attribute does. -/
theorem Handle_forwards {ρ : Type} (E : Env) (S : Slog) (m : Memory) (h : censoringHandler ρ)
    (ctx : Option Context) (r : Record) (hd : h.withDebug = false) :
    Handle E S m h ctx r =
      match forEach (censoredAttr E S h) (m.read (getAttrsFromContext ctx)),
            forEach (censoredAttr E S h) r.attrs with
      | some fromContext, some fromRecord =>
        some (h.handler m ctx
          ((NewRecord r.time r.level r.message r.pc).AddAttrs (fromContext ++ fromRecord)))
      | _, _ => none := by
  rw [Handle_eq, forEach_congr (censorOne_eq_censoredAttr E S h hd),
    forEach_congr (censorOne_eq_censoredAttr E S h hd)]

/-- C14 on the first case of `TestRedactingHandler`: the group `user` comes
out as a group `user` with the email redacted and the name kept, in a record
with the message of the input. -/
theorem Handle_forwards_witness :
    testHandler.withDebug = false
    ∧ Handle sampleEnv ⟨fun _ => .nilSlice⟩ emptyMemory testHandler none
        ⟨0, 0, "test message", 0,
          [("user", .group [("email", .any (.str "test@example.com")),
            ("name", .any (.str "John"))])]⟩
      = some ⟨0, 0, "test message", 0,
          [("user", .group [("email", .any (.str "*")), ("name", .any (.str "John"))])]⟩ := by
  refine ⟨rfl, ?_⟩
  have e1 : clone sampleEnv blackList none false "email" (.str "test@example.com") ""
      = some (.str "*") := clone_str_redact rfl (Or.inl (by decide))
  have e2 : clone sampleEnv blackList none false "name" (.str "John") ""
      = some (.str "John") :=
    clone_str_verbatim none false (by decide) (by decide) (by intro v h; cases h)
  rw [Handle_forwards sampleEnv _ emptyMemory testHandler none _ rfl]
  simp only [getAttrsFromContext, Memory.read, forEach, censoredAttr, censorAttribute,
    testHandler, Bool.false_eq_true, if_false, e1, e2, Option.map_some', NewRecord,
    Record.AddAttrs, List.nil_append, List.filter, LogValue.isEmptyGroup, Bool.not_false]

/-! ### Attributes carried by a context -/

theorem appendAttr_read (grow : Nat → Nat) (m : Memory) (v : AttrSlice) (a : Attr) :
    (appendAttr grow m v a).1.read (some (appendAttr grow m v a).2) = m.read (some v) ++ [a] := by
  unfold appendAttr
  split
  · simp only [Memory.read, List.range_succ, List.map_append, List.map_cons, List.map_nil,
      and_self, if_true]
    congr 1
    apply List.map_congr_left
    intro i hi
    have : i ≠ v.len := Nat.ne_of_lt (List.mem_range.mp hi)
    simp [this]
  · simp only [Memory.read, List.range_succ, List.map_append, List.map_cons, List.map_nil,
      if_true, Nat.lt_irrefl, if_false]
    congr 1
    apply List.map_congr_left
    intro i hi
    simp [List.mem_range.mp hi]

theorem appendAttr_frame (grow : Nat → Nat) (m : Memory) (v : AttrSlice) (a : Attr) :
    (appendAttr grow m v a).1.read (some v) = m.read (some v) := by
  unfold appendAttr
  split
  · simp only [Memory.read]
    apply List.map_congr_left
    intro i hi
    have : i ≠ v.len := Nat.ne_of_lt (List.mem_range.mp hi)
    simp [this]
  · simp only [Memory.read]
    apply List.map_congr_left
    intro i hi
    have hlt := List.mem_range.mp hi
    by_cases hx : v.array = m.next
    · simp [hx, hlt]
    · simp [hx]

theorem fields_of_not_appended : ∀ (c : Context), c.appended = false → c.fields = none
  | .background, _ => rfl
  | .withFields _ _, h => by simp [Context.appended] at h
  | .derived p, h => fields_of_not_appended p h

/-- C16: for every context `c`, the nil context and a context without
attributes included, the attributes read from `AppendCtx(c, a)` are those read
from `c` followed by `a`, and the attributes read from `c` are the same after
the call as before (also when `append` writes into the backing array that `c`
shares); from the nil context, and from a context to which nothing was
appended, no attribute is read. -/
theorem AppendCtx_attrs (grow : Nat → Nat) (m : Memory) (c : Option Context) (a : Attr) :
    (AppendCtx grow m c a).1.read (getAttrsFromContext (some (AppendCtx grow m c a).2))
        = m.read (getAttrsFromContext c) ++ [a]
    ∧ (AppendCtx grow m c a).1.read (getAttrsFromContext c) = m.read (getAttrsFromContext c)
    ∧ m.read (getAttrsFromContext none) = []
    ∧ ∀ c0 : Context, c0.appended = false → m.read (getAttrsFromContext (some c0)) = [] := by
  refine ⟨?_, ?_, rfl, fun c0 h0 => by simp [getAttrsFromContext, fields_of_not_appended c0 h0,
    Memory.read]⟩
  · cases c with
    | none =>
      simp only [AppendCtx, Context.fields, getAttrsFromContext]
      exact appendAttr_read grow m ⟨0, 0, 0⟩ a
    | some ctx =>
      simp only [AppendCtx, getAttrsFromContext]
      cases hf : ctx.fields with
      | none =>
        simp only [Context.fields]
        exact appendAttr_read grow m ⟨0, 0, 0⟩ a
      | some v =>
        simp only [Context.fields]
        exact appendAttr_read grow m v a
  · cases c with
    | none => rfl
    | some ctx =>
      simp only [AppendCtx, getAttrsFromContext]
      cases hf : ctx.fields with
      | none => rfl
      | some v => exact appendAttr_frame grow m v a

/-- C16 on a request id appended to the nil context and a user id appended to
the result: the second context carries both, the first still carries the
request id alone, and a context without attributes carries none. -/
theorem AppendCtx_attrs_witness :
    withUserId.1.read (getAttrsFromContext (some withUserId.2))
      = [("request_id", .any (.str "r-1")), ("user_id", .any (.num .int 7))]
    ∧ withUserId.1.read (getAttrsFromContext (some withRequestId.2))
      = [("request_id", .any (.str "r-1"))]
    ∧ emptyMemory.read (getAttrsFromContext (some (.derived .background))) = [] := by
  have h1 := AppendCtx_attrs (fun n => 2 * n) emptyMemory none ("request_id", .any (.str "r-1"))
  have h2 := AppendCtx_attrs (fun n => 2 * n) withRequestId.1 (some withRequestId.2)
    ("user_id", .any (.num .int 7))
  have e1 : withRequestId.1.read (getAttrsFromContext (some withRequestId.2))
      = [("request_id", .any (.str "r-1"))] := h1.1
  refine ⟨?_, ?_, h1.2.2.2 (.derived .background) rfl⟩
  · exact h2.1.trans (by rw [e1]; rfl)
  · exact h2.2.1.trans e1

/-! ### A group inside a group -/

/-- The members of a group reach `clone` as `slog.Attr` structs: the key
`token` is the value of the field `Key`, not a field name, and the string is
kept behind a pointer in the field `any`, so the cloner copies the structs as
they are. -/
theorem clone_header_attrs :
    clone sampleEnv blackList none false "header"
        (sampleSlog.attrsValue [("token", .any (.str "abc"))]) ""
      = some (.slice [.struct [⟨"Key", "", "", true, .str "token"⟩,
          ⟨"Value", "", "", true,
            slogValue (.num .uint 3) (some (.box (.num .uint 97)))⟩]]) := by
  have d0 : depthReached none = false := rfl
  have d : ∀ k, k < 32 → depthReached (some k) = false := by
    intro k hk
    simp [depthReached, maxDepth]
    omega
  have hkey : clone sampleEnv blackList (some 1) true "Key" (.str "token") ""
      = some (.str "token") :=
    clone_str_verbatim _ _ (by decide) (by decide) (by intro v h; cases h)
  have hblank : clone sampleEnv blackList (some 2) true "_" (.array []) ""
      = some (.array []) := by
    rw [clone_array (d 2 (by decide))]; rfl
  have hnum : clone sampleEnv blackList (some 2) true "num" (.num .uint 3) ""
      = some (.num .uint 3) := clone_num (d 2 (by decide)) _ _
  have hany : clone sampleEnv blackList (some 2) true "any"
      (.iface (some (.box (.num .uint 97)))) "" = some (.box (.num .uint 97)) := by
    rw [clone_iface (d 2 (by decide)), nextDepth_some, clone_box (d 3 (by decide)),
      nextDepth_some, clone_num (d 4 (by decide))]
    rfl
  have hvalue : clone sampleEnv blackList (some 1) true "Value"
      (slogValue (.num .uint 3) (some (.box (.num .uint 97)))) ""
      = some (slogValue (.num .uint 3) (some (.box (.num .uint 97)))) := by
    rw [slogValue, clone_struct (d 1 (by decide)), nextDepth_some]
    simp only [forEach, Bool.not_false, Bool.not_true, Bool.false_eq_true, and_false,
      if_false, ne_eq, String.reduceEq, not_true_eq_false, not_false_eq_true, if_true,
      hblank, hnum, hany, Option.map_some', assign]
  show clone sampleEnv blackList none false "header" (.slice [.struct
      [⟨"Key", "", "", true, .str "token"⟩,
       ⟨"Value", "", "", true, slogValue (.num .uint 3) (some (.box (.num .uint 97)))⟩]]) "" = _
  rw [clone_slice d0]
  simp only [forEach, nextDepth, clone_struct (d 0 (by decide)), Bool.not_true,
    Bool.false_eq_true, false_and, if_false, ne_eq, not_true_eq_false, hkey, hvalue,
    Option.map_some', assign, Nat.zero_add]
  rfl

/-- C15: a string logged under the sensitive key `token` is forwarded as the
marker when it is an attribute of the record and when it is a member of a
group of the record, but not when it is a member of a group inside a group, as
the `header` group that the logging middleware puts inside the `request`
group: `Handle` hands the inner group to `censorAttribute` as a whole, `clone`
walks its `slog.Attr` structs under the field names `Key`, `Value`, `num` and
`any`, and the member comes out with the data it went in with (the group that
`slog.Any` makes of the cloned slice is shown as `.any` of that slice). -/
theorem Handle_nested_group_kept :
    Handle sampleEnv sampleSlog emptyMemory testHandler none
        ⟨0, 0, "request", 0,
          [("token", .any (.str "abc")),
           ("header", .group [("token", .any (.str "abc"))]),
           ("request", .group [("header", .group [("token", .any (.str "abc"))])])]⟩
      = some ⟨0, 0, "request", 0,
          [("token", .any (.str "*")),
           ("header", .group [("token", .any (.str "*"))]),
           ("request", .group [("header", .any (.slice [.struct
              [⟨"Key", "", "", true, .str "token"⟩,
               ⟨"Value", "", "", true,
                 slogValue (.num .uint 3) (some (.box (.num .uint 97)))⟩]]))])]⟩ := by
  have e1 : clone sampleEnv blackList none false "token" (.str "abc") ""
      = some (.str "*") := clone_str_redact rfl (Or.inl (by decide))
  have e2 := clone_header_attrs
  rw [Handle_eq]
  simp only [getAttrsFromContext, Memory.read, forEach, censorOne, censorAttribute,
    testHandler, Bool.false_eq_true, if_false, e1, e2, Option.map_some', NewRecord,
    Record.AddAttrs, List.nil_append, List.filter, LogValue.isEmptyGroup, Bool.not_false,
    Group, GroupValue]

/-! ### `SnakeCase` -/

theorem ascii_forall (P : Char → Prop) (h : ∀ n : Fin 128, P (Char.ofNat n)) :
    ∀ c : Char, c.toNat < 128 → P c := by
  intro c hc
  have := h ⟨c.toNat, hc⟩
  simpa [Char.ofNat_toNat] using this

set_option maxRecDepth 100000 in
theorem ascii_lower_facts : ∀ c : Char, c.toNat < 128 → Unicode.ascii.isLower c = true →
    isDelimiterOptimized c = false ∧ Unicode.ascii.isUpper c = false
      ∧ Unicode.ascii.isNumber c = false ∧ Unicode.ascii.toLower c = c
      ∧ Unicode.ascii.isSpace c = false
      ∧ (Unicode.ascii.toUpper c).toNat < 128
      ∧ isDelimiterOptimized (Unicode.ascii.toUpper c) = false
      ∧ Unicode.ascii.isUpper (Unicode.ascii.toUpper c) = true
      ∧ Unicode.ascii.isLower (Unicode.ascii.toUpper c) = false
      ∧ Unicode.ascii.isNumber (Unicode.ascii.toUpper c) = false
      ∧ Unicode.ascii.isSpace (Unicode.ascii.toUpper c) = false
      ∧ Unicode.ascii.toLower (Unicode.ascii.toUpper c) = c := by
  apply ascii_forall
  decide

set_option maxRecDepth 100000 in
theorem ascii_upper_facts : ∀ c : Char, c.toNat < 128 → Unicode.ascii.isUpper c = true →
    isDelimiterOptimized c = false ∧ Unicode.ascii.isLower c = false
      ∧ Unicode.ascii.isNumber c = false ∧ Unicode.ascii.isSpace c = false
      ∧ (Unicode.ascii.toLower c).toNat < 128
      ∧ Unicode.ascii.isLower (Unicode.ascii.toLower c) = true := by
  apply ascii_forall
  decide

set_option maxRecDepth 100000 in
theorem ascii_digit_facts : ∀ c : Char, c.toNat < 128 → Unicode.ascii.isNumber c = true →
    isDelimiterOptimized c = false ∧ Unicode.ascii.isUpper c = false
      ∧ Unicode.ascii.isLower c = false ∧ Unicode.ascii.isSpace c = false := by
  apply ascii_forall
  decide

theorem ascii_of_isLower {c : Char} (h : Unicode.ascii.isLower c = true) : c.toNat < 128 := by
  simp only [Unicode.ascii, decide_eq_true_eq] at h
  have : 'z'.toNat = 122 := rfl
  omega

theorem ascii_of_isUpper {c : Char} (h : Unicode.ascii.isUpper c = true) : c.toNat < 128 := by
  simp only [Unicode.ascii, decide_eq_true_eq] at h
  have : 'Z'.toNat = 90 := rfl
  omega

theorem ascii_of_isNumber {c : Char} (h : Unicode.ascii.isNumber c = true) : c.toNat < 128 := by
  simp only [Unicode.ascii, decide_eq_true_eq] at h
  have : '9'.toNat = 57 := rfl
  omega

/-- What the tables say of a lowercase ASCII letter. -/
theorem lower_of_agrees {U : Unicode} (hU : U.AgreesOnASCII) {c : Char}
    (hc : Unicode.ascii.isLower c = true) :
    isDelimiterOptimized c = false ∧ U.isUpper c = false ∧ U.isLower c = true
      ∧ U.isNumber c = false ∧ U.toLower c = c ∧ U.isSpace c = false := by
  have h128 := ascii_of_isLower hc
  obtain ⟨f1, f2, f3, f4, f5, -⟩ := ascii_lower_facts c h128 hc
  obtain ⟨u1, u2, u3, u4, u5, -⟩ := hU c h128
  exact ⟨f1, by rw [u1, f2], by rw [u2, hc], by rw [u3, f3], by rw [u5, f4], by rw [u4, f5]⟩

/-- What the tables say of the upper case of a lowercase ASCII letter. -/
theorem capital_of_agrees {U : Unicode} (hU : U.AgreesOnASCII) {c : Char}
    (hc : Unicode.ascii.isLower c = true) :
    isDelimiterOptimized (Unicode.ascii.toUpper c) = false
      ∧ U.isUpper (Unicode.ascii.toUpper c) = true
      ∧ U.isLower (Unicode.ascii.toUpper c) = false
      ∧ U.isNumber (Unicode.ascii.toUpper c) = false
      ∧ U.toLower (Unicode.ascii.toUpper c) = c
      ∧ U.isSpace (Unicode.ascii.toUpper c) = false := by
  have h128 := ascii_of_isLower hc
  obtain ⟨-, -, -, -, -, g0, g1, g2, g3, g4, g5, g6⟩ := ascii_lower_facts c h128 hc
  obtain ⟨u1, u2, u3, u4, u5, -⟩ := hU _ g0
  exact ⟨g1, by rw [u1, g2], by rw [u2, g3], by rw [u3, g4], by rw [u5, g6], by rw [u4, g5]⟩

/-- What the tables say of an uppercase ASCII letter. -/
theorem upper_of_agrees {U : Unicode} (hU : U.AgreesOnASCII) {c : Char}
    (hc : Unicode.ascii.isUpper c = true) :
    isDelimiterOptimized c = false ∧ U.isUpper c = true ∧ U.isLower c = false
      ∧ U.isNumber c = false ∧ U.toLower c = Unicode.ascii.toLower c ∧ U.isSpace c = false
      ∧ Unicode.ascii.isLower (Unicode.ascii.toLower c) = true := by
  have h128 := ascii_of_isUpper hc
  obtain ⟨f1, f2, f3, f4, -, f6⟩ := ascii_upper_facts c h128 hc
  obtain ⟨u1, u2, u3, u4, u5, -⟩ := hU c h128
  exact ⟨f1, by rw [u1, hc], by rw [u2, f2], by rw [u3, f3], u5, by rw [u4, f4], f6⟩

/-- What the tables say of an ASCII digit. -/
theorem digit_of_agrees {U : Unicode} (hU : U.AgreesOnASCII) {c : Char}
    (hc : Unicode.ascii.isNumber c = true) :
    isDelimiterOptimized c = false ∧ U.isUpper c = false ∧ U.isLower c = false
      ∧ U.isNumber c = true ∧ U.isSpace c = false := by
  have h128 := ascii_of_isNumber hc
  obtain ⟨f1, f2, f3, f4⟩ := ascii_digit_facts c h128 hc
  obtain ⟨u1, u2, u3, u4, -, -⟩ := hU c h128
  exact ⟨f1, by rw [u1, f2], by rw [u2, f3], by rw [u3, hc], by rw [u4, f4]⟩

/-- What the tables say of the underscore. -/
theorem underscore_of_agrees {U : Unicode} (hU : U.AgreesOnASCII) :
    U.isUpper '_' = false ∧ U.isLower '_' = false ∧ U.isNumber '_' = false := by
  obtain ⟨u1, u2, u3, -, -, -⟩ := hU '_' (by decide)
  exact ⟨by rw [u1]; decide, by rw [u2]; decide, by rw [u3]; decide⟩

theorem ascii_agrees : Unicode.ascii.AgreesOnASCII :=
  fun _ _ => ⟨rfl, rfl, rfl, rfl, rfl, rfl⟩
section loop

variable {U : Unicode} {d : Char} {adj : Char → Char}

/-- A delimiter is written once, after a rune that is none, and not at the
start. -/
theorem loop_delimiter {i : Nat} {prev curr : Char} {rest b : List Char}
    (hc : isDelimiterOptimized curr = true) :
    delimiterLoop U d adj i prev (curr :: rest) b =
      delimiterLoop U d adj (i + 1) curr rest
        (if 0 < i ∧ isDelimiterOptimized prev = false then b ++ [d] else b) := by
  simp [delimiterLoop, hc]

/-- A rune that is no delimiter, no uppercase letter and no number is written
with its case adjusted and nothing before it. -/
theorem loop_plain {i : Nat} {prev curr : Char} {rest b : List Char}
    (hc : isDelimiterOptimized curr = false) (hu : U.isUpper curr = false)
    (hn : U.isNumber curr = false) :
    delimiterLoop U d adj i prev (curr :: rest) b =
      delimiterLoop U d adj (i + 1) curr rest (b ++ [adj curr]) := by
  simp [delimiterLoop, hc, hu, hn]

/-- A number is written as it is, with nothing before it unless the rune
before it is an uppercase letter. -/
theorem loop_number_plain {i : Nat} {prev curr : Char} {rest b : List Char}
    (hc : isDelimiterOptimized curr = false) (hu : U.isUpper curr = false)
    (hn : U.isNumber curr = true) (hp : i = 0 ∨ U.isUpper prev = false) :
    delimiterLoop U d adj i prev (curr :: rest) b =
      delimiterLoop U d adj (i + 1) curr rest (b ++ [curr]) := by
  rcases hp with hp | hp <;> simp [delimiterLoop, hc, hu, hn, hp]

/-- A number after an uppercase letter is written after one delimiter. -/
theorem loop_number_after_upper {i : Nat} {prev curr : Char} {rest b : List Char}
    (hi : 0 < i) (hc : isDelimiterOptimized curr = false) (hu : U.isUpper curr = false)
    (hn : U.isNumber curr = true) (hpu : U.isUpper prev = true)
    (hpn : U.isNumber prev = false) (hpd : isDelimiterOptimized prev = false) :
    delimiterLoop U d adj i prev (curr :: rest) b =
      delimiterLoop U d adj (i + 1) curr rest (b ++ [d, curr]) := by
  simp [delimiterLoop, hc, hu, hn, hpu, hpn, hpd, hi]

/-- The first rune, when it is no delimiter and no number, is written with its
case adjusted. -/
theorem loop_first {prev curr : Char} {rest b : List Char}
    (hc : isDelimiterOptimized curr = false) (hn : U.isNumber curr = false) :
    delimiterLoop U d adj 0 prev (curr :: rest) b =
      delimiterLoop U d adj 1 curr rest (b ++ [adj curr]) := by
  simp [delimiterLoop, hc, hn]

/-- An uppercase letter after a lowercase letter is written after one
delimiter. -/
theorem loop_upper_after_lower {i : Nat} {prev curr : Char} {rest b : List Char}
    (hi : 0 < i) (hc : isDelimiterOptimized curr = false) (hu : U.isUpper curr = true)
    (hn : U.isNumber curr = false) (hpl : U.isLower prev = true)
    (hpn : U.isNumber prev = false) :
    delimiterLoop U d adj i prev (curr :: rest) b =
      delimiterLoop U d adj (i + 1) curr rest (b ++ [d, adj curr]) := by
  simp [delimiterLoop, hc, hu, hn, hpl, hpn, hi]

/-- An uppercase letter after a number is written after one delimiter. -/
theorem loop_upper_after_number {i : Nat} {prev curr : Char} {rest b : List Char}
    (hi : 0 < i) (hc : isDelimiterOptimized curr = false) (hu : U.isUpper curr = true)
    (hn : U.isNumber curr = false) (hpl : U.isLower prev = false)
    (hpu : U.isUpper prev = false) (hpn : U.isNumber prev = true) :
    delimiterLoop U d adj i prev (curr :: rest) b =
      delimiterLoop U d adj (i + 1) curr rest (b ++ [d, adj curr]) := by
  simp [delimiterLoop, hc, hu, hn, hpl, hpu, hpn, hi]

/-- An uppercase letter is written with nothing before it when the rune before
it is no lowercase letter and no number, and the rune after it is no lowercase
letter or the rune before it no uppercase letter. -/
theorem loop_upper_quiet {i : Nat} {prev curr : Char} {rest b : List Char}
    (hc : isDelimiterOptimized curr = false)
    (hn : U.isNumber curr = false) (hpl : U.isLower prev = false)
    (hpn : U.isNumber prev = false)
    (hnext : U.isUpper prev = false ∨ ∀ n, rest.head? = some n → U.isLower n = false) :
    delimiterLoop U d adj i prev (curr :: rest) b =
      delimiterLoop U d adj (i + 1) curr rest (b ++ [adj curr]) := by
  rcases hnext with hpu | hnext
  · simp [delimiterLoop, hc, hn, hpl, hpn, hpu]
  · cases rest with
    | nil => simp [delimiterLoop, hc, hn, hpl, hpn]
    | cons n rest =>
      have := hnext n rfl
      simp [delimiterLoop, hc, hn, hpl, hpn, this]

end loop
/-- A run of lowercase ASCII letters is written as it is, wherever it
stands. -/
theorem loop_lower_run {U : Unicode} (hU : U.AgreesOnASCII) (d : Char) :
    ∀ (w : List Char), w ≠ [] → (∀ c ∈ w, Unicode.ascii.isLower c = true) →
      ∀ (i : Nat) (prev : Char) (rest b : List Char),
        ∃ p, Unicode.ascii.isLower p = true ∧
          delimiterLoop U d U.toLower i prev (w ++ rest) b =
            delimiterLoop U d U.toLower (i + w.length) p rest (b ++ w)
  | [], h, _ => absurd rfl h
  | [c], _, hw => by
    intro i prev rest b
    have hc := hw c (List.mem_singleton_self c)
    obtain ⟨f1, f2, _, f4, f5, _⟩ := lower_of_agrees hU hc
    exact ⟨c, hc, by rw [List.singleton_append, loop_plain f1 f2 f4, f5]; rfl⟩
  | c :: c' :: w, _, hw => by
    intro i prev rest b
    have hc := hw c (List.mem_cons_self _ _)
    obtain ⟨f1, f2, _, f4, f5, _⟩ := lower_of_agrees hU hc
    obtain ⟨p, hp, h⟩ := loop_lower_run hU d (c' :: w) (by simp)
      (fun x hx => hw x (List.mem_cons_of_mem _ hx)) (i + 1) c rest (b ++ [c])
    refine ⟨p, hp, ?_⟩
    rw [List.cons_append, loop_plain f1 f2 f4, f5, h]
    simp only [List.length_cons, List.append_assoc, List.singleton_append]
    congr 1
    omega

/-- A run of uppercase ASCII letters is written in lower case and with
nothing in between, when it follows a rune that is no lowercase letter and no
number, and no lowercase letter follows it. -/
theorem loop_upper_run {U : Unicode} (hU : U.AgreesOnASCII) (d : Char) :
    ∀ (w : List Char), w ≠ [] → (∀ c ∈ w, Unicode.ascii.isLower c = true) →
      ∀ (i : Nat) (prev : Char) (rest b : List Char),
        U.isLower prev = false → U.isNumber prev = false →
        (∀ n, rest.head? = some n → U.isLower n = false) →
        ∃ p, Unicode.ascii.isLower p = true ∧
          delimiterLoop U d U.toLower i prev (w.map Unicode.ascii.toUpper ++ rest) b =
            delimiterLoop U d U.toLower (i + w.length) (Unicode.ascii.toUpper p) rest (b ++ w)
  | [], h, _ => absurd rfl h
  | [c], _, hw => by
    intro i prev rest b hpl hpn hrest
    have hc := hw c (List.mem_singleton_self c)
    obtain ⟨g1, _, _, g4, g5, _⟩ := capital_of_agrees hU hc
    refine ⟨c, hc, ?_⟩
    rw [List.map_singleton, List.singleton_append,
      loop_upper_quiet g1 g4 hpl hpn (Or.inr hrest), g5]
    rfl
  | c :: c' :: w, _, hw => by
    intro i prev rest b hpl hpn hrest
    have hc := hw c (List.mem_cons_self _ _)
    have hc' := hw c' (List.mem_cons_of_mem _ (List.mem_cons_self _ _))
    obtain ⟨g1, _, g3, g4, g5, _⟩ := capital_of_agrees hU hc
    obtain ⟨_, _, k3, _, _, _⟩ := capital_of_agrees hU hc'
    obtain ⟨p, hp, h⟩ := loop_upper_run hU d (c' :: w) (by simp)
      (fun x hx => hw x (List.mem_cons_of_mem _ hx)) (i + 1) (Unicode.ascii.toUpper c) rest
      (b ++ [c]) g3 g4 hrest
    refine ⟨p, hp, ?_⟩
    rw [List.map_cons, List.cons_append,
      loop_upper_quiet g1 g4 hpl hpn (Or.inr (by
        intro n hn
        simp only [List.map_cons, List.cons_append, List.head?_cons, Option.some.injEq] at hn
        rw [← hn]; exact k3)), g5, h]
    simp only [List.length_cons, List.append_assoc, List.singleton_append]
    congr 1
    omega

/-- A capitalized word of at least two lowercase ASCII letters is written in
lower case: as it is at the start, and after one delimiter when it follows a
lowercase letter. -/
theorem loop_capitalized {U : Unicode} (hU : U.AgreesOnASCII) (d : Char)
    (w : List Char) (hlen : 2 ≤ w.length) (hw : ∀ c ∈ w, Unicode.ascii.isLower c = true)
    (i : Nat) (prev : Char) (rest b : List Char)
    (hprev : i = 0 ∨ Unicode.ascii.isLower prev = true) :
    ∃ p, Unicode.ascii.isLower p = true ∧
      delimiterLoop U d U.toLower i prev (capitalize w ++ rest) b =
        delimiterLoop U d U.toLower (i + w.length) p rest
          (b ++ (if i = 0 then w else d :: w)) := by
  match w, hlen, hw with
  | c :: c' :: w, _, hw =>
    have hc := hw c (List.mem_cons_self _ _)
    obtain ⟨g1, g2, _, g4, g5, _⟩ := capital_of_agrees hU hc
    have key : ∀ b', ∃ p, Unicode.ascii.isLower p = true ∧
        delimiterLoop U d U.toLower (i + 1) (Unicode.ascii.toUpper c) ((c' :: w) ++ rest) b' =
          delimiterLoop U d U.toLower (i + (c :: c' :: w).length) p rest (b' ++ c' :: w) := by
      intro b'
      obtain ⟨p, hp, h⟩ := loop_lower_run hU d (c' :: w) (by simp)
        (fun x hx => hw x (List.mem_cons_of_mem _ hx)) (i + 1) (Unicode.ascii.toUpper c) rest b'
      refine ⟨p, hp, ?_⟩
      rw [h]
      simp only [List.length_cons]
      congr 1
      omega
    by_cases hi : i = 0
    · subst hi
      obtain ⟨p, hp, h⟩ := key (b ++ [c])
      refine ⟨p, hp, ?_⟩
      simp only [capitalize, List.cons_append, if_true]
      rw [loop_first g1 g4, g5]
      simpa using h
    · rcases hprev with h0 | hprev
      · exact absurd h0 hi
      · obtain ⟨_, _, l3, l4, _, _⟩ := lower_of_agrees hU hprev
        obtain ⟨p, hp, h⟩ := key (b ++ [d, c])
        refine ⟨p, hp, ?_⟩
        simp only [capitalize, List.cons_append, if_neg hi]
        rw [loop_upper_after_lower (Nat.pos_of_ne_zero hi) g1 g2 g4 l3 l4, g5]
        simpa using h
    
theorem snakeSpelling_cons (w : List Char) {ws : List (List Char)} (h : ws ≠ []) :
    snakeSpelling (w :: ws) = w ++ '_' :: snakeSpelling ws := by
  cases ws with
  | nil => exact absurd rfl h
  | cons w2 ws => rfl

/-- The loop writes the words joined by `_` as they are. -/
theorem loop_snakeSpelling {U : Unicode} (hU : U.AgreesOnASCII) :
    ∀ (ws : List (List Char)), ws ≠ [] →
      (∀ w ∈ ws, 2 ≤ w.length ∧ ∀ c ∈ w, Unicode.ascii.isLower c = true) →
      ∀ (i : Nat) (prev : Char) (b : List Char),
        delimiterLoop U '_' U.toLower i prev (snakeSpelling ws) b = b ++ snakeSpelling ws
  | [], h, _ => absurd rfl h
  | [w], _, hws => by
    intro i prev b
    obtain ⟨hlen, hw⟩ := hws w (List.mem_singleton_self w)
    obtain ⟨p, _, h⟩ := loop_lower_run hU '_' w (by intro h; simp [h] at hlen) hw i prev [] b
    simpa [snakeSpelling, delimiterLoop] using h
  | w :: w2 :: ws, _, hws => by
    intro i prev b
    obtain ⟨hlen, hw⟩ := hws w (List.mem_cons_self _ _)
    obtain ⟨p, hp, h⟩ := loop_lower_run hU '_' w (by intro h; simp [h] at hlen) hw i prev
      ('_' :: snakeSpelling (w2 :: ws)) b
    obtain ⟨f1, _⟩ := lower_of_agrees hU hp
    have ih := loop_snakeSpelling hU (w2 :: ws) (by simp)
      (fun x hx => hws x (List.mem_cons_of_mem _ hx))
    rw [snakeSpelling_cons w (List.cons_ne_nil w2 ws), h, loop_delimiter (by decide),
      if_pos ⟨by omega, f1⟩, ih]
    simp

/-- The loop writes the uppercase spelling as the words joined by `_`. -/
theorem loop_upperSpelling {U : Unicode} (hU : U.AgreesOnASCII) :
    ∀ (ws : List (List Char)), ws ≠ [] →
      (∀ w ∈ ws, 2 ≤ w.length ∧ ∀ c ∈ w, Unicode.ascii.isLower c = true) →
      ∀ (i : Nat) (prev : Char) (b : List Char),
        U.isLower prev = false → U.isNumber prev = false →
        delimiterLoop U '_' U.toLower i prev (upperSpelling ws) b = b ++ snakeSpelling ws
  | [], h, _ => absurd rfl h
  | [w], _, hws => by
    intro i prev b hpl hpn
    obtain ⟨hlen, hw⟩ := hws w (List.mem_singleton_self w)
    obtain ⟨p, _, h⟩ := loop_upper_run hU '_' w (by intro h; simp [h] at hlen) hw i prev [] b
      hpl hpn (by intro n hn; cases hn)
    simpa [upperSpelling, snakeSpelling, delimiterLoop] using h
  | w :: w2 :: ws, _, hws => by
    intro i prev b hpl hpn
    obtain ⟨hlen, hw⟩ := hws w (List.mem_cons_self _ _)
    obtain ⟨u1, u2, u3⟩ := underscore_of_agrees hU
    obtain ⟨p, hp, h⟩ := loop_upper_run hU '_' w (by intro h; simp [h] at hlen) hw i prev
      ('_' :: upperSpelling (w2 :: ws)) b hpl hpn
      (by intro n hn; simp only [List.head?_cons, Option.some.injEq] at hn; rw [← hn]; exact u2)
    obtain ⟨g1, _⟩ := capital_of_agrees hU hp
    have ih := loop_upperSpelling hU (w2 :: ws) (by simp)
      (fun x hx => hws x (List.mem_cons_of_mem _ hx))
    have e : upperSpelling (w :: w2 :: ws)
        = w.map Unicode.ascii.toUpper ++ '_' :: upperSpelling (w2 :: ws) := by
      simp only [upperSpelling, snakeSpelling_cons w (List.cons_ne_nil w2 ws), List.map_append,
        List.map_cons]
      rfl
    rw [e, h, loop_delimiter (by decide), if_pos ⟨by omega, g1⟩, ih _ _ _ u2 u3,
      snakeSpelling_cons w (List.cons_ne_nil w2 ws)]
    simp

/-- After a lowercase letter, the loop writes a PascalCase spelling as the
words joined by `_`, after one more `_`. -/
theorem loop_pascal_tail {U : Unicode} (hU : U.AgreesOnASCII) :
    ∀ (ws : List (List Char)), ws ≠ [] →
      (∀ w ∈ ws, 2 ≤ w.length ∧ ∀ c ∈ w, Unicode.ascii.isLower c = true) →
      ∀ (i : Nat) (prev : Char) (b : List Char),
        0 < i → Unicode.ascii.isLower prev = true →
        delimiterLoop U '_' U.toLower i prev (pascalSpelling ws) b
          = b ++ '_' :: snakeSpelling ws
  | [], h, _ => absurd rfl h
  | [w], _, hws => by
    intro i prev b hi hp
    obtain ⟨hlen, hw⟩ := hws w (List.mem_singleton_self w)
    obtain ⟨p, _, h⟩ := loop_capitalized hU '_' w hlen hw i prev [] b (Or.inr hp)
    rw [if_neg (by omega)] at h
    simpa [pascalSpelling, snakeSpelling, delimiterLoop] using h
  | w :: w2 :: ws, _, hws => by
    intro i prev b hi hp
    obtain ⟨hlen, hw⟩ := hws w (List.mem_cons_self _ _)
    obtain ⟨p, hp', h⟩ := loop_capitalized hU '_' w hlen hw i prev (pascalSpelling (w2 :: ws)) b
      (Or.inr hp)
    rw [if_neg (by omega)] at h
    have ih := loop_pascal_tail hU (w2 :: ws) (by simp)
      (fun x hx => hws x (List.mem_cons_of_mem _ hx))
    rw [pascalSpelling, h, ih _ _ _ (by omega) hp', snakeSpelling_cons w (List.cons_ne_nil w2 ws)]
    simp

/-- From the start, the loop writes a PascalCase spelling as the words joined
by `_`. -/
theorem loop_pascalSpelling {U : Unicode} (hU : U.AgreesOnASCII) (ws : List (List Char))
    (hne : ws ≠ [])
    (hws : ∀ w ∈ ws, 2 ≤ w.length ∧ ∀ c ∈ w, Unicode.ascii.isLower c = true) (prev : Char) :
    delimiterLoop U '_' U.toLower 0 prev (pascalSpelling ws) [] = snakeSpelling ws := by
  cases ws with
  | nil => exact absurd rfl hne
  | cons w ws =>
    obtain ⟨hlen, hw⟩ := hws w (List.mem_cons_self _ _)
    obtain ⟨p, hp, h⟩ := loop_capitalized hU '_' w hlen hw 0 prev (pascalSpelling ws) []
      (Or.inl rfl)
    rw [pascalSpelling, h]
    by_cases hnil : ws = []
    · subst hnil
      simp [pascalSpelling, snakeSpelling, delimiterLoop]
    · rw [loop_pascal_tail hU ws hnil (fun x hx => hws x (List.mem_cons_of_mem _ hx)) _ _ _
        (by omega) hp, snakeSpelling_cons w hnil]
      simp

/-- From the start, the loop writes a camelCase spelling as the words joined
by `_`. -/
theorem loop_camelSpelling {U : Unicode} (hU : U.AgreesOnASCII) (ws : List (List Char))
    (hne : ws ≠ [])
    (hws : ∀ w ∈ ws, 2 ≤ w.length ∧ ∀ c ∈ w, Unicode.ascii.isLower c = true) (prev : Char) :
    delimiterLoop U '_' U.toLower 0 prev (camelSpelling ws) [] = snakeSpelling ws := by
  cases ws with
  | nil => exact absurd rfl hne
  | cons w ws =>
    obtain ⟨hlen, hw⟩ := hws w (List.mem_cons_self _ _)
    obtain ⟨p, hp, h⟩ := loop_lower_run hU '_' w (by intro h; simp [h] at hlen) hw 0 prev
      (pascalSpelling ws) []
    rw [camelSpelling, h]
    by_cases hnil : ws = []
    · subst hnil
      simp [pascalSpelling, snakeSpelling, delimiterLoop]
    · rw [loop_pascal_tail hU ws hnil (fun x hx => hws x (List.mem_cons_of_mem _ hx)) _ _ _
        (by omega) hp, snakeSpelling_cons w hnil]
      simp
/-- Runes without a space among them are not trimmed. -/
theorem trimSpace_of_no_space (U : Unicode) (l : List Char)
    (h : ∀ c ∈ l, U.isSpace c = false) : trimSpace U l = l := by
  have drop : ∀ (m : List Char), (∀ c ∈ m, U.isSpace c = false) →
      m.dropWhile U.isSpace = m := by
    intro m hm
    cases m with
    | nil => rfl
    | cons c t => simp [List.dropWhile, hm c (List.mem_cons_self _ _)]
  unfold trimSpace
  rw [drop l h, drop l.reverse (fun c hc => h c (List.mem_reverse.mp hc)), List.reverse_reverse]

/-- On runes that are not all trimmed away, `SnakeCase` is the loop. -/
theorem SnakeCase_eq_loop (U : Unicode) (l : List Char) (hne : l ≠ [])
    (h : ∀ c ∈ l, U.isSpace c = false) :
    SnakeCase U (String.mk l)
      = String.mk (delimiterLoop U '_' U.toLower 0 (Char.ofNat 0) l []) := by
  have e : (String.mk l).toList = l := rfl
  simp only [SnakeCase, delimiterCase, e, trimSpace_of_no_space U l h, if_neg hne,
    Bool.false_eq_true, if_false]

theorem mem_snakeSpelling {c : Char} :
    ∀ {ws : List (List Char)}, c ∈ snakeSpelling ws → c = '_' ∨ ∃ w ∈ ws, c ∈ w
  | [], h => by simp [snakeSpelling] at h
  | [w], h => Or.inr ⟨w, List.mem_singleton_self w, by simpa [snakeSpelling] using h⟩
  | w :: w2 :: ws, h => by
    rw [snakeSpelling_cons w (List.cons_ne_nil w2 ws)] at h
    rcases List.mem_append.mp h with h | h
    · exact Or.inr ⟨w, List.mem_cons_self _ _, h⟩
    · rcases List.mem_cons.mp h with h | h
      · exact Or.inl h
      · rcases mem_snakeSpelling h with h | ⟨x, hx, hc⟩
        · exact Or.inl h
        · exact Or.inr ⟨x, List.mem_cons_of_mem _ hx, hc⟩

theorem mem_pascalSpelling {c : Char} :
    ∀ {ws : List (List Char)}, c ∈ pascalSpelling ws →
      ∃ w ∈ ws, c ∈ w ∨ ∃ c0 ∈ w, c = Unicode.ascii.toUpper c0
  | [], h => by simp [pascalSpelling] at h
  | w :: ws, h => by
    rw [pascalSpelling] at h
    rcases List.mem_append.mp h with h | h
    · refine ⟨w, List.mem_cons_self _ _, ?_⟩
      cases w with
      | nil => simp [capitalize] at h
      | cons c0 t =>
        rcases List.mem_cons.mp h with h | h
        · exact Or.inr ⟨c0, List.mem_cons_self _ _, h⟩
        · exact Or.inl (List.mem_cons_of_mem _ h)
    · obtain ⟨x, hx, hc⟩ := mem_pascalSpelling h
      exact ⟨x, List.mem_cons_of_mem _ hx, hc⟩

theorem snakeSpelling_ne_nil {ws : List (List Char)} (hne : ws ≠ [])
    (hws : ∀ w ∈ ws, 2 ≤ w.length ∧ ∀ c ∈ w, Unicode.ascii.isLower c = true) :
    snakeSpelling ws ≠ [] := by
  cases ws with
  | nil => exact absurd rfl hne
  | cons w ws =>
    obtain ⟨hlen, _⟩ := hws w (List.mem_cons_self _ _)
    cases w with
    | nil => simp at hlen
    | cons c t =>
      cases ws with
      | nil => simp [snakeSpelling]
      | cons w2 ws => simp [snakeSpelling]

theorem pascalSpelling_ne_nil {ws : List (List Char)} (hne : ws ≠ [])
    (hws : ∀ w ∈ ws, 2 ≤ w.length ∧ ∀ c ∈ w, Unicode.ascii.isLower c = true) :
    pascalSpelling ws ≠ [] := by
  cases ws with
  | nil => exact absurd rfl hne
  | cons w ws =>
    obtain ⟨hlen, _⟩ := hws w (List.mem_cons_self _ _)
    cases w with
    | nil => simp at hlen
    | cons c t => simp [pascalSpelling, capitalize]

/-- C17: normalization is canonical across spellings.  For every non-empty
list of words, each of at least two lowercase ASCII letters, `SnakeCase` gives
the words joined by `_` for the words joined by `_`, for that spelling in
upper case, for the PascalCase concatenation and for the camelCase
concatenation, with any tables that are Go's on ASCII. -/
theorem SnakeCase_spellings (U : Unicode) (hU : U.AgreesOnASCII) (ws : List (List Char))
    (hne : ws ≠ [])
    (hws : ∀ w ∈ ws, 2 ≤ w.length ∧ ∀ c ∈ w, Unicode.ascii.isLower c = true) :
    SnakeCase U (String.mk (snakeSpelling ws)) = String.mk (snakeSpelling ws)
    ∧ SnakeCase U (String.mk (upperSpelling ws)) = String.mk (snakeSpelling ws)
    ∧ SnakeCase U (String.mk (pascalSpelling ws)) = String.mk (snakeSpelling ws)
    ∧ SnakeCase U (String.mk (camelSpelling ws)) = String.mk (snakeSpelling ws) := by
  have hsnake : ∀ c ∈ snakeSpelling ws, U.isSpace c = false ∧
      U.isSpace (Unicode.ascii.toUpper c) = false := by
    intro c hc
    rcases mem_snakeSpelling hc with rfl | ⟨w, hw, hcw⟩
    · have := (hU '_' (by decide)).2.2.2.1
      exact ⟨by rw [this]; decide, by
        show U.isSpace '_' = false
        rw [this]; decide⟩
    · have hl := (hws w hw).2 c hcw
      exact ⟨(lower_of_agrees hU hl).2.2.2.2.2, (capital_of_agrees hU hl).2.2.2.2.2⟩
  have hpascal : ∀ c ∈ pascalSpelling ws, U.isSpace c = false := by
    intro c hc
    obtain ⟨w, hw, h | ⟨c0, hc0, rfl⟩⟩ := mem_pascalSpelling hc
    · exact (lower_of_agrees hU ((hws w hw).2 c h)).2.2.2.2.2
    · exact (capital_of_agrees hU ((hws w hw).2 c0 hc0)).2.2.2.2.2
  have hnul : U.isLower (Char.ofNat 0) = false ∧ U.isNumber (Char.ofNat 0) = false := by
    obtain ⟨-, u2, u3, -⟩ := hU (Char.ofNat 0) (by decide)
    exact ⟨by rw [u2]; decide, by rw [u3]; decide⟩
  refine ⟨?_, ?_, ?_, ?_⟩
  · rw [SnakeCase_eq_loop U _ (snakeSpelling_ne_nil hne hws) (fun c hc => (hsnake c hc).1),
      loop_snakeSpelling hU ws hne hws]
    rfl
  · rw [SnakeCase_eq_loop U _ (by
        simpa [upperSpelling] using snakeSpelling_ne_nil hne hws) (by
        intro c hc
        obtain ⟨c0, hc0, rfl⟩ := List.mem_map.mp hc
        exact (hsnake c0 hc0).2),
      loop_upperSpelling hU ws hne hws _ _ _ hnul.1 hnul.2]
    rfl
  · rw [SnakeCase_eq_loop U _ (pascalSpelling_ne_nil hne hws) hpascal,
      loop_pascalSpelling hU ws hne hws]
  · cases ws with
    | nil => exact absurd rfl hne
    | cons w ws =>
      have hw := hws w (List.mem_cons_self _ _)
      rw [SnakeCase_eq_loop U _ (by
          cases w with
          | nil => simp at hw
          | cons c t => simp [camelSpelling]) (by
          intro c hc
          rcases List.mem_append.mp hc with h | h
          · exact (lower_of_agrees hU (hw.2 c h)).2.2.2.2.2
          · obtain ⟨x, hx, h | ⟨c0, hc0, rfl⟩⟩ := mem_pascalSpelling h
            · exact (lower_of_agrees hU
                ((hws x (List.mem_cons_of_mem _ hx)).2 c h)).2.2.2.2.2
            · exact (capital_of_agrees hU
                ((hws x (List.mem_cons_of_mem _ hx)).2 c0 hc0)).2.2.2.2.2),
        loop_camelSpelling hU (w :: ws) hne hws]

/-- C17 on the words `http` and `request`, and on the three strings of the
specification, with the ASCII tables. -/
theorem SnakeCase_spellings_witness :
    SnakeCase Unicode.ascii "http_request" = "http_request"
    ∧ SnakeCase Unicode.ascii "HTTP_REQUEST" = "http_request"
    ∧ SnakeCase Unicode.ascii "HttpRequest" = "http_request"
    ∧ SnakeCase Unicode.ascii "httpRequest" = "http_request"
    ∧ SnakeCase Unicode.ascii "HTTPRequest" = "http_request" :=
  have h := SnakeCase_spellings Unicode.ascii ascii_agrees
    ["http".toList, "request".toList] (by decide) (by decide)
  ⟨h.1, h.2.1, h.2.2.1, h.2.2.2, by decide⟩

/-- A run of ASCII digits is written as it is, at the start and after a rune
that is no uppercase letter. -/
theorem loop_digit_run {U : Unicode} (hU : U.AgreesOnASCII) (d : Char) :
    ∀ (ds : List Char), ds ≠ [] → (∀ c ∈ ds, Unicode.ascii.isNumber c = true) →
      ∀ (i : Nat) (prev : Char) (rest b : List Char), i = 0 ∨ U.isUpper prev = false →
        ∃ p, Unicode.ascii.isNumber p = true ∧
          delimiterLoop U d U.toLower i prev (ds ++ rest) b =
            delimiterLoop U d U.toLower (i + ds.length) p rest (b ++ ds)
  | [], h, _ => absurd rfl h
  | [c], _, hds => by
    intro i prev rest b hp
    have hc := hds c (List.mem_singleton_self c)
    obtain ⟨f1, f2, _, f4, _⟩ := digit_of_agrees hU hc
    exact ⟨c, hc, by rw [List.singleton_append, loop_number_plain f1 f2 f4 hp]; rfl⟩
  | c :: c' :: ds, _, hds => by
    intro i prev rest b hp
    have hc := hds c (List.mem_cons_self _ _)
    obtain ⟨f1, f2, _, f4, _⟩ := digit_of_agrees hU hc
    obtain ⟨p, hp', h⟩ := loop_digit_run hU d (c' :: ds) (by simp)
      (fun x hx => hds x (List.mem_cons_of_mem _ hx)) (i + 1) c rest (b ++ [c]) (Or.inr f2)
    refine ⟨p, hp', ?_⟩
    rw [List.cons_append, loop_number_plain f1 f2 f4 hp, h]
    simp only [List.length_cons, List.append_assoc, List.singleton_append]
    congr 1
    omega

/-- C19: digits stay attached to the lowercase word before them and are
separated from the capitalized word after them.  For every word `w` of
lowercase ASCII letters (the empty word included), every non-empty string `ds`
of ASCII digits, every uppercase ASCII letter `c` and every non-empty word `lw`
of lowercase ASCII letters, `SnakeCase (w ++ ds ++ c lw)` is
`w ++ ds ++ "_" ++ lowercase(c) ++ lw`, with any tables that are Go's on
ASCII. -/
theorem SnakeCase_digits_then_word (U : Unicode) (hU : U.AgreesOnASCII)
    (w ds lw : List Char) (c : Char)
    (hw : ∀ x ∈ w, Unicode.ascii.isLower x = true)
    (hds : ∀ x ∈ ds, Unicode.ascii.isNumber x = true) (hne : ds ≠ [])
    (hc : Unicode.ascii.isUpper c = true)
    (hlw : ∀ x ∈ lw, Unicode.ascii.isLower x = true) (hlne : lw ≠ []) :
    SnakeCase U (String.mk (w ++ ds ++ c :: lw))
      = String.mk (w ++ ds ++ '_' :: Unicode.ascii.toLower c :: lw) := by
  obtain ⟨c1, c2, c3, c4, c5, c6, _⟩ := upper_of_agrees hU hc
  have hsp : ∀ x ∈ w ++ ds ++ c :: lw, U.isSpace x = false := by
    intro x hx
    simp only [List.mem_append, List.mem_cons] at hx
    rcases hx with (h | h) | rfl | h
    · exact (lower_of_agrees hU (hw x h)).2.2.2.2.2
    · exact (digit_of_agrees hU (hds x h)).2.2.2.2
    · exact c6
    · exact (lower_of_agrees hU (hlw x h)).2.2.2.2.2
  rw [SnakeCase_eq_loop U _ (by simp) hsp]
  congr 1
  have tail : ∀ (i : Nat) (prev : Char) (b : List Char), i = 0 ∨ U.isUpper prev = false →
      delimiterLoop U '_' U.toLower i prev (ds ++ c :: lw) b
        = b ++ ds ++ '_' :: Unicode.ascii.toLower c :: lw := by
    intro i prev b hp
    obtain ⟨p, hp', h⟩ := loop_digit_run hU '_' ds hne hds i prev (c :: lw) b hp
    obtain ⟨_, p2, p3, p4, _⟩ := digit_of_agrees hU hp'
    have hi : 0 < i + ds.length := by
      cases ds with
      | nil => exact absurd rfl hne
      | cons _ _ => simp
    obtain ⟨q, _, h2⟩ := loop_lower_run hU '_' lw hlne hlw (i + ds.length + 1) c []
      (b ++ ds ++ ['_', U.toLower c])
    rw [h, loop_upper_after_number hi c1 c2 c4 p3 p2 p4]
    have h3 := h2
    rw [List.append_nil] at h3
    rw [h3, c5]
    simp [delimiterLoop]
  by_cases hwn : w = []
  · subst hwn
    simpa using tail 0 (Char.ofNat 0) [] (Or.inl rfl)
  · obtain ⟨p, hp, h⟩ := loop_lower_run hU '_' w hwn hw 0 (Char.ofNat 0) (ds ++ c :: lw) []
    rw [List.append_assoc, h, tail _ _ _ (Or.inr (lower_of_agrees hU hp).2.1)]
    simp

/-- C19 on `middle123Word`, and on the two test strings of the
specification, with the ASCII tables. -/
theorem SnakeCase_digits_then_word_witness :
    SnakeCase Unicode.ascii "middle123Word" = "middle123_word"
    ∧ SnakeCase Unicode.ascii "NumbersInMiddle123Word" = "numbers_in_middle123_word"
    ∧ SnakeCase Unicode.ascii "123NumbersAtStart" = "123_numbers_at_start" :=
  ⟨SnakeCase_digits_then_word Unicode.ascii ascii_agrees "middle".toList "123".toList
      "ord".toList 'W' (by decide) (by decide) (by decide) (by decide) (by decide) (by decide),
   by decide, by decide⟩

theorem ascii_categories : Unicode.ascii.Categories := by
  have hA : 'A'.toNat = 65 := rfl
  have hZ : 'Z'.toNat = 90 := rfl
  have ha : 'a'.toNat = 97 := rfl
  have hz : 'z'.toNat = 122 := rfl
  have h0 : '0'.toNat = 48 := rfl
  have h9 : '9'.toNat = 57 := rfl
  refine ⟨?_, ?_, ?_, ?_, ?_⟩
  · intro c h
    simp only [Unicode.ascii, decide_eq_true_eq, decide_eq_false_iff_not] at h ⊢
    omega
  · intro c h
    simp only [Unicode.ascii, decide_eq_true_eq, decide_eq_false_iff_not] at h ⊢
    omega
  · intro c h
    simp only [Unicode.ascii, decide_eq_true_eq, decide_eq_false_iff_not] at h ⊢
    omega
  · intro c h
    simp only [isDelimiterOptimized, Bool.or_eq_true, beq_iff_eq] at h
    rcases h with ((((rfl | rfl) | rfl) | rfl) | rfl) | rfl <;> decide
  · intro c h
    by_cases hu : Unicode.ascii.isUpper c = true
    · have h128 := ascii_of_isUpper hu
      have key : ∀ c : Char, c.toNat < 128 → Unicode.ascii.isUpper c = true →
          Unicode.ascii.toLower c = '_' → c = '_' := by
        apply ascii_forall
        decide
      exact key c h128 hu h
    · have : Unicode.ascii.toLower c = c := by
        simp only [Unicode.ascii, decide_eq_true_eq] at hu
        simp only [Unicode.ascii]
        rw [if_neg hu]
      rw [this] at h
      exact h

theorem Unicode.Categories.not_delimiter {U : Unicode} (hU : U.Categories) {c : Char}
    (h : U.isUpper c = true ∨ U.isLower c = true ∨ U.isNumber c = true) :
    isDelimiterOptimized c = false := by
  cases hd : isDelimiterOptimized c with
  | false => rfl
  | true =>
    obtain ⟨h1, h2, h3⟩ := hU.delimiter c hd
    rcases h with h | h | h
    · rw [h1] at h; cases h
    · rw [h2] at h; cases h
    · rw [h3] at h; cases h

theorem Unicode.Categories.upper_number {U : Unicode} (hU : U.Categories) {c : Char}
    (h : U.isUpper c = true) : U.isNumber c = false := by
  cases hn : U.isNumber c with
  | false => rfl
  | true => rw [hU.number_upper c hn] at h; cases h

theorem Unicode.Categories.lower_upper {U : Unicode} (hU : U.Categories) {c : Char}
    (h : U.isLower c = true) : U.isUpper c = false := by
  cases hn : U.isUpper c with
  | false => rfl
  | true => rw [hU.upper_lower c hn] at h; cases h

/-- C18: in the loop of `SnakeCase`, at every position after the first, with
tables whose categories are disjoint as Go's are: a digit directly after an
uppercase letter is written after exactly one separator; an uppercase letter
directly after a digit is written, in lower case, after exactly one separator;
and a digit directly after a lowercase letter is written with no separator
before it. -/
theorem loop_digit_boundaries (U : Unicode) (hU : U.Categories) (i : Nat) (prev curr : Char)
    (rest b : List Char) (hi : 0 < i) :
    (U.isUpper prev = true → U.isNumber curr = true →
      delimiterLoop U '_' U.toLower i prev (curr :: rest) b =
        delimiterLoop U '_' U.toLower (i + 1) curr rest (b ++ ['_', curr]))
    ∧ (U.isNumber prev = true → U.isUpper curr = true →
      delimiterLoop U '_' U.toLower i prev (curr :: rest) b =
        delimiterLoop U '_' U.toLower (i + 1) curr rest (b ++ ['_', U.toLower curr]))
    ∧ (U.isLower prev = true → U.isNumber curr = true →
      delimiterLoop U '_' U.toLower i prev (curr :: rest) b =
        delimiterLoop U '_' U.toLower (i + 1) curr rest (b ++ [curr])) := by
  refine ⟨fun hp hc => ?_, fun hp hc => ?_, fun hp hc => ?_⟩
  · exact loop_number_after_upper hi (hU.not_delimiter (Or.inr (Or.inr hc)))
      (hU.number_upper curr hc) hc hp (hU.upper_number hp) (hU.not_delimiter (Or.inl hp))
  · exact loop_upper_after_number hi (hU.not_delimiter (Or.inl hc)) hc (hU.upper_number hc)
      (hU.number_lower prev hp) (hU.number_upper prev hp) hp
  · exact loop_number_plain (hU.not_delimiter (Or.inr (Or.inr hc))) (hU.number_upper curr hc) hc
      (Or.inr (hU.lower_upper hp))

/-- C18 on `SomeID2Name` and `end123`, with the ASCII tables: the loop at the
`2` after `D`, at the `N` after `2`, and at the `1` after `d`. -/
theorem loop_digit_boundaries_witness :
    delimiterLoop Unicode.ascii '_' Unicode.ascii.toLower 6 'D' "2Name".toList "some_id".toList
      = delimiterLoop Unicode.ascii '_' Unicode.ascii.toLower 7 '2' "Name".toList
          "some_id_2".toList
    ∧ delimiterLoop Unicode.ascii '_' Unicode.ascii.toLower 7 '2' "Name".toList
          "some_id_2".toList
      = delimiterLoop Unicode.ascii '_' Unicode.ascii.toLower 8 'N' "ame".toList
          "some_id_2_n".toList
    ∧ delimiterLoop Unicode.ascii '_' Unicode.ascii.toLower 3 'd' "123".toList "end".toList
      = delimiterLoop Unicode.ascii '_' Unicode.ascii.toLower 4 '1' "23".toList "end1".toList
    ∧ SnakeCase Unicode.ascii "SomeID2Name" = "some_id_2_name" :=
  ⟨(loop_digit_boundaries Unicode.ascii ascii_categories 6 'D' '2' "Name".toList
      "some_id".toList (by decide)).1 (by decide) (by decide),
   (loop_digit_boundaries Unicode.ascii ascii_categories 7 '2' 'N' "ame".toList
      "some_id_2".toList (by decide)).2.1 (by decide) (by decide),
   (loop_digit_boundaries Unicode.ascii ascii_categories 3 'd' '1' "23".toList
      "end".toList (by decide)).2.2 (by decide) (by decide),
   by decide⟩

/-- C18, counterexample: in the test string `WordWithNumbersAtEnd123` the
letter `d` is directly followed by the digit `1`, and `SnakeCase` writes no
separator between them. -/
theorem SnakeCase_letter_digit_unseparated :
    SnakeCase Unicode.ascii "WordWithNumbersAtEnd123" = "word_with_numbers_at_end123" := by
  decide

/-- What the loop writes for a rune that is no delimiter: the separators, and
then the rune itself, a number as it is and any other rune with its case
adjusted. -/
theorem loop_rune (U : Unicode) (d : Char) (adj : Char → Char) (i : Nat)
    (prev curr : Char) (rest b : List Char) (hc : isDelimiterOptimized curr = false) :
    delimiterLoop U d adj i prev (curr :: rest) b
      = delimiterLoop U d adj (i + 1) curr rest
          (b ++ separatorsBefore U d i prev curr rest
            ++ [if U.isNumber curr then curr else adj curr]) := by
  simp only [delimiterLoop, hc, separatorsBefore, Bool.false_eq_true, if_false]
  congr 1
  split_ifs <;> simp_all

theorem separatorsBefore_first (U : Unicode) (d : Char) (prev curr : Char) (rest : List Char) :
    separatorsBefore U d 0 prev curr rest = [] := by
  simp [separatorsBefore]

theorem separatorsBefore_plain (U : Unicode) (d : Char) (i : Nat) (prev curr : Char)
    (rest : List Char) (h1 : U.isUpper prev = false) (h2 : U.isLower prev = false)
    (h3 : U.isNumber prev = false) : separatorsBefore U d i prev curr rest = [] := by
  simp [separatorsBefore, h1, h2, h3]

theorem separatorsBefore_mem (U : Unicode) (d : Char) (i : Nat) (prev curr : Char)
    (rest : List Char) : ∀ y ∈ separatorsBefore U d i prev curr rest, y = d := by
  intro y hy
  simp only [separatorsBefore] at hy
  split_ifs at hy <;> simp_all

/-- The rune written for a rune that is no delimiter is not the underscore. -/
theorem written_ne_underscore {U : Unicode} (hU : U.Categories) {curr : Char}
    (hc : isDelimiterOptimized curr = false) :
    (if U.isNumber curr then curr else U.toLower curr) ≠ '_' := by
  have h0 : curr ≠ '_' := by
    intro h
    rw [h] at hc
    exact absurd hc (by decide)
  split
  · exact h0
  · intro h
    exact h0 (hU.toLower_underscore curr h)

theorem getLast?_append_singleton (l : List Char) (x : Char) :
    (l ++ [x]).getLast? = some x := by
  simp

/-- One step of the loop keeps the invariant of the builder. -/
theorem builderInv_step {U : Unicode} (hU : U.Categories) (i : Nat) (prev curr : Char)
    (rest b : List Char) (h : builderInv i prev b) :
    ∃ b', delimiterLoop U '_' U.toLower i prev (curr :: rest) b
        = delimiterLoop U '_' U.toLower (i + 1) curr rest b'
      ∧ builderInv (i + 1) curr b'
      ∧ (b ≠ [] → b' ≠ []) ∧ (isDelimiterOptimized curr = false → b' ≠ []) := by
  obtain ⟨hhead, hzero, hdel, hrune⟩ := h
  cases hc : isDelimiterOptimized curr with
  | true =>
    refine ⟨_, loop_delimiter hc, ?_, ?_, by intro h; cases h⟩
    · by_cases hw : 0 < i ∧ isDelimiterOptimized prev = false
      · obtain ⟨hb, _⟩ := hrune hw.1 hw.2
        rw [if_pos hw]
        refine ⟨?_, by omega, (fun _ _ _ => getLast?_append_singleton b '_'),
          (fun _ hx => by rw [hc] at hx; cases hx)⟩
        cases b with
        | nil => exact absurd rfl hb
        | cons x t => simpa using hhead
      · rw [if_neg hw]
        refine ⟨hhead, by omega, (fun _ _ hb => ?_), (fun _ hx => by rw [hc] at hx; cases hx)⟩
        by_cases hi : 0 < i
        · cases hp : isDelimiterOptimized prev with
          | true => exact hdel hi hp hb
          | false => exact absurd ⟨hi, hp⟩ hw
        · exact absurd (hzero (by omega)) hb
    · intro hb
      split
      · simp
      · exact hb
  | false =>
    have hx := written_ne_underscore hU hc
    refine ⟨_, loop_rune U '_' U.toLower i prev curr rest b hc, ?_, by simp, by simp⟩
    refine ⟨?_, by omega, (fun _ hx' => by rw [hc] at hx'; cases hx'),
      (fun _ _ => ⟨by simp, ?_⟩)⟩
    · cases b with
      | cons y t => simpa using hhead
      | nil =>
        have hsep : separatorsBefore U '_' i prev curr rest = [] := by
          by_cases hi : 0 < i
          · cases hp : isDelimiterOptimized prev with
            | true =>
              obtain ⟨p1, p2, p3⟩ := hU.delimiter prev hp
              exact separatorsBefore_plain U '_' i prev curr rest p1 p2 p3
            | false => exact absurd rfl (hrune hi hp).1
          · have : i = 0 := by omega
            subst this
            exact separatorsBefore_first U '_' prev curr rest
        rw [hsep]
        simp only [List.nil_append, List.head?_cons, ne_eq, Option.some.injEq]
        exact hx
    · rw [getLast?_append_singleton]
      simp only [ne_eq, Option.some.injEq]
      exact hx

/-- The output of the loop does not begin with `_`; it does not end with `_`
when the last rune is no delimiter, and it does when the last rune is a
delimiter and the output is not empty. -/
theorem loop_ends {U : Unicode} (hU : U.Categories) :
    ∀ (runes : List Char) (i : Nat) (prev : Char) (b : List Char), builderInv i prev b →
      (delimiterLoop U '_' U.toLower i prev runes b).head? ≠ some '_'
      ∧ ∀ h : runes ≠ [],
        (isDelimiterOptimized (runes.getLast h) = false →
          (delimiterLoop U '_' U.toLower i prev runes b).getLast? ≠ some '_')
        ∧ (isDelimiterOptimized (runes.getLast h) = true →
          delimiterLoop U '_' U.toLower i prev runes b ≠ [] →
          (delimiterLoop U '_' U.toLower i prev runes b).getLast? = some '_')
  | [], i, prev, b, h => ⟨by simpa [delimiterLoop] using h.1, fun h0 => absurd rfl h0⟩
  | curr :: rest, i, prev, b, h => by
    obtain ⟨b', e, hinv, _, _⟩ := builderInv_step hU i prev curr rest b h
    rw [e]
    obtain ⟨ih1, ih2⟩ := loop_ends hU rest (i + 1) curr b' hinv
    refine ⟨ih1, fun _ => ?_⟩
    cases rest with
    | nil =>
      simp only [delimiterLoop, List.getLast_singleton]
      obtain ⟨_, _, k3, k4⟩ := hinv
      exact ⟨fun hc => (k4 (by omega) hc).2, fun hc hb => k3 (by omega) hc hb⟩
    | cons c2 rest2 =>
      have := ih2 (List.cons_ne_nil _ _)
      rw [List.getLast_cons (List.cons_ne_nil c2 rest2)]
      exact this

/-- The output of the loop is not empty when a rune is no delimiter. -/
theorem loop_ne_nil {U : Unicode} (hU : U.Categories) :
    ∀ (runes : List Char) (i : Nat) (prev : Char) (b : List Char), builderInv i prev b →
      (b ≠ [] ∨ ∃ x ∈ runes, isDelimiterOptimized x = false) →
      delimiterLoop U '_' U.toLower i prev runes b ≠ []
  | [], i, prev, b, _, h => by
    rcases h with h | ⟨x, hx, _⟩
    · simpa [delimiterLoop] using h
    · cases hx
  | curr :: rest, i, prev, b, hinv, h => by
    obtain ⟨b', e, hinv', k1, k2⟩ := builderInv_step hU i prev curr rest b hinv
    rw [e]
    apply loop_ne_nil hU rest (i + 1) curr b' hinv'
    rcases h with h | ⟨x, hx, hd⟩
    · exact Or.inl (k1 h)
    · rcases List.mem_cons.mp hx with rfl | hx
      · exact Or.inl (k2 hd)
      · exact Or.inr ⟨x, hx, hd⟩

/-- The ends of the output of `SnakeCase`, for every input string, with tables
whose categories are disjoint as Go's are: the output does not begin with `_`;
it does not end with `_` when the input, trimmed of white space, does not end
with a delimiter; and it does end with `_` when the trimmed input ends with a
delimiter (a hyphen or an underscore, which `strings.TrimSpace` keeps) and
holds a rune that is none. -/
theorem SnakeCase_ends (U : Unicode) (hU : U.Categories) (s : String) :
    (SnakeCase U s).toList.head? ≠ some '_'
    ∧ (∀ c, (trimSpace U s.toList).getLast? = some c → isDelimiterOptimized c = false →
        (SnakeCase U s).toList.getLast? ≠ some '_')
    ∧ (∀ c, (trimSpace U s.toList).getLast? = some c → isDelimiterOptimized c = true →
        (∃ x ∈ trimSpace U s.toList, isDelimiterOptimized x = false) →
        (SnakeCase U s).toList.getLast? = some '_') := by
  have hinv : builderInv 0 (Char.ofNat 0) [] :=
    ⟨by simp, fun _ => rfl, fun h => absurd h (by omega), fun h => absurd h (by omega)⟩
  by_cases hr : trimSpace U s.toList = []
  · have e : (SnakeCase U s).toList = [] := by
      simp only [SnakeCase, delimiterCase, hr, if_true]
      rfl
    rw [e, hr]
    exact ⟨by simp, by intro c h; simp at h, by intro c h; simp at h⟩
  · have e : (SnakeCase U s).toList
        = delimiterLoop U '_' U.toLower 0 (Char.ofNat 0) (trimSpace U s.toList) [] := by
      simp only [SnakeCase, delimiterCase, if_neg hr, Bool.false_eq_true, if_false]
      rfl
    obtain ⟨k1, k2⟩ := loop_ends hU (trimSpace U s.toList) 0 (Char.ofNat 0) [] hinv
    obtain ⟨k3, k4⟩ := k2 hr
    rw [e]
    refine ⟨k1, fun c hc hd => ?_, fun c hc hd hx => ?_⟩
    · rw [List.getLast?_eq_getLast _ hr, Option.some.injEq] at hc
      exact k3 (by rw [hc]; exact hd)
    · rw [List.getLast?_eq_getLast _ hr, Option.some.injEq] at hc
      exact k4 (by rw [hc]; exact hd) (loop_ne_nil hU _ 0 _ [] hinv (Or.inr hx))

/-- The ends of the output on a name with a leading hyphen, a name between
spaces and a name with a trailing hyphen, with the ASCII tables. -/
theorem SnakeCase_ends_witness :
    (SnakeCase Unicode.ascii "-name").toList.head? ≠ some '_'
    ∧ (SnakeCase Unicode.ascii " name ").toList.getLast? ≠ some '_'
    ∧ (SnakeCase Unicode.ascii "name-").toList.getLast? = some '_' :=
  ⟨(SnakeCase_ends Unicode.ascii ascii_categories "-name").1,
   (SnakeCase_ends Unicode.ascii ascii_categories " name ").2.1 'e' (by decide) (by decide),
   (SnakeCase_ends Unicode.ascii ascii_categories "name-").2.2 '-' (by decide) (by decide)
     ⟨'n', by decide, by decide⟩⟩

/-- C20 (the code at the failing input): a trailing hyphen and a trailing
underscore come out as a trailing `_`, and `__init__` comes out as `init_`,
whereas the same delimiters at the start of the name are dropped (the guard
`i > 0 && !isDelimiterOptimized(prev)` of the delimiter branch) and trailing
white space is trimmed: the output ends with the separator. -/
theorem SnakeCase_trailing_separator :
    SnakeCase Unicode.ascii "name-" = "name_"
    ∧ SnakeCase Unicode.ascii "name_" = "name_"
    ∧ SnakeCase Unicode.ascii "__init__" = "init_"
    ∧ SnakeCase Unicode.ascii "-name" = "name"
    ∧ SnakeCase Unicode.ascii "_name" = "name"
    ∧ SnakeCase Unicode.ascii " name " = "name" := by
  decide

/-! ### A nil value, a json tag with options -/

/-- C27: censoring an attribute that holds no value panics.  With debug mode
off, for every key `k` and every key set, `censorAttribute` of `(k, nil)` (as
`slog.Any(k, nil)` builds it, for a nil error) does not return:
`reflect.ValueOf(nil)` is the zero `reflect.Value`, and `clone` calls
`src.Type()` on it.  `Handle` of a record with such an attribute panics as
well, whatever the context holds. -/
theorem censorAttribute_nil_panics {ρ : Type} (E : Env) (S : Slog)
    (sink : Memory → Option Context → Record → ρ) (sensitiveKeys : List String) (k : String) :
    censorAttribute E S ⟨sink, false, sensitiveKeys⟩ (k, .any .invalid) = none
    ∧ ∀ (m : Memory) (ctx : Option Context) (t level : Int) (msg : String) (pc : Nat),
        Handle E S m ⟨sink, false, sensitiveKeys⟩ ctx ⟨t, level, msg, pc, [(k, .any .invalid)]⟩
          = none := by
  have h0 : censorAttribute E S (⟨sink, false, sensitiveKeys⟩ : censoringHandler ρ)
      (k, .any .invalid) = none := by
    simp only [censorAttribute, Bool.false_eq_true, if_false]
    rw [clone_invalid (show depthReached none = false from rfl)]
  refine ⟨h0, fun m ctx t level msg pc => ?_⟩
  rw [Handle_eq]
  simp only [forEach, censorOne, h0]
  cases forEach (censorOne E S (⟨sink, false, sensitiveKeys⟩ : censoringHandler ρ))
    (m.read (getAttrsFromContext ctx)) <;> rfl

/-- C30: a json tag with options does not name the field by its alias.  The
field `Password` with the tag `json:"password,omitempty"` is cloned under the
name `password,omitempty`, which is not in the built-in key set, and keeps its
value; with the plain tag `json:"password"` it is redacted. -/
theorem clone_tag_with_options_kept :
    clone sampleEnv blackList none false "login"
        (.struct [⟨"Password", "password,omitempty", "", true, .str "secret123"⟩]) ""
      = some (.struct [⟨"Password", "password,omitempty", "", true, .str "secret123"⟩])
    ∧ clone sampleEnv blackList none false "login"
        (.struct [⟨"Password", "password", "", true, .str "secret123"⟩]) ""
      = some (.struct [⟨"Password", "password", "", true, .str "*"⟩]) := by
  have h0 : depthReached none = false := rfl
  have e1 : clone sampleEnv blackList (some 0) false "password,omitempty" (.str "secret123") ""
      = some (.str "secret123") :=
    clone_str_verbatim _ _ (by decide) (by decide) (by intro v h; cases h)
  have e2 : clone sampleEnv blackList (some 0) false "password" (.str "secret123") ""
      = some (.str "*") := clone_str_redact rfl (Or.inl (by decide))
  constructor
  · rw [clone_struct h0]
    simp only [forEach, nextDepth, Bool.not_true, Bool.false_eq_true, false_and, if_false,
      ne_eq, String.reduceEq, not_false_eq_true, if_true, e1, Option.map_some', assign]
  · rw [clone_struct h0]
    simp only [forEach, nextDepth, Bool.not_true, Bool.false_eq_true, false_and, if_false,
      ne_eq, String.reduceEq, not_false_eq_true, if_true, e2, Option.map_some', assign]

/-! ### The entries of an embedded document -/

/-- C26: for a string that parses as a JSON object, held under a field that is
not sensitive and not tagged, in a call below the depth bound, `clone` returns
the text of a document with as many entries as the input, in which an entry
`(k, v)` whose key is not sensitive holds the result of `clone` applied to `v`
with the field name `k` and no tag, and an entry whose key is sensitive holds
the marker, whatever `v` is (a string, a number, an object). -/
theorem clone_json_entries (E : Env) (sensitiveKeys : List String) (hE : E.WellFormed)
    (ctx : Option Nat) (canAddr : Bool) (fieldName s tag : String)
    (es : List (String × Value))
    (hdepth : depthReached ctx = false)
    (hkey : SnakeCase E.unicode fieldName ∉ sensitiveKeys)
    (htag : tag ≠ "true")
    (hparse : E.json.unmarshal s = some (.map es)) :
    ∃ dst, clone E sensitiveKeys ctx canAddr fieldName (.str s) tag
        = some (match E.json.marshal (.map dst) with
          | some newJSON => .str newJSON
          | none => .str s)
      ∧ dst.length = es.length
      ∧ ∀ (i : Nat) (k : String) (v : Value), es[i]? = some (k, v) →
          (SnakeCase E.unicode k ∉ sensitiveKeys →
            ∃ c, clone E sensitiveKeys (some (nextDepth ctx)) false k v "" = some c
              ∧ dst[i]? = some (k, assign v c))
          ∧ (SnakeCase E.unicode k ∈ sensitiveKeys →
            dst[i]? = some (k, assign v (.str "*"))) := by
  have hs : ¬ (SnakeCase E.unicode fieldName ∈ sensitiveKeys ∨ tag = "true") := by
    simp [hkey, htag]
  obtain ⟨r, hr⟩ := clone_total (K := sensitiveKeys) hE ctx canAddr fieldName (.str s) tag rfl
  have hc := clone_str_entries (a := canAddr) hdepth s hs es hparse
  cases hdst : cloneEntries E sensitiveKeys ctx es with
  | none => rw [hc, hdst] at hr; cases hr
  | some dst =>
    refine ⟨dst, by rw [hc, hdst]; rfl, ?_, ?_⟩
    · exact (forEach_eq_some.mp hdst).length_eq.symm
    · intro i k v hi
      obtain ⟨y, hy, hrel⟩ := forall₂_getElem? (forEach_eq_some.mp hdst) i (k, v) hi
      constructor
      · intro hk
        rw [if_neg hk] at hrel
        cases hcl : clone E sensitiveKeys (some (nextDepth ctx)) false k v "" with
        | none => rw [hcl] at hrel; cases hrel
        | some c =>
          rw [hcl] at hrel
          simp only [Option.map_some', Option.some.injEq] at hrel
          exact ⟨c, rfl, by rw [hy, ← hrel]⟩
      · intro hk
        rw [if_pos hk] at hrel
        simp only [Option.some.injEq] at hrel
        rw [hy, ← hrel]
        rfl

/-- C26 on the document of the spec, `preferences` holding
`{"email":"a@b.com","theme":"dark"}`, under the built-in key set: the entry
`email` holds the marker and the entry `theme` the clone of `"dark"` under the
name `theme`. -/
theorem clone_json_entries_witness :
    ∃ dst, clone sampleEnv blackList none false "preferences"
        (.str "\x7b\"email\":\"a@b.com\",\"theme\":\"dark\"\x7d") ""
        = some (match sampleEnv.json.marshal (.map dst) with
          | some newJSON => .str newJSON
          | none => .str "\x7b\"email\":\"a@b.com\",\"theme\":\"dark\"\x7d")
      ∧ dst[0]? = some ("email", .iface (some (.str "*")))
      ∧ ∃ c, clone sampleEnv blackList (some 0) false "theme" (.iface (some (.str "dark"))) ""
          = some c ∧ dst[1]? = some ("theme", assign (.iface (some (.str "dark"))) c) := by
  obtain ⟨dst, h1, _, h3⟩ := clone_json_entries sampleEnv blackList sampleEnv_wellFormed none
    false "preferences" "\x7b\"email\":\"a@b.com\",\"theme\":\"dark\"\x7d" ""
    [("email", .iface (some (.str "a@b.com"))), ("theme", .iface (some (.str "dark")))]
    rfl (by decide) (by decide) rfl
  exact ⟨dst, h1, (h3 0 _ _ rfl).2 (by decide), (h3 1 _ _ rfl).1 (by decide)⟩

/-- C26, counterexample: in the embedded document `{"cvv":123}` the number
under the sensitive key `cvv` is replaced by the marker, while `clone` applied
to the number with the field name `cvv` returns the number, and so does the
clone of the native map `{"cvv": 123}`. -/
theorem clone_json_number_redacted :
    clone sampleEnv blackList none false "payment" (.str "\x7b\"cvv\":123\x7d") ""
      = some (.str "\x7b\"cvv\":\"*\"\x7d")
    ∧ clone sampleEnv blackList (some 0) false "cvv" (.iface (some (.num .float 123))) ""
      = some (.num .float 123)
    ∧ clone sampleEnv blackList none false "payment"
        (.map [("cvv", .iface (some (.num .float 123)))]) ""
      = some (.map [("cvv", .iface (some (.num .float 123)))]) := by
  have h0 : depthReached none = false := rfl
  have e : clone sampleEnv blackList (some 0) false "cvv" (.iface (some (.num .float 123))) ""
      = some (.num .float 123) := by
    rw [clone_iface (show depthReached (some 0) = false from rfl),
      clone_num (show depthReached (some (nextDepth (some 0))) = false from rfl)]
  refine ⟨?_, e, ?_⟩
  · rw [clone_str_entries h0 _ (by decide)
      [("cvv", .iface (some (.num .float 123)))] rfl]
    have hk : SnakeCase sampleEnv.unicode "cvv" ∈ blackList := by decide
    simp only [cloneEntries, forEach, hk, if_true, Option.map_some']
    rfl
  · rw [clone_map h0]
    simp only [forEach, nextDepth, e, Option.map_some', assign]

/-! ### `SnakeCase` on ASCII text -/

theorem dropWhile_congr {p q : Char → Bool} :
    ∀ (l : List Char), (∀ c ∈ l, p c = q c) → l.dropWhile p = l.dropWhile q
  | [], _ => rfl
  | c :: t, h => by
    have hc := h c (List.mem_cons_self _ _)
    simp only [List.dropWhile, hc]
    cases q c with
    | true => exact dropWhile_congr t (fun x hx => h x (List.mem_cons_of_mem _ hx))
    | false => rfl

theorem mem_of_mem_dropWhile {p : Char → Bool} {l : List Char} {c : Char}
    (h : c ∈ l.dropWhile p) : c ∈ l :=
  (List.dropWhile_suffix p).subset h

theorem mem_of_mem_trimSpace {U : Unicode} {l : List Char} {c : Char}
    (h : c ∈ trimSpace U l) : c ∈ l := by
  unfold trimSpace at h
  exact mem_of_mem_dropWhile (List.mem_reverse.mp (mem_of_mem_dropWhile (List.mem_reverse.mp h)))

/-- On ASCII runes, trimming depends on the ASCII part of the tables only. -/
theorem trimSpace_congr_ascii {U : Unicode} (hU : U.AgreesOnASCII) (l : List Char)
    (h : ∀ c ∈ l, c.toNat < 128) : trimSpace U l = trimSpace Unicode.ascii l := by
  have hs : ∀ c, c.toNat < 128 → U.isSpace c = Unicode.ascii.isSpace c :=
    fun c hc => (hU c hc).2.2.2.1
  unfold trimSpace
  rw [dropWhile_congr l (fun c hc => hs c (h c hc)),
    dropWhile_congr _ (fun c hc => hs c (h c (mem_of_mem_dropWhile (List.mem_reverse.mp hc))))]

/-- On ASCII runes, the loop depends on the ASCII part of the tables only. -/
theorem delimiterLoop_congr_ascii {U : Unicode} (hU : U.AgreesOnASCII) (d : Char) :
    ∀ (runes : List Char) (i : Nat) (prev : Char) (b : List Char),
      prev.toNat < 128 → (∀ c ∈ runes, c.toNat < 128) →
      delimiterLoop U d U.toLower i prev runes b
        = delimiterLoop Unicode.ascii d Unicode.ascii.toLower i prev runes b
  | [], _, _, _, _, _ => rfl
  | curr :: rest, i, prev, b, hp, h => by
    have hc := h curr (List.mem_cons_self _ _)
    obtain ⟨p1, p2, p3, _, _, _⟩ := hU prev hp
    obtain ⟨c1, _, c3, _, c5, _⟩ := hU curr hc
    have ih := fun b' => delimiterLoop_congr_ascii hU d rest (i + 1) curr b' hc
      (fun x hx => h x (List.mem_cons_of_mem _ hx))
    cases hd : isDelimiterOptimized curr with
    | true => rw [loop_delimiter hd, loop_delimiter hd, ih]
    | false =>
      have hsep : separatorsBefore U d i prev curr rest
          = separatorsBefore Unicode.ascii d i prev curr rest := by
        cases rest with
        | nil => simp only [separatorsBefore, p1, p2, p3, c1, c3]
        | cons next rest =>
          obtain ⟨_, n2, _⟩ :=
            hU next (h next (List.mem_cons_of_mem _ (List.mem_cons_self _ _)))
          simp only [separatorsBefore, p1, p2, p3, c1, c3, n2]
      rw [loop_rune U d U.toLower i prev curr rest b hd,
        loop_rune Unicode.ascii d Unicode.ascii.toLower i prev curr rest b hd, ih, hsep, c3, c5]

/-- On ASCII text, `SnakeCase` is the same with all tables that are Go's on
ASCII. -/
theorem SnakeCase_congr_ascii {U : Unicode} (hU : U.AgreesOnASCII) (s : String)
    (h : ∀ c ∈ s.toList, c.toNat < 128) : SnakeCase U s = SnakeCase Unicode.ascii s := by
  have ht := trimSpace_congr_ascii hU s.toList h
  simp only [SnakeCase, delimiterCase, ht, Bool.false_eq_true, if_false]
  split
  · rfl
  · rw [delimiterLoop_congr_ascii hU '_' _ 0 (Char.ofNat 0) [] (by decide)
      (fun c hc => h c (mem_of_mem_trimSpace hc))]

set_option maxRecDepth 100000 in
theorem blackList_upper_ascii :
    ∀ k ∈ blackList, (k.toList.all fun c => !Unicode.ascii.isNumber c) = true →
      SnakeCase Unicode.ascii (upperCase k) = k := by
  decide

set_option maxRecDepth 100000 in
theorem blackList_upper_chars :
    ∀ k ∈ blackList, ∀ c ∈ (upperCase k).toList, c.toNat < 128 := by
  decide

set_option maxRecDepth 100000 in
theorem blackList_canonical_ascii :
    ∀ k ∈ blackList, SnakeCase Unicode.ascii k = k ∧ ∀ c ∈ k.toList, c.toNat < 128 := by
  decide

/-- C22: key lookup is case-insensitive for the names of the built-in list
that hold no digit.  For every such name `k`, the all-uppercase spelling of `k`
normalizes to `k`, with any tables that are Go's on ASCII, so that a string
held under that spelling, in a call below the depth bound and with a key set
that holds `k`, is replaced by the marker. -/
theorem SnakeCase_upper_blackList (U : Unicode) (hU : U.AgreesOnASCII) (k : String)
    (hk : k ∈ blackList)
    (hdigit : ∀ c ∈ k.toList, Unicode.ascii.isNumber c = false) :
    SnakeCase U (upperCase k) = k
    ∧ ∀ (E : Env) (sensitiveKeys : List String) (ctx : Option Nat) (canAddr : Bool)
        (s tag : String), E.unicode = U → k ∈ sensitiveKeys → depthReached ctx = false →
        clone E sensitiveKeys ctx canAddr (upperCase k) (.str s) tag = some (.str "*") := by
  have h1 : SnakeCase U (upperCase k) = k := by
    rw [SnakeCase_congr_ascii hU _ (blackList_upper_chars k hk)]
    apply blackList_upper_ascii k hk
    simp only [List.all_eq_true, Bool.not_eq_true']
    exact hdigit
  refine ⟨h1, fun E K ctx a s t hE hK hd => ?_⟩
  exact clone_str_redact hd (Or.inl (by rw [hE, h1]; exact hK))

/-- C22 on `password` and `api_key`, with the ASCII tables and the built-in
key set. -/
theorem SnakeCase_upper_blackList_witness :
    SnakeCase Unicode.ascii "PASSWORD" = "password"
    ∧ SnakeCase Unicode.ascii "API_KEY" = "api_key"
    ∧ clone sampleEnv blackList none false "PASSWORD" (.str "secret123") ""
      = some (.str "*") :=
  ⟨(SnakeCase_upper_blackList Unicode.ascii ascii_agrees "password" (by decide)
      (by decide)).1,
   (SnakeCase_upper_blackList Unicode.ascii ascii_agrees "api_key" (by decide)
      (by decide)).1,
   (SnakeCase_upper_blackList Unicode.ascii ascii_agrees "password" (by decide)
      (by decide)).2 sampleEnv blackList none false "secret123" "" rfl (by decide) rfl⟩

/-- C22, counterexample: the name `cvv2` of the built-in list in upper case
normalizes to `cvv_2`, which is not in the list, and a string held under
`CVV2` is not redacted. -/
theorem SnakeCase_upper_digit_name :
    "cvv2" ∈ blackList
    ∧ SnakeCase Unicode.ascii (upperCase "cvv2") = "cvv_2"
    ∧ "cvv_2" ∉ blackList
    ∧ clone sampleEnv blackList none false "CVV2" (.str "123") "" = some (.str "123") :=
  ⟨by decide, by decide, by decide,
   clone_str_verbatim _ _ (by decide) (by decide) (by intro v h; cases h)⟩

/-! ### `New` and its options -/

theorem applyOptions_error {ε : Type} (bad : LoggerOption ε) (rest : List (LoggerOption ε))
    (e : ε) :
    ∀ (pre : List (LoggerOption ε)) (start o : optionsConfig),
      applyOptions start pre = .ok o → (bad o).2 = some e →
      applyOptions start (pre ++ bad :: rest) = .error e
  | [], start, o, hpre, hbad => by
    simp only [applyOptions, Except.ok.injEq] at hpre
    subst hpre
    simp only [List.nil_append, applyOptions]
    cases hb : bad start with
    | mk c r =>
      rw [hb] at hbad
      simp only at hbad
      subst hbad
      rfl
  | p :: pre, start, o, hpre, hbad => by
    simp only [List.cons_append, applyOptions] at hpre ⊢
    cases hp : p start with
    | mk c r =>
      rw [hp] at hpre
      cases r with
      | some err => simp at hpre
      | none =>
        simp only at hpre ⊢
        exact applyOptions_error bad rest e pre c o hpre hbad

theorem blackList_canonical {U : Unicode} (hU : U.AgreesOnASCII) :
    blackList.map (SnakeCase U) = blackList := by
  conv_rhs => rw [← List.map_id blackList]
  apply List.map_congr_left
  intro k hk
  obtain ⟨h1, h2⟩ := blackList_canonical_ascii k hk
  rw [SnakeCase_congr_ascii hU k h2, h1]
  rfl

/-- C23: for every list of extra keys `ks`, `New(cfg, WithSensitiveKeys(ks))`
returns a logger and no error, and the sensitive key set afterwards, which is
also the set of the handler of the logger, holds `SnakeCase(k)` for every `k`
in `ks`, every name of the built-in list verbatim, and nothing else, whatever
the set held before, with any tables that are Go's on ASCII. -/
theorem New_sensitive_keys {ε ρ : Type} (U : Unicode) (hU : U.AgreesOnASCII)
    (jsonHandler : Int → Bool → List Attr → Memory → Option Context → Record → ρ)
    (before : List String) (cfg : Config) (ks : List String) :
    ∃ logger, (New U jsonHandler before cfg [(WithSensitiveKeys ks : LoggerOption ε)]).1
        = .ok logger
      ∧ logger.handler.sensitiveKeys
        = (New U jsonHandler before cfg [(WithSensitiveKeys ks : LoggerOption ε)]).2
      ∧ ∀ x, x ∈ (New U jsonHandler before cfg [(WithSensitiveKeys ks : LoggerOption ε)]).2
          ↔ (∃ k ∈ ks, x = SnakeCase U k) ∨ x ∈ blackList := by
  refine ⟨_, rfl, rfl, fun x => ?_⟩
  simp only [New, applyOptions, WithSensitiveKeys, blackList_canonical hU, List.mem_append,
    List.mem_map]
  constructor
  · rintro (⟨k, hk, rfl⟩ | h)
    · exact Or.inl ⟨k, hk, rfl⟩
    · exact Or.inr h
  · rintro (⟨k, hk, rfl⟩ | h)
    · exact Or.inl ⟨k, hk, rfl⟩
    · exact Or.inr h

/-- C23 on the extra key `custom_secret`, with the ASCII tables: afterwards the
set holds `custom_secret`, `email` and `cc`, and does not hold `theme`. -/
theorem New_sensitive_keys_witness :
    "custom_secret" ∈ (New Unicode.ascii (fun _ _ _ _ _ r => r) ["stale"] ⟨"development",
        "example-app"⟩ [(WithSensitiveKeys ["custom_secret"] : LoggerOption String)]).2
    ∧ "email" ∈ (New Unicode.ascii (fun _ _ _ _ _ r => r) ["stale"] ⟨"development",
        "example-app"⟩ [(WithSensitiveKeys ["custom_secret"] : LoggerOption String)]).2
    ∧ "cc" ∈ (New Unicode.ascii (fun _ _ _ _ _ r => r) ["stale"] ⟨"development",
        "example-app"⟩ [(WithSensitiveKeys ["custom_secret"] : LoggerOption String)]).2
    ∧ "stale" ∉ (New Unicode.ascii (fun _ _ _ _ _ r => r) ["stale"] ⟨"development",
        "example-app"⟩ [(WithSensitiveKeys ["custom_secret"] : LoggerOption String)]).2 := by
  obtain ⟨_, _, _, h⟩ := New_sensitive_keys (ε := String) Unicode.ascii ascii_agrees
    (fun _ _ _ _ _ r => r) ["stale"] ⟨"development", "example-app"⟩ ["custom_secret"]
  refine ⟨(h _).mpr (Or.inl ⟨"custom_secret", by simp, by decide⟩),
    (h _).mpr (Or.inr (by decide)), (h _).mpr (Or.inr (by decide)), ?_⟩
  intro hx
  rcases (h _).mp hx with ⟨k, hk, he⟩ | hb
  · simp only [List.mem_singleton] at hk
    subst hk
    exact absurd he (by decide)
  · exact absurd hb (by decide)

/-- C24: when the options before `bad` return no error and `bad`, called on
the configuration they leave, returns the error `e`, `New` returns no logger
and an error that wraps `e`, whatever options follow `bad`, and the sensitive
key set of the package is what it was before the call; when every option
returns no error, `New` returns a logger and no error. -/
theorem New_option_error {ε ρ : Type} (U : Unicode)
    (jsonHandler : Int → Bool → List Attr → Memory → Option Context → Record → ρ)
    (before : List String) (cfg : Config)
    (pre : List (LoggerOption ε)) (bad : LoggerOption ε) (rest : List (LoggerOption ε))
    (o : optionsConfig) (e : ε)
    (hpre : applyOptions defaultOptions pre = .ok o) (hbad : (bad o).2 = some e) :
    New U jsonHandler before cfg (pre ++ bad :: rest)
      = (.error ⟨"failed to apply logger option: ", e⟩, before)
    ∧ ∃ logger, (New U jsonHandler before cfg pre).1 = .ok logger := by
  constructor
  · simp only [New, applyOptions_error bad rest e pre defaultOptions o hpre hbad]
  · simp only [New, hpre]
    exact ⟨_, rfl⟩

/-- C24 on a level option, an option that fails with `boom` and an option that
would add a key: the error wraps `boom`, and the key set keeps `stale`. -/
theorem New_option_error_witness :
    New Unicode.ascii (fun _ _ _ _ _ r => r) ["stale"] ⟨"development", "example-app"⟩
        [WithLevel 0, (fun cfg => (cfg, some "boom")), WithSensitiveKeys ["custom_secret"]]
      = ((.error ⟨"failed to apply logger option: ", "boom"⟩ :
          Except (WrappedError String) (Logger Record)), ["stale"]) :=
  (New_option_error Unicode.ascii (fun _ _ _ _ _ r => r) ["stale"]
    ⟨"development", "example-app"⟩ [WithLevel 0] (fun cfg => (cfg, some "boom"))
    [WithSensitiveKeys ["custom_secret"]] ⟨0, false, [], false, "*"⟩ "boom" rfl rfl).1

/-- C25: the option `WithDefaultRedactMessage` has no effect.  `New` builds
the same logger with it as without it, and the logger built with the message
`[REDACTED]` replaces a password by `*`: the configuration field is written by
the option and read by nothing, and `clone` writes the constant
`DefaultRedactMessage`. -/
theorem New_redact_message_ignored {ρ : Type}
    (jsonHandler : Int → Bool → List Attr → Memory → Option Context → Record → ρ)
    (before : List String) (cfg : Config) (m : String) :
    New Unicode.ascii jsonHandler before cfg [(WithDefaultRedactMessage m : LoggerOption String)]
      = New Unicode.ascii jsonHandler before cfg ([] : List (LoggerOption String))
    ∧ ∀ logger, (New Unicode.ascii jsonHandler before cfg
          [(WithDefaultRedactMessage "[REDACTED]" : LoggerOption String)]).1 = .ok logger →
        censorAttribute sampleEnv sampleSlog logger.handler ("password", .any (.str "secret123"))
          = some ("password", .any (.str "*")) := by
  refine ⟨rfl, fun logger h => ?_⟩
  simp only [New, applyOptions, WithDefaultRedactMessage, Except.ok.injEq] at h
  subst h
  simp only [censorAttribute, defaultOptions, Bool.false_eq_true, if_false]
  rw [clone_str_redact (show depthReached none = false from rfl) (Or.inl (by
    rw [blackList_canonical ascii_agrees]
    decide))]
  rfl

/-! ### Redacted secrets do not reach the output -/

theorem forEach_eq_of_zip {α β : Type} {f g : α → Option β} :
    ∀ (xs ys : List α), xs.length = ys.length → (∀ p ∈ xs.zip ys, f p.1 = g p.2) →
      forEach f xs = forEach g ys
  | [], [], _, _ => rfl
  | [], _ :: _, h, _ => by simp at h
  | _ :: _, [], h, _ => by simp at h
  | x :: xs, y :: ys, hl, h => by
    have h1 := h (x, y) (by simp)
    have h2 := forEach_eq_of_zip xs ys (by simpa using hl)
      (fun p hp => h p (by simp only [List.zip_cons_cons]; exact List.mem_cons_of_mem _ hp))
    simp only [forEach]
    simp only at h1
    rw [h1, h2]

theorem zeroFields_eq_of_zip :
    ∀ (fs gs : List (Field Value)), fs.length = gs.length →
      (∀ p ∈ fs.zip gs, ({ p.1 with value := zeroOf p.1.value } : Field Value)
        = { p.2 with value := zeroOf p.2.value }) →
      zeroFields fs = zeroFields gs
  | [], [], _, _ => rfl
  | [], _ :: _, h, _ => by simp at h
  | _ :: _, [], h, _ => by simp at h
  | x :: xs, y :: ys, hl, h => by
    have h1 := h (x, y) (by simp)
    have h2 := zeroFields_eq_of_zip xs ys (by simpa using hl)
      (fun p hp => h p (by simp only [List.zip_cons_cons]; exact List.mem_cons_of_mem _ hp))
    simp only [zeroFields]
    simp only at h1
    rw [h1, h2]

theorem zeroList_eq_of_zip :
    ∀ (xs ys : List Value), xs.length = ys.length →
      (∀ p ∈ xs.zip ys, zeroOf p.1 = zeroOf p.2) → zeroList xs = zeroList ys
  | [], [], _, _ => rfl
  | [], _ :: _, h, _ => by simp at h
  | _ :: _, [], h, _ => by simp at h
  | x :: xs, y :: ys, hl, h => by
    have h1 := h (x, y) (by simp)
    have h2 := zeroList_eq_of_zip xs ys (by simpa using hl)
      (fun p hp => h p (by simp only [List.zip_cons_cons]; exact List.mem_cons_of_mem _ hp))
    simp only [zeroList]
    simp only at h1
    rw [h1, h2]

/-- Values that are alike are of the same kind, so that a slot of their type
holds the same after the same value is stored in it. -/
theorem assign_of_alike {E : Env} {K : List String} {n : Nat} {f t : String} {v w : Value}
    (h : alike E K n f t v w = true) (c : Value) : assign v c = assign w c := by
  cases n with
  | zero => simp [alike] at h
  | succ n => cases v <;> cases w <;> first | rfl | (simp [alike] at h)

/-- Values that are alike have the same zero value. -/
theorem zeroOf_of_alike (E : Env) (K : List String) :
    ∀ (n : Nat) (f t : String) (v w : Value), alike E K n f t v w = true →
      zeroOf v = zeroOf w := by
  intro n
  induction n with
  | zero => intro f t v w h; simp [alike] at h
  | succ n ih =>
    intro f t v w h
    cases v <;> cases w <;> first
      | rfl
      | (simp only [alike, Bool.false_eq_true] at h)
    case num.num k r k' r' =>
      simp only [alike, decide_eq_true_eq] at h
      rw [h.1]
      rfl
    case struct.struct fs gs =>
      simp only [alike, Bool.and_eq_true, decide_eq_true_eq, List.all_eq_true] at h
      simp only [zeroOf]
      congr 1
      apply zeroFields_eq_of_zip fs gs h.1
      intro p hp
      obtain ⟨⟨e1, e2, e3, e4⟩, hv⟩ := h.2 p hp
      have := ih _ _ _ _ hv
      cases hp1 : p.1 with
      | mk a1 a2 a3 a4 a5 =>
        cases hp2 : p.2 with
        | mk b1 b2 b3 b4 b5 =>
          rw [hp1, hp2] at e1 e2 e3 e4 this
          simp only at e1 e2 e3 e4 this
          simp only [e1, e2, e3, e4, this]
    case array.array xs ys =>
      simp only [alike, Bool.and_eq_true, decide_eq_true_eq, List.all_eq_true] at h
      simp only [zeroOf]
      congr 1
      exact zeroList_eq_of_zip xs ys h.1 (fun p hp => ih _ _ _ _ (h.2 p hp))

/-- A field that cannot be addressed is copied or zeroed to the same value for
values that are alike. -/
theorem unaddressable_of_alike {E : Env} {K : List String} {n : Nat} {f t : String}
    {v w : Value} (hv : alike E K n f t v w = true) (a1 a2 a3 : String) (a4 : Bool) :
    (fun (x : Value) =>
      match x with
      | .num k raw => some (⟨a1, a2, a3, a4, .num k raw⟩ : Field Value)
      | .bool b => some ⟨a1, a2, a3, a4, .bool b⟩
      | x => some ⟨a1, a2, a3, a4, zeroOf x⟩) v
    = (fun (x : Value) =>
      match x with
      | .num k raw => some (⟨a1, a2, a3, a4, .num k raw⟩ : Field Value)
      | .bool b => some ⟨a1, a2, a3, a4, .bool b⟩
      | x => some ⟨a1, a2, a3, a4, zeroOf x⟩) w := by
  cases n with
  | zero => simp [alike] at hv
  | succ n =>
    cases v <;> cases w <;> first
      | rfl
      | (simp only [alike, Bool.false_eq_true] at hv; done)
      | (simp only [alike, decide_eq_true_eq] at hv; subst hv; rfl)
      | (simp only [alike, decide_eq_true_eq] at hv; obtain ⟨h1, h2⟩ := hv; subst h1 h2; rfl)
      | (have hz := zeroOf_of_alike E K _ _ _ _ _ hv; simp only [hz])

/-- Within the bound, values that are alike have the same clone. -/
theorem clone_alike_aux (E : Env) (K : List String) :
    ∀ (n : Nat) (ctx : Option Nat) (a : Bool) (f t : String) (v w : Value),
      alike E K n f t v w = true → n + nextDepth ctx ≤ maxDepth + 1 →
      clone E K ctx a f v t = clone E K ctx a f w t := by
  intro n
  induction n with
  | zero => intro ctx a f t v w h; simp [alike] at h
  | succ n ih =>
    intro ctx a f t v w h hd
    have hr : depthReached ctx = false := by
      cases hx : depthReached ctx with
      | false => rfl
      | true => have := depthReached_iff.mp hx; omega
    have hd' : n + nextDepth (some (nextDepth ctx)) ≤ maxDepth + 1 := by
      rw [nextDepth_some]; omega
    cases v <;> cases w <;> first
      | rfl
      | (simp only [alike, Bool.false_eq_true] at h; done)
      | skip
    case bool.bool b b' =>
      simp only [alike, decide_eq_true_eq] at h
      rw [h]
    case num.num k r k' r' =>
      simp only [alike, decide_eq_true_eq] at h
      rw [h.1, h.2]
    case str.str s s' =>
      simp only [alike, Bool.or_eq_true, decide_eq_true_eq] at h
      rcases h with h | h
      · rw [clone_str_redact hr h, clone_str_redact hr h]
      · rw [h]
    case handle.handle p p' =>
      simp only [alike, decide_eq_true_eq] at h
      rw [h]
    case struct.struct fs gs =>
      simp only [alike, Bool.and_eq_true, decide_eq_true_eq, List.all_eq_true] at h
      rw [clone_struct hr, clone_struct hr]
      congr 1
      apply forEach_eq_of_zip fs gs h.1
      intro p hp
      obtain ⟨⟨e1, e2, e3, e4⟩, hv⟩ := h.2 p hp
      have hc := ih (some (nextDepth ctx)) a _ _ _ _ hv hd'
      have ha := assign_of_alike hv
      cases hp1 : p.1 with
      | mk a1 a2 a3 a4 a5 =>
        cases hp2 : p.2 with
        | mk b1 b2 b3 b4 b5 =>
          rw [hp1, hp2] at e1 e2 e3 e4 hc ha hv
          simp only at e1 e2 e3 e4 hc ha hv
          subst e1 e2 e3 e4
          simp only
          split
          · exact unaddressable_of_alike hv a1 a2 a3 a4
          · rw [hc]
            cases clone E K (some (nextDepth ctx)) a (if a2 ≠ "" then a2 else a1) b5 a3 with
            | none => rfl
            | some c => simp only [Option.map_some', ha]
    case map.map es gs =>
      simp only [alike, Bool.and_eq_true, decide_eq_true_eq, List.all_eq_true] at h
      rw [clone_map hr, clone_map hr]
      congr 1
      apply forEach_eq_of_zip es gs h.1
      intro p hp
      obtain ⟨e1, hv⟩ := h.2 p hp
      have hc := ih (some (nextDepth ctx)) false _ _ _ _ hv hd'
      have ha := assign_of_alike hv
      rw [hc, ← e1]
      cases clone E K (some (nextDepth ctx)) false p.1.1 p.2.2 "" with
      | none => rfl
      | some c => simp only [Option.map_some', ha]
    case slice.slice xs ys =>
      simp only [alike, Bool.and_eq_true, decide_eq_true_eq, List.all_eq_true] at h
      rw [clone_slice hr, clone_slice hr]
      congr 1
      apply forEach_eq_of_zip xs ys h.1
      intro p hp
      have hv := h.2 p hp
      have hc := ih (some (nextDepth ctx)) true _ _ _ _ hv hd'
      have ha := assign_of_alike hv
      rw [hc]
      cases clone E K (some (nextDepth ctx)) true f p.2 "" with
      | none => rfl
      | some c => simp only [Option.map_some', ha]
    case array.array xs ys =>
      simp only [alike, Bool.and_eq_true, decide_eq_true_eq, List.all_eq_true] at h
      rw [clone_array hr, clone_array hr]
      by_cases h0 : xs.length = 0
      · have hx : xs = [] := List.length_eq_zero.mp h0
        have hy : ys = [] := List.length_eq_zero.mp (by rw [← h.1]; exact h0)
        subst hx hy
        rfl
      · rw [if_neg h0, if_neg (by rw [← h.1]; exact h0)]
        congr 1
        apply forEach_eq_of_zip xs ys h.1
        intro p hp
        have hv := h.2 p hp
        have hc := ih (some (nextDepth ctx)) a _ _ _ _ hv hd'
        have ha := assign_of_alike hv
        rw [hc]
        cases clone E K (some (nextDepth ctx)) a f p.2 "" with
        | none => rfl
        | some c => simp only [Option.map_some', ha]
    case ref.ref p p' =>
      simp only [alike] at h
      rw [clone_ref hr, clone_ref hr, ih (some (nextDepth ctx)) true _ _ _ _ h hd']
      cases clone E K (some (nextDepth ctx)) true f (E.heap p') t with
      | none => rfl
      | some c => simp only [Option.map_some', assign_of_alike h]
    case box.box x y =>
      simp only [alike] at h
      rw [clone_box hr, clone_box hr, ih (some (nextDepth ctx)) true _ _ _ _ h hd']
      cases clone E K (some (nextDepth ctx)) true f y t with
      | none => rfl
      | some c => simp only [Option.map_some', assign_of_alike h]
    case iface.iface x y =>
      cases x <;> cases y <;> first
        | rfl
        | (simp only [alike, Bool.false_eq_true] at h; done)
        | skip
      case some.some x y =>
        simp only [alike] at h
        rw [clone_iface hr, clone_iface hr]
        exact ih (some (nextDepth ctx)) false _ _ _ _ h hd'

/-- Strings that `clone` redacts do not influence the output.  Two values that
have the same shape, `n` levels deep, and differ only in the contents of
strings at which the test of the String case succeeds (the name that `clone`
carries there is sensitive, or the tag that it carries there is `true`) have
equal clones under the same key set, in every call that leaves room for `n`
levels below the depth bound (at the top, `n ≤ 33`).  The elements of a list
and the entries of a map are reached with the tag `""`, whatever the tag of
the field that holds them: `alike` lets them differ under a sensitive name
only. -/
theorem clone_secrets_ignored (E : Env) (sensitiveKeys : List String) (n : Nat)
    (ctx : Option Nat) (canAddr : Bool) (fieldName tag : String) (v w : Value)
    (halike : alike E sensitiveKeys n fieldName tag v w = true)
    (hdepth : n + nextDepth ctx ≤ maxDepth + 1) :
    clone E sensitiveKeys ctx canAddr fieldName v tag
      = clone E sensitiveKeys ctx canAddr fieldName w tag :=
  clone_alike_aux E sensitiveKeys n ctx canAddr fieldName tag v w halike hdepth

/-- Two logins that differ in the password, held in a tagged field and in a
list under the sensitive name `token`, have equal clones under the built-in
key set. -/
theorem clone_secrets_ignored_witness :
    alike sampleEnv blackList 3 "login" "" (loginSample "hunter2") (loginSample "letmein") = true
    ∧ clone sampleEnv blackList none false "login" (loginSample "hunter2") ""
      = clone sampleEnv blackList none false "login" (loginSample "letmein") "" :=
  ⟨by decide,
   clone_secrets_ignored sampleEnv blackList 3 none false "login" "" _ _ (by decide)
     (by decide)⟩

/-- C28 (the code at the failing input): under the built-in key set, two
records of the same shape that differ only in the string held by the list of a
field `Aliases []string` tagged `sensitive:"true"` come out of `clone` each
with its own string, so the two results differ: the slice case passes `""` on
to the elements where the pointer case passes `tag`.  The same two strings
behind a field `Alias *string` with the same tag give equal results. -/
theorem clone_tagged_list_secrets_differ :
    clone sampleEnv blackList none false "profile" (.struct
        [⟨"Aliases", "aliases", "true", true, .slice [.str "hunter2"]⟩]) ""
      = some (.struct [⟨"Aliases", "aliases", "true", true, .slice [.str "hunter2"]⟩])
    ∧ clone sampleEnv blackList none false "profile" (.struct
        [⟨"Aliases", "aliases", "true", true, .slice [.str "letmein"]⟩]) ""
      = some (.struct [⟨"Aliases", "aliases", "true", true, .slice [.str "letmein"]⟩])
    ∧ clone sampleEnv blackList none false "profile" (.struct
        [⟨"Aliases", "aliases", "true", true, .slice [.str "hunter2"]⟩]) ""
      ≠ clone sampleEnv blackList none false "profile" (.struct
        [⟨"Aliases", "aliases", "true", true, .slice [.str "letmein"]⟩]) ""
    ∧ clone sampleEnv blackList none false "profile" (.struct
        [⟨"Alias", "alias", "true", true, .box (.str "hunter2")⟩]) ""
      = clone sampleEnv blackList none false "profile" (.struct
        [⟨"Alias", "alias", "true", true, .box (.str "letmein")⟩]) "" := by
  have h0 : depthReached none = false := rfl
  have h1 : depthReached (some (nextDepth none)) = false := rfl
  have h2 : depthReached (some (nextDepth (some (nextDepth none)))) = false := rfl
  have hk : ¬ (SnakeCase sampleEnv.unicode "aliases" ∈ blackList ∨ "" = "true") := by decide
  have e1 : clone sampleEnv blackList none false "profile" (.struct
        [⟨"Aliases", "aliases", "true", true, .slice [.str "hunter2"]⟩]) ""
      = some (.struct [⟨"Aliases", "aliases", "true", true, .slice [.str "hunter2"]⟩]) := by
    rw [clone_struct h0]
    simp only [forEach, Bool.not_true, Bool.false_eq_true, false_and, if_false]
    rw [show (if "aliases" ≠ "" then "aliases" else "Aliases") = "aliases" from rfl,
      clone_slice h1]
    simp only [forEach]
    rw [clone_str_plain h2 _ hk]
    rfl
  have e2 : clone sampleEnv blackList none false "profile" (.struct
        [⟨"Aliases", "aliases", "true", true, .slice [.str "letmein"]⟩]) ""
      = some (.struct [⟨"Aliases", "aliases", "true", true, .slice [.str "letmein"]⟩]) := by
    rw [clone_struct h0]
    simp only [forEach, Bool.not_true, Bool.false_eq_true, false_and, if_false]
    rw [show (if "aliases" ≠ "" then "aliases" else "Aliases") = "aliases" from rfl,
      clone_slice h1]
    simp only [forEach]
    rw [clone_str_plain h2 _ hk]
    rfl
  have e3 : ∀ s : String, clone sampleEnv blackList none false "profile" (.struct
        [⟨"Alias", "alias", "true", true, .box (.str s)⟩]) ""
      = some (.struct [⟨"Alias", "alias", "true", true, .box (.str "*")⟩]) := by
    intro s
    rw [clone_struct h0]
    simp only [forEach, Bool.not_true, Bool.false_eq_true, false_and, if_false]
    rw [show (if "alias" ≠ "" then "alias" else "Alias") = "alias" from rfl,
      clone_box h1, clone_str_redact h2 (Or.inr rfl)]
    rfl
  refine ⟨e1, e2, ?_, ?_⟩
  · rw [e1, e2]
    intro h
    simp at h
  · rw [e3, e3]

/-! ### Separators in the output of `SnakeCase` -/

/-- With disjoint categories at most one separator is written before a rune,
and none at the start or after a delimiter. -/
theorem separatorsBefore_cases {U : Unicode} (hU : U.Categories) (d : Char) (i : Nat)
    (prev curr : Char) (rest : List Char) :
    separatorsBefore U d i prev curr rest = []
    ∨ (separatorsBefore U d i prev curr rest = [d] ∧ 0 < i
        ∧ isDelimiterOptimized prev = false) := by
  have f1 := hU.number_upper curr
  have f2 := hU.number_upper prev
  have f3 := hU.number_lower prev
  have f4 := hU.delimiter prev
  have key : ∀ (nl : Bool),
      ((if 0 < i ∧ U.isUpper curr = true ∧ (U.isLower prev = true ∨
          (U.isUpper prev = true ∧ nl = true)) then [d] else [])
        ++ (if U.isNumber curr = true then
              (if 0 < i ∧ (!U.isNumber prev) = true ∧ (!isDelimiterOptimized prev) = true
                  ∧ U.isUpper prev = true then [d] else [])
            else (if 0 < i ∧ U.isNumber prev = true ∧ U.isUpper curr = true then [d] else [])) = []
      ∨ ((if 0 < i ∧ U.isUpper curr = true ∧ (U.isLower prev = true ∨
          (U.isUpper prev = true ∧ nl = true)) then [d] else [])
        ++ (if U.isNumber curr = true then
              (if 0 < i ∧ (!U.isNumber prev) = true ∧ (!isDelimiterOptimized prev) = true
                  ∧ U.isUpper prev = true then [d] else [])
            else (if 0 < i ∧ U.isNumber prev = true ∧ U.isUpper curr = true then [d] else [])) = [d]
          ∧ 0 < i ∧ isDelimiterOptimized prev = false)) := by
    intro nl
    by_cases hi : 0 < i
    · cases hd : isDelimiterOptimized prev <;> cases hpu : U.isUpper prev <;>
        cases hpl : U.isLower prev <;> cases hpn : U.isNumber prev <;>
        cases hcu : U.isUpper curr <;> cases hcn : U.isNumber curr <;>
        cases nl <;> simp_all
    · left
      simp [hi]
  exact key _

/-- One step of the loop, with the builder it leaves: a delimiter adds `_` or
nothing, any other rune adds itself, after one `_` or none; and `_` is only
added to a builder that does not end with `_`. -/
theorem loop_step_shape {U : Unicode} (hU : U.Categories) (i : Nat) (prev curr : Char)
    (rest b : List Char) (h : builderInv i prev b) :
    ∃ b', delimiterLoop U '_' U.toLower i prev (curr :: rest) b
        = delimiterLoop U '_' U.toLower (i + 1) curr rest b'
      ∧ builderInv (i + 1) curr b'
      ∧ ((isDelimiterOptimized curr = true
          ∧ (b' = b ∨ (b' = b ++ ['_'] ∧ b ≠ [] ∧ b.getLast? ≠ some '_')))
        ∨ (isDelimiterOptimized curr = false
          ∧ ∃ x, x = (if U.isNumber curr then curr else U.toLower curr) ∧ x ≠ '_'
            ∧ (b' = b ++ [x] ∨ (b' = b ++ ['_', x] ∧ b ≠ [] ∧ b.getLast? ≠ some '_')))) := by
  obtain ⟨hhead, hzero, hdel, hrune⟩ := h
  cases hc : isDelimiterOptimized curr with
  | true =>
    refine ⟨_, loop_delimiter hc, ?_, Or.inl ⟨rfl, ?_⟩⟩
    · by_cases hw : 0 < i ∧ isDelimiterOptimized prev = false
      · obtain ⟨hb, _⟩ := hrune hw.1 hw.2
        rw [if_pos hw]
        refine ⟨?_, by omega, (fun _ _ _ => getLast?_append_singleton b '_'),
          (fun _ hx => by rw [hc] at hx; cases hx)⟩
        cases b with
        | nil => exact absurd rfl hb
        | cons x t => simpa using hhead
      · rw [if_neg hw]
        refine ⟨hhead, by omega, (fun _ _ hb => ?_), (fun _ hx => by rw [hc] at hx; cases hx)⟩
        by_cases hi : 0 < i
        · cases hp : isDelimiterOptimized prev with
          | true => exact hdel hi hp hb
          | false => exact absurd ⟨hi, hp⟩ hw
        · exact absurd (hzero (by omega)) hb
    · by_cases hw : 0 < i ∧ isDelimiterOptimized prev = false
      · rw [if_pos hw]
        exact Or.inr ⟨rfl, (hrune hw.1 hw.2).1, (hrune hw.1 hw.2).2⟩
      · rw [if_neg hw]
        exact Or.inl rfl
  | false =>
    have hx := written_ne_underscore hU hc
    have hb' : ∀ (pre : List Char), (pre = [] ∨ (pre = ['_'] ∧ b ≠ [] ∧ b.getLast? ≠ some '_')) →
        builderInv (i + 1) curr
          (b ++ pre ++ [if U.isNumber curr then curr else U.toLower curr]) := by
      intro pre hpre
      refine ⟨?_, by omega, (fun _ hx' => by rw [hc] at hx'; cases hx'),
        (fun _ _ => ⟨by simp, ?_⟩)⟩
      · rcases hpre with rfl | ⟨rfl, hb, _⟩
        · cases b with
          | cons y t => simpa using hhead
          | nil =>
            simp only [List.append_nil, List.nil_append, List.head?_cons, ne_eq,
              Option.some.injEq]
            exact hx
        · cases b with
          | cons y t => simpa using hhead
          | nil => exact absurd rfl hb
      · rw [getLast?_append_singleton]
        simp only [ne_eq, Option.some.injEq]
        exact hx
    rcases separatorsBefore_cases hU '_' i prev curr rest with hs | ⟨hs, hi, hp⟩
    · refine ⟨_, loop_rune U '_' U.toLower i prev curr rest b hc, ?_, Or.inr ⟨rfl, _, rfl, hx, ?_⟩⟩
      · rw [hs]
        exact hb' [] (Or.inl rfl)
      · rw [hs]
        exact Or.inl (by simp)
    · refine ⟨_, loop_rune U '_' U.toLower i prev curr rest b hc, ?_, Or.inr ⟨rfl, _, rfl, hx, ?_⟩⟩
      · rw [hs]
        exact hb' ['_'] (Or.inr ⟨rfl, hrune hi hp⟩)
      · rw [hs]
        exact Or.inr ⟨by simp, hrune hi hp⟩

theorem hasDoubleSeparator_snoc :
    ∀ (l : List Char) (y : Char), hasDoubleSeparator (l ++ [y])
      = (hasDoubleSeparator l || (decide (l.getLast? = some '_') && y == '_'))
  | [], y => by simp [hasDoubleSeparator]
  | [a], y => by
    simp only [List.singleton_append, hasDoubleSeparator, Bool.or_false, List.getLast?_singleton,
      Option.some.injEq, Bool.false_or]
    cases h : a == '_' <;> simp_all
  | a :: b :: rest, y => by
    have ih := hasDoubleSeparator_snoc (b :: rest) y
    simp only [List.cons_append] at ih ⊢
    simp only [hasDoubleSeparator, ih, List.getLast?_cons_cons, Bool.or_assoc]

/-- Appending `_` to a builder that does not end with `_`, or a rune other
than `_`, puts no two `_` side by side. -/
theorem hasDoubleSeparator_step {b b' : List Char} (hb : hasDoubleSeparator b = false)
    (h : b' = b ∨ (b' = b ++ ['_'] ∧ b ≠ [] ∧ b.getLast? ≠ some '_')
      ∨ ∃ x, x ≠ '_' ∧ (b' = b ++ [x] ∨ (b' = b ++ ['_', x] ∧ b ≠ [] ∧ b.getLast? ≠ some '_'))) :
    hasDoubleSeparator b' = false := by
  rcases h with rfl | ⟨rfl, _, hl⟩ | ⟨x, hx, rfl | ⟨rfl, _, hl⟩⟩
  · exact hb
  · rw [hasDoubleSeparator_snoc, hb]
    simp [hl]
  · rw [hasDoubleSeparator_snoc, hb]
    simp [hx]
  · have e : b ++ ['_', x] = (b ++ ['_']) ++ [x] := by simp
    rw [e, hasDoubleSeparator_snoc, hasDoubleSeparator_snoc, hb]
    simp [hl, hx]

/-- The loop puts no two `_` side by side. -/
theorem loop_no_double {U : Unicode} (hU : U.Categories) :
    ∀ (runes : List Char) (i : Nat) (prev : Char) (b : List Char), builderInv i prev b →
      hasDoubleSeparator b = false →
      hasDoubleSeparator (delimiterLoop U '_' U.toLower i prev runes b) = false
  | [], _, _, _, _, hb => by simpa [delimiterLoop] using hb
  | curr :: rest, i, prev, b, hinv, hb => by
    obtain ⟨b', e, hinv', hshape⟩ := loop_step_shape hU i prev curr rest b hinv
    rw [e]
    apply loop_no_double hU rest (i + 1) curr b' hinv'
    apply hasDoubleSeparator_step hb
    rcases hshape with ⟨_, h | h⟩ | ⟨_, x, _, hx, h⟩
    · exact Or.inl h
    · exact Or.inr (Or.inl h)
    · exact Or.inr (Or.inr ⟨x, hx, h⟩)

theorem builderInv_start : builderInv 0 (Char.ofNat 0) [] :=
  ⟨by simp, fun _ => rfl, fun h => absurd h (by omega), fun h => absurd h (by omega)⟩

/-- C21: separator runs collapse.  For every input string, with tables whose
categories are disjoint as Go's are, the output of `SnakeCase` holds no two
adjacent `_`, whether the separators come from runs of delimiters in the input
or are inserted at case and digit boundaries. -/
theorem SnakeCase_no_double (U : Unicode) (hU : U.Categories) (s : String) :
    hasDoubleSeparator (SnakeCase U s).toList = false := by
  by_cases hr : trimSpace U s.toList = []
  · have e : (SnakeCase U s).toList = [] := by
      simp only [SnakeCase, delimiterCase, hr, if_true]
      rfl
    rw [e]
    rfl
  · have e : (SnakeCase U s).toList
        = delimiterLoop U '_' U.toLower 0 (Char.ofNat 0) (trimSpace U s.toList) [] := by
      simp only [SnakeCase, delimiterCase, if_neg hr, Bool.false_eq_true, if_false]
      rfl
    rw [e]
    exact loop_no_double hU _ 0 _ [] builderInv_start rfl

/-- C21 on a string with runs of spaces, hyphens and underscores and with a
case and a digit boundary, with the ASCII tables. -/
theorem SnakeCase_no_double_witness :
    hasDoubleSeparator (SnakeCase Unicode.ascii "user  -- name__ID_2_Word").toList = false
    ∧ SnakeCase Unicode.ascii "user  -- name__ID_2_Word" = "user_name_id_2_word" :=
  ⟨SnakeCase_no_double Unicode.ascii ascii_categories "user  -- name__ID_2_Word", by decide⟩

/-! ### `SnakeCase` applied twice -/

set_option maxRecDepth 100000 in
theorem written_settled : ∀ c : Char, c.toNat < 128 → isDelimiterOptimized c = false →
    Unicode.ascii.isSpace c = false →
    settled (if Unicode.ascii.isNumber c then c else Unicode.ascii.toLower c) = true := by
  apply ascii_forall
  decide

set_option maxRecDepth 100000 in
theorem settled_facts : ∀ x : Char, x.toNat < 128 → settled x = true →
    Unicode.ascii.isUpper x = false ∧ Unicode.ascii.isSpace x = false
      ∧ Unicode.ascii.toLower x = x
      ∧ (x = '_' ∨ isDelimiterOptimized x = false) := by
  apply ascii_forall
  decide

theorem settled_ascii {x : Char} (h : settled x = true) : x.toNat < 128 := by
  simp only [settled, Bool.and_eq_true, decide_eq_true_eq] at h
  exact h.1.1.1

set_option maxRecDepth 100000 in
theorem space_is_delimiter : ∀ c : Char, c.toNat < 128 → c ≠ '\x0b' → c ≠ '\x0c' →
    Unicode.ascii.isSpace c = true → isDelimiterOptimized c = true := by
  apply ascii_forall
  decide

/-- On ASCII runes whose white space is a delimiter, the loop writes settled
runes only. -/
theorem loop_settled :
    ∀ (runes : List Char) (i : Nat) (prev : Char) (b : List Char), builderInv i prev b →
      (∀ x ∈ b, settled x = true) →
      (∀ c ∈ runes, c.toNat < 128
        ∧ (Unicode.ascii.isSpace c = true → isDelimiterOptimized c = true)) →
      ∀ x ∈ delimiterLoop Unicode.ascii '_' Unicode.ascii.toLower i prev runes b,
        settled x = true
  | [], _, _, _, _, hb, _ => by simpa [delimiterLoop] using hb
  | curr :: rest, i, prev, b, hinv, hb, hr => by
    obtain ⟨b', e, hinv', hshape⟩ := loop_step_shape ascii_categories i prev curr rest b hinv
    rw [e]
    apply loop_settled rest (i + 1) curr b' hinv' _
      (fun c hc => hr c (List.mem_cons_of_mem _ hc))
    obtain ⟨h128, hsp⟩ := hr curr (List.mem_cons_self _ _)
    have hu : settled '_' = true := by decide
    rcases hshape with ⟨_, rfl | ⟨rfl, _, _⟩⟩ | ⟨hc, x, hx, _, rfl | ⟨rfl, _, _⟩⟩
    · exact hb
    · intro y hy
      rcases List.mem_append.mp hy with hy | hy
      · exact hb y hy
      · simp only [List.mem_singleton] at hy
        rw [hy]; exact hu
    · have hs : Unicode.ascii.isSpace curr = false := by
        cases h : Unicode.ascii.isSpace curr with
        | false => rfl
        | true => rw [hsp h] at hc; cases hc
      have hw := written_settled curr h128 hc hs
      intro y hy
      rcases List.mem_append.mp hy with hy | hy
      · exact hb y hy
      · simp only [List.mem_singleton] at hy
        rw [hy, hx]; exact hw
    · have hs : Unicode.ascii.isSpace curr = false := by
        cases h : Unicode.ascii.isSpace curr with
        | false => rfl
        | true => rw [hsp h] at hc; cases hc
      have hw := written_settled curr h128 hc hs
      intro y hy
      rcases List.mem_append.mp hy with hy | hy
      · exact hb y hy
      · simp only [List.mem_cons, List.mem_singleton, List.not_mem_nil, or_false] at hy
        rcases hy with rfl | rfl
        · exact hu
        · rw [hx]; exact hw

theorem hasDoubleSeparator_tail {a : Char} {l : List Char}
    (h : hasDoubleSeparator (a :: l) = false) :
    hasDoubleSeparator l = false ∧ (a = '_' → l.head? ≠ some '_') := by
  cases l with
  | nil => exact ⟨rfl, by simp⟩
  | cons b rest =>
    simp only [hasDoubleSeparator, Bool.or_eq_false_iff, Bool.and_eq_false_iff,
      beq_eq_false_iff_ne, ne_eq] at h
    refine ⟨h.2, fun ha => ?_⟩
    simp only [List.head?_cons, ne_eq, Option.some.injEq]
    rcases h.1 with h1 | h1
    · exact absurd ha h1
    · exact h1

/-- The loop writes settled runes without two adjacent `_` as they are, when
every `_` in them follows a rune that is no delimiter. -/
theorem loop_settled_id :
    ∀ (o : List Char) (i : Nat) (prev : Char) (b : List Char),
      (∀ x ∈ o, settled x = true) → hasDoubleSeparator o = false →
      Unicode.ascii.isUpper prev = false →
      (o.head? = some '_' → 0 < i ∧ isDelimiterOptimized prev = false) →
      delimiterLoop Unicode.ascii '_' Unicode.ascii.toLower i prev o b = b ++ o
  | [], _, _, b, _, _, _, _ => by simp [delimiterLoop]
  | y :: rest, i, prev, b, hs, hd, hp, hh => by
    have hy := hs y (List.mem_cons_self _ _)
    obtain ⟨y1, _, y3, y4⟩ := settled_facts y (settled_ascii hy) hy
    obtain ⟨hd1, hd2⟩ := hasDoubleSeparator_tail hd
    have hrest := fun x hx => hs x (List.mem_cons_of_mem _ hx)
    by_cases hu : y = '_'
    · subst hu
      obtain ⟨hi, hpd⟩ := hh rfl
      rw [loop_delimiter (by decide), if_pos ⟨hi, hpd⟩,
        loop_settled_id rest (i + 1) '_' _ hrest hd1 (by decide)
          (fun h => absurd h (hd2 rfl))]
      simp
    · have hyd : isDelimiterOptimized y = false := by
        rcases y4 with h | h
        · exact absurd h hu
        · exact h
      have ih := loop_settled_id rest (i + 1) y (b ++ [y]) hrest hd1 y1
        (fun _ => ⟨by omega, hyd⟩)
      cases hn : Unicode.ascii.isNumber y with
      | true =>
        rw [loop_number_plain hyd y1 hn (Or.inr hp), ih]
        simp
      | false =>
        rw [loop_plain hyd y1 hn, y3, ih]
        simp

/-- `SnakeCase` with the ASCII tables is idempotent on ASCII text whose white
space is a delimiter. -/
theorem SnakeCase_idempotent_ascii (s : String)
    (h : ∀ c ∈ s.toList, c.toNat < 128
      ∧ (Unicode.ascii.isSpace c = true → isDelimiterOptimized c = true)) :
    SnakeCase Unicode.ascii (SnakeCase Unicode.ascii s) = SnakeCase Unicode.ascii s
    ∧ ∀ x ∈ (SnakeCase Unicode.ascii s).toList, x.toNat < 128 := by
  by_cases hr : trimSpace Unicode.ascii s.toList = []
  · have e : SnakeCase Unicode.ascii s = String.mk [] := by
      simp only [SnakeCase, delimiterCase, hr, if_true]
    rw [e]
    exact ⟨by decide, by intro x hx; cases hx⟩
  · have e : SnakeCase Unicode.ascii s
        = String.mk (delimiterLoop Unicode.ascii '_' Unicode.ascii.toLower 0 (Char.ofNat 0)
            (trimSpace Unicode.ascii s.toList) []) := by
      simp only [SnakeCase, delimiterCase, if_neg hr, Bool.false_eq_true, if_false]
    have hrunes : ∀ c ∈ trimSpace Unicode.ascii s.toList, c.toNat < 128
        ∧ (Unicode.ascii.isSpace c = true → isDelimiterOptimized c = true) :=
      fun c hc => h c (mem_of_mem_trimSpace hc)
    have hset := loop_settled _ 0 (Char.ofNat 0) [] builderInv_start
      (by intro x hx; cases hx) hrunes
    have hdb := loop_no_double ascii_categories (trimSpace Unicode.ascii s.toList) 0
      (Char.ofNat 0) [] builderInv_start rfl
    have hhead := (loop_ends ascii_categories (trimSpace Unicode.ascii s.toList) 0
      (Char.ofNat 0) [] builderInv_start).1
    rw [e]
    refine ⟨?_, fun x hx => settled_ascii (hset x hx)⟩
    generalize delimiterLoop Unicode.ascii '_' Unicode.ascii.toLower 0 (Char.ofNat 0)
      (trimSpace Unicode.ascii s.toList) [] = o at hset hdb hhead
    by_cases ho : o = []
    · subst ho
      decide
    · rw [SnakeCase_eq_loop Unicode.ascii o ho
        (fun c hc => (settled_facts c (settled_ascii (hset c hc)) (hset c hc)).2.1),
        loop_settled_id o 0 (Char.ofNat 0) [] hset hdb (by decide)
          (fun h0 => absurd h0 hhead)]
      simp

/-- C29: `SnakeCase` is idempotent on ASCII text without vertical tab and form
feed, the two ASCII runes that `strings.TrimSpace` trims and that are no
delimiters: for every such string `s`, `SnakeCase(SnakeCase(s)) =
SnakeCase(s)`, with any tables that are Go's on ASCII. -/
theorem SnakeCase_idempotent (U : Unicode) (hU : U.AgreesOnASCII) (s : String)
    (h : ∀ c ∈ s.toList, c.toNat < 128 ∧ c ≠ '\x0b' ∧ c ≠ '\x0c') :
    SnakeCase U (SnakeCase U s) = SnakeCase U s := by
  have h1 : ∀ c ∈ s.toList, c.toNat < 128 := fun c hc => (h c hc).1
  obtain ⟨k1, k2⟩ := SnakeCase_idempotent_ascii s
    (fun c hc => ⟨h1 c hc, space_is_delimiter c (h1 c hc) (h c hc).2.1 (h c hc).2.2⟩)
  rw [SnakeCase_congr_ascii hU s h1, SnakeCase_congr_ascii hU _ k2, k1]

/-- C29 on a key of the example: `PhoneNumbers` normalizes to `phone_numbers`,
which normalizes to itself, with the ASCII tables. -/
theorem SnakeCase_idempotent_witness :
    SnakeCase Unicode.ascii "PhoneNumbers" = "phone_numbers"
    ∧ SnakeCase Unicode.ascii (SnakeCase Unicode.ascii "PhoneNumbers")
      = SnakeCase Unicode.ascii "PhoneNumbers" :=
  ⟨by decide, SnakeCase_idempotent Unicode.ascii ascii_agrees "PhoneNumbers" (by decide)⟩

/-- C29, counterexample: after a leading underscore a form feed is written as
it is, and trimmed by the second pass: `SnakeCase` of `_\fkey` is `\fkey`,
whose `SnakeCase` is `key`. -/
theorem SnakeCase_twice_differs :
    SnakeCase Unicode.ascii "_\x0ckey" = "\x0ckey"
    ∧ SnakeCase Unicode.ascii (SnakeCase Unicode.ascii "_\x0ckey") = "key" := by
  decide

end Logx
